import Mathlib

/-!
# Mail ingestion and resume field extraction

A shallow embedding of `backend/services/pdfParser.js` and
`backend/services/emailService.js`, followed by the properties proved about them.

* JavaScript strings are sequences of UTF-16 code units (`JSString`), because
  `length`, `substring` and regular expressions without the `u` flag all work on
  code units.
* Regular expressions are embedded as a small syntax tree (`Regex`) with the
  backtracking semantics of ECMAScript: `Regex.ends` lists every way a pattern can
  match at a position, in the priority order in which a backtracking matcher tries
  them, so that the head of the list is the match JavaScript reports.
* Effectful calls (mail parser, file system, PDF text layer, OCR, storage) are
  represented by their outcomes, passed in as data.
-/

set_option linter.unusedVariables false
set_option linter.deprecated false

namespace Somehow

/-! ## JavaScript strings -/

/-- A JavaScript string, as its sequence of UTF-16 code units. -/
abbrev JSString := List Nat

/-- UTF-16 encoding of one Unicode scalar value. -/
def utf16 (c : Char) : List Nat :=
  if c.toNat < 65536 then [c.toNat]
  else [55296 + (c.toNat - 65536) / 1024, 56320 + (c.toNat - 65536) % 1024]

/-- The JavaScript string written by a literal. -/
def js (s : String) : JSString := s.toList.flatMap utf16

/-- Class `[0-9]`, also `\d`. -/
def isDigit (c : Nat) : Bool := decide (48 ≤ c ∧ c ≤ 57)

/-- Class `[A-Z]`. -/
def isUpper (c : Nat) : Bool := decide (65 ≤ c ∧ c ≤ 90)

/-- Class `[a-z]`. -/
def isLower (c : Nat) : Bool := decide (97 ≤ c ∧ c ≤ 122)

/-- Class `[A-Za-z]`. -/
def isAlpha (c : Nat) : Bool := isUpper c || isLower c

/-- Class `\s`: ECMAScript WhiteSpace and LineTerminator code units. It is also the set
removed by `String.prototype.trim`. -/
def isSpace (c : Nat) : Bool :=
  c == 9 || c == 10 || c == 11 || c == 12 || c == 13 || c == 32 || c == 160 || c == 5760 ||
  decide (8192 ≤ c ∧ c ≤ 8202) || c == 8232 || c == 8233 || c == 8239 || c == 8287 ||
  c == 12288 || c == 65279

/-- Class `\w`. -/
def isWord (c : Nat) : Bool := isAlpha c || isDigit c || c == 95

/-- ECMAScript LineTerminator, used by `^` and `$` under the `m` flag. -/
def isLineTerminator (c : Nat) : Bool := c == 10 || c == 13 || c == 8232 || c == 8233

/-- The method `String.prototype.trim`. -/
def trim (s : JSString) : JSString :=
  ((s.dropWhile isSpace).reverse.dropWhile isSpace).reverse

/-- The method `String.prototype.toLowerCase` on the ASCII range; other code units are
left as they are. The source lower-cases e-mail matches, which are ASCII, and attachment
file names before an `endsWith('.pdf')` test, which no non-ASCII code unit can satisfy
after lower-casing. -/
def toLowerCase (s : JSString) : JSString :=
  s.map fun c => if isUpper c then c + 32 else c

/-- The method `String.prototype.toUpperCase` on the ASCII range; other code units are
left as they are. The source only compares a line with its upper-cased form in
conjunction with a test that the line consists of `[A-Z]` and white space, so the value
of each such conjunction is the one JavaScript computes. -/
def toUpperCase (s : JSString) : JSString :=
  s.map fun c => if isLower c then c - 32 else c

/-- The method `String.prototype.endsWith`. -/
def endsWith (s suffix : JSString) : Bool :=
  decide (s.drop (s.length - suffix.length) = suffix ∧ suffix.length ≤ s.length)

/-- The method `String.prototype.substring(0, n)`. -/
def substring0 (s : JSString) (n : Nat) : JSString := s.take n

/-- Truthiness of an optional string: defined and non-empty. -/
def truthy : Option JSString → Bool
  | some (_ :: _) => true
  | _ => false

/-- The expression `x || d` for an optional string `x`. -/
def orElseStr (x : Option JSString) (d : JSString) : JSString :=
  match x with
  | some (c :: cs) => c :: cs
  | _ => d

/-- Worker of `decimal`, with fuel. -/
def decimalAux : Nat → Nat → List Nat → List Nat
  | 0, _, acc => acc
  | fuel + 1, n, acc =>
    if n < 10 then (48 + n) :: acc else decimalAux fuel (n / 10) ((48 + n % 10) :: acc)

/-- Decimal rendering of a non-negative integer, as template literals produce it. -/
def decimal (n : Nat) : JSString := decimalAux (n + 1) n []

/-! ## Regular expressions -/

/-- State of a match in progress: the code units before the cursor (nearest first),
the code units after it, and the capture groups recorded so far (latest first). -/
structure MState where
  pre : List Nat
  rest : List Nat
  caps : List (Nat × JSString)
deriving DecidableEq, Repr

/-- The regular-expression constructs used by the sources. Every quantifier in the
source patterns applies to an atom matching one code unit (`rep`), except one optional
group (`opt`). The `i` flag is embedded in the atoms (`ci`), the `m` flag in the choice
between `bol` and `bolM`. No source pattern has a capture group inside a quantifier, so
captures are never reset. -/
inductive Regex where
  /-- the empty pattern -/
  | eps
  /-- one code unit of a class -/
  | chr (p : Nat → Bool)
  /-- `^` without the `m` flag -/
  | bol
  /-- `^` with the `m` flag -/
  | bolM
  /-- `$` without the `m` flag -/
  | eol
  /-- `\b` -/
  | wordB
  /-- concatenation -/
  | seq (a b : Regex)
  /-- alternation `a|b` -/
  | alt (a b : Regex)
  /-- capture group number `i` -/
  | group (i : Nat) (r : Regex)
  /-- greedy quantifier `{lo,hi}` on a one-code-unit atom; `hi = none` is unbounded -/
  | rep (p : Nat → Bool) (lo : Nat) (hi : Option Nat)
  /-- greedy `?` on a group -/
  | opt (r : Regex)

/-- Greedy repetition of a one-code-unit atom: the end states, longest first. -/
def repEnds (p : Nat → Bool) (caps : List (Nat × JSString)) :
    Nat → Option Nat → List Nat → List Nat → List MState
  | lo, _, pre, [] => if lo = 0 then [⟨pre, [], caps⟩] else []
  | lo, hi, pre, c :: cs =>
    (if hi ≠ some 0 ∧ p c = true then
        repEnds p caps (lo - 1) (hi.map (· - 1)) (c :: pre) cs
      else [])
      ++ (if lo = 0 then [⟨pre, c :: cs, caps⟩] else [])

/-- Whether the code unit next to the cursor on one side is a word character. -/
def isWordAt : List Nat → Bool
  | [] => false
  | c :: _ => isWord c

/-- All end states of a pattern started in state `s`, in backtracking priority order. -/
def Regex.ends : Regex → MState → List MState
  | .eps, s => [s]
  | .chr p, s =>
    match s.rest with
    | [] => []
    | c :: cs => if p c then [⟨c :: s.pre, cs, s.caps⟩] else []
  | .bol, s =>
    match s.pre with
    | [] => [s]
    | _ :: _ => []
  | .bolM, s =>
    match s.pre with
    | [] => [s]
    | c :: _ => if isLineTerminator c then [s] else []
  | .eol, s =>
    match s.rest with
    | [] => [s]
    | _ :: _ => []
  | .wordB, s => if isWordAt s.pre != isWordAt s.rest then [s] else []
  | .seq a b, s => (a.ends s).flatMap b.ends
  | .alt a b, s => a.ends s ++ b.ends s
  | .group i r, s =>
    (r.ends s).map fun e =>
      { e with caps := (i, s.rest.take (s.rest.length - e.rest.length)) :: e.caps }
  | .rep p lo hi, s => repEnds p s.caps lo hi s.pre s.rest
  | .opt r, s => (r.ends s).filter (fun e => e.rest.length != s.rest.length) ++ [s]

/-- Concatenation of a list of patterns. -/
def Regex.cat : List Regex → Regex
  | [] => .eps
  | [r] => r
  | r :: rs => .seq r (Regex.cat rs)

/-- Alternation of a non-empty list of patterns. -/
def Regex.any : List Regex → Regex
  | [] => .chr fun _ => false
  | [r] => r
  | r :: rs => .alt r (Regex.any rs)

/-- A literal code unit. -/
def Regex.unit (c : Char) : Regex := .chr fun x => x == c.toNat

/-- Whether code unit `x` is the code unit `c` up to ASCII letter case. Under the `i`
flag without the `u` flag no code unit outside ASCII is equated with an ASCII letter. -/
def eqIgnoreCase (c x : Nat) : Bool :=
  x == c || (isLower c && x + 32 == c) || (isUpper c && x == c + 32)

/-- A literal code unit under the `i` flag. -/
def Regex.ci (c : Nat) : Regex := .chr (eqIgnoreCase c)

/-- A literal word. -/
def Regex.lit (s : String) : Regex := Regex.cat ((js s).map fun c => .chr (· == c))

/-- A literal word under the `i` flag. -/
def Regex.litI (s : String) : Regex := Regex.cat ((js s).map Regex.ci)

/-- Quantifier `*` on a class. -/
def Regex.star (p : Nat → Bool) : Regex := .rep p 0 none

/-- Quantifier `+` on a class. -/
def Regex.plus (p : Nat → Bool) : Regex := .rep p 1 none

/-- Quantifier `?` on a class. -/
def Regex.optc (p : Nat → Bool) : Regex := .rep p 0 (some 1)

/-- The match of a pattern at one position: the first end state in priority order. -/
def matchAt (r : Regex) (pre rest : List Nat) : Option MState :=
  (r.ends ⟨pre, rest, []⟩).head?

/-- A successful match: where it starts, what follows the start, and the end state. -/
structure Found where
  pre : List Nat
  rest : List Nat
  fin : MState
deriving DecidableEq, Repr

/-- The matched text `match[0]`. -/
def Found.whole (f : Found) : JSString :=
  f.rest.take (f.rest.length - f.fin.rest.length)

/-- The capture `match[i]`, `none` when the group did not take part. -/
def Found.cap (f : Found) (i : Nat) : Option JSString :=
  (f.fin.caps.find? fun c => c.1 == i).map fun c => c.2

/-- Leftmost match at or after the cursor (`RegExp.prototype.exec`). -/
def search (r : Regex) : List Nat → List Nat → Option Found
  | pre, [] => (matchAt r pre []).map fun e => ⟨pre, [], e⟩
  | pre, c :: cs =>
    match matchAt r pre (c :: cs) with
    | some e => some ⟨pre, c :: cs, e⟩
    | none => search r (c :: pre) cs

/-- The call `text.match(r)` for a pattern without the `g` flag. -/
def jsMatch (r : Regex) (text : JSString) : Option Found := search r [] text

/-- The call `r.test(text)`. -/
def test (r : Regex) (text : JSString) : Bool := (search r [] text).isSome

/-- Worker of `matchAll`: successive matches from the cursor; after an empty match the
cursor advances by one code unit. -/
def matchAllAux (r : Regex) : Nat → List Nat → List Nat → List JSString
  | 0, _, _ => []
  | fuel + 1, pre, rest =>
    match search r pre rest with
    | none => []
    | some f =>
      f.whole ::
        (if f.fin.rest.length = f.rest.length then
          match f.fin.rest with
          | [] => []
          | c :: cs => matchAllAux r fuel (c :: f.fin.pre) cs
        else matchAllAux r fuel f.fin.pre f.fin.rest)

/-- The call `text.match(r)` for a pattern with the `g` flag: the list of the matched
texts, in text order, without captures. The empty list stands for `null`. -/
def matchAll (r : Regex) (text : JSString) : List JSString :=
  matchAllAux r (text.length + 1) [] text

/-- Worker of `replaceAll`. -/
def replaceAllAux (r : Regex) (repl : JSString) : Nat → List Nat → List Nat → JSString
  | 0, _, rest => rest
  | fuel + 1, pre, rest =>
    match search r pre rest with
    | none => rest
    | some f =>
      rest.take (rest.length - f.rest.length) ++ repl ++
        (if f.fin.rest.length = f.rest.length then
          match f.fin.rest with
          | [] => []
          | c :: cs => c :: replaceAllAux r repl fuel (c :: f.fin.pre) cs
        else replaceAllAux r repl fuel f.fin.pre f.fin.rest)

/-- The call `text.replace(r, repl)` for a pattern with the `g` flag and a replacement
text without `$` references. -/
def replaceAll (r : Regex) (repl : JSString) (text : JSString) : JSString :=
  replaceAllAux r repl (text.length + 1) [] text

/-- Worker of `split`, with fuel: `seg` holds, reversed, the code units since the last
separator. A match is looked for at the cursor only; an empty match right after the
last separator is skipped. -/
def splitAux (r : Regex) : Nat → List Nat → List Nat → List Nat → List JSString
  | 0, seg, _, rest => [seg.reverse ++ rest]
  | _ + 1, seg, _, [] => [seg.reverse]
  | fuel + 1, seg, pre, c :: cs =>
    match matchAt r pre (c :: cs) with
    | none => splitAux r fuel (c :: seg) (c :: pre) cs
    | some e =>
      if e.rest.length = (c :: cs).length ∧ seg = [] then
        splitAux r fuel (c :: seg) (c :: pre) cs
      else seg.reverse :: splitAux r fuel [] e.pre e.rest

/-- The call `text.split(r)` for a pattern without capture groups. Each step of the
worker either consumes a code unit or follows an empty match by a consuming step, so
the fuel is never exhausted. -/
def split (r : Regex) (text : JSString) : List JSString :=
  match text with
  | [] => if (matchAt r [] []).isSome then [] else [[]]
  | _ :: _ => splitAux r (2 * text.length + 1) [] [] text

/-! ## pdfParser.js -/

/-- The result object of `extractResumeData`. -/
structure ResumeData where
  name : JSString
  email : JSString
  contactNumber : JSString
  dateOfBirth : JSString
deriving DecidableEq, Repr

/-- Class `[^\n\r]`. -/
def notNewline (c : Nat) : Bool := !(c == 10 || c == 13)

/-- Class `[A-Za-z\s]`. -/
def isAlphaSpace (c : Nat) : Bool := isAlpha c || isSpace c

/-- Class `[A-Z\s]`. -/
def isUpperSpace (c : Nat) : Bool := isUpper c || isSpace c

/-- Pattern `/\r?\n/`. -/
def reLineBreak : Regex := Regex.cat [Regex.optc (· == 13), Regex.unit '\n']

/-- Pattern `/\s+/`. -/
def reSpaces : Regex := Regex.plus isSpace

/-- The non-empty trimmed lines: `text.split(/\r?\n/).map(trim).filter(nonempty)`. -/
def lines (text : JSString) : List JSString :=
  ((split reLineBreak text).map trim).filter fun line => decide (line.length > 0)

/-- The list `namePatterns1`. -/
def namePatterns1 : List Regex :=
  [ Regex.cat [Regex.any [.bol, Regex.unit '\n'], Regex.star isSpace, Regex.litI "name",
      Regex.star isSpace, Regex.unit ':', Regex.star isSpace,
      .group 1 (Regex.plus notNewline)],
    Regex.cat [Regex.any [.bol, Regex.unit '\n'], Regex.star isSpace, Regex.litI "full",
      Regex.star isSpace, Regex.litI "name", Regex.star isSpace, Regex.unit ':',
      Regex.star isSpace, .group 1 (Regex.plus notNewline)],
    Regex.cat [Regex.litI "name", Regex.star isSpace, Regex.unit ':', Regex.star isSpace,
      .group 1 (Regex.plus isAlphaSpace)],
    Regex.cat [Regex.litI "full", Regex.star isSpace, Regex.litI "name", Regex.star isSpace,
      Regex.unit ':', Regex.star isSpace, .group 1 (Regex.plus isAlphaSpace)] ]

/-- Strategy 1: the loop over `namePatterns1`; the first pattern that matches with a
non-empty capture sets the name to the trimmed capture and ends the loop. -/
def nameFromLabels : List Regex → JSString → JSString
  | [], _ => []
  | p :: ps, text =>
    match jsMatch p text with
    | none => nameFromLabels ps text
    | some m =>
      match m.cap 1 with
      | some (c :: cs) => trim (c :: cs)
      | _ => nameFromLabels ps text

/-- Pattern `/^[A-Z]+$/`. -/
def reUpperOnly : Regex := Regex.cat [.bol, Regex.plus isUpper, .eol]

/-- Pattern `/^([A-Z]{3,})([A-Z]{3,})$/`. -/
def splitPattern : Regex :=
  Regex.cat [.bol, .group 1 (.rep isUpper 3 none), .group 2 (.rep isUpper 3 none), .eol]

/-- Strategy 2: an all-capitals first line. -/
def nameFromFirstLine (name : JSString) (lines : List JSString) : JSString :=
  match name, lines with
  | [], firstLine :: _ =>
    if firstLine = toUpperCase firstLine ∧
        test reUpperOnly (replaceAll (.chr isSpace) [] firstLine) = true then
      if firstLine.length > 5 ∧ firstLine.length < 30 then
        match jsMatch splitPattern firstLine with
        | some m => (m.cap 1).getD [] ++ js " " ++ (m.cap 2).getD []
        | none => firstLine
      else name
    else name
  | _, _ => name

/-- Pattern `/^[A-Z\s]+$/`. -/
def reUpperSpaceOnly : Regex := Regex.cat [.bol, Regex.plus isUpperSpace, .eol]

/-- The test of strategy 2b on one line. -/
def isAllCapsWords (line : JSString) : Bool :=
  decide (line = toUpperCase line ∧ line.length > 5 ∧ line.length < 50) &&
    (decide ((split reSpaces line).length ≥ 2 ∧ (split reSpaces line).length ≤ 4) &&
      test reUpperSpaceOnly line)

/-- Strategy 2b: the first of the first five lines that passes `isAllCapsWords`. -/
def nameFromCapsLines (name : JSString) (lines : List JSString) : JSString :=
  match name with
  | [] => ((lines.take 5).find? isAllCapsWords).getD []
  | _ :: _ => name

/-- Pattern `/^[A-Z]/`. -/
def reStartsUpper : Regex := Regex.cat [.bol, .chr isUpper]

/-- Pattern `/^[A-Za-z]+$/`. -/
def reAlphaOnly : Regex := Regex.cat [.bol, Regex.plus isAlpha, .eol]

/-- Pattern `/^[A-Za-z\s]+$/`. -/
def reAlphaSpaceOnly : Regex := Regex.cat [.bol, Regex.plus isAlphaSpace, .eol]

/-- The test of strategy 3 on one line. -/
def isCapitalizedWords (line : JSString) : Bool :=
  decide ((split reSpaces line).length ≥ 2 ∧ (split reSpaces line).length ≤ 4) &&
    ((split reSpaces line).all (fun word =>
        decide (word.length > 0) && test reStartsUpper word && test reAlphaOnly word) &&
      test reAlphaSpaceOnly line)

/-- Strategy 3: the first of the first ten lines that passes `isCapitalizedWords`. -/
def nameFromCapitalizedLines (name : JSString) (lines : List JSString) : JSString :=
  match name with
  | [] => ((lines.take 10).find? isCapitalizedWords).getD []
  | _ :: _ => name

/-- Pattern `/^([A-Z][a-z]+\s+[A-Z][a-z]+(?:\s+[A-Z][a-z]+)?)/m`. -/
def namePattern : Regex :=
  Regex.cat [.bolM,
    .group 1 (Regex.cat [.chr isUpper, Regex.plus isLower, Regex.plus isSpace, .chr isUpper,
      Regex.plus isLower,
      .opt (Regex.cat [Regex.plus isSpace, .chr isUpper, Regex.plus isLower])])]

/-- Strategy 4: the "First Last" pattern. -/
def nameFromPattern (name : JSString) (text : JSString) : JSString :=
  match name with
  | [] =>
    match jsMatch namePattern text with
    | none => []
    | some m =>
      match m.cap 1 with
      | some (c :: cs) => trim (c :: cs)
      | _ => []
  | _ :: _ => name

/-- The name section of `extractResumeData`. -/
def extractName (text : JSString) : JSString :=
  nameFromPattern
    (nameFromCapitalizedLines
      (nameFromCapsLines
        (nameFromFirstLine (nameFromLabels namePatterns1 text) (lines text))
        (lines text))
      (lines text))
    text

/-- Class `[a-zA-Z0-9._%+-]`. -/
def isLocalChar (c : Nat) : Bool :=
  isAlpha c || isDigit c || c == 46 || c == 95 || c == 37 || c == 43 || c == 45

/-- Class `[a-zA-Z0-9.-]`. -/
def isDomainChar (c : Nat) : Bool := isAlpha c || isDigit c || c == 46 || c == 45

/-- The address syntax `[a-zA-Z0-9._%+-]+@[a-zA-Z0-9.-]+\.[a-zA-Z]{2,}`. -/
def reAddress : Regex :=
  Regex.cat [Regex.plus isLocalChar, .chr (· == 64), Regex.plus isDomainChar, .chr (· == 46),
    .rep isAlpha 2 none]

/-- The list `emailPatterns`; all four carry the `g` flag. -/
def emailPatterns : List Regex :=
  [ Regex.cat [.wordB, .group 1 reAddress, .wordB],
    Regex.cat [Regex.litI "email", Regex.star isSpace, Regex.unit ':', Regex.star isSpace,
      .group 1 reAddress],
    Regex.cat [Regex.litI "e-mail", Regex.star isSpace, Regex.unit ':', Regex.star isSpace,
      .group 1 reAddress],
    Regex.cat [Regex.litI "mail", Regex.star isSpace, Regex.unit ':', Regex.star isSpace,
      .group 1 reAddress] ]

/-- The pattern applied to each match to take the address out of it. -/
def reAddressInner : Regex := .group 1 reAddress

/-- The inner loop of the e-mail section over the matches of one pattern. -/
def emailFromMatches : List JSString → JSString
  | [] => []
  | m :: ms =>
    match jsMatch reAddressInner m with
    | none => emailFromMatches ms
    | some f =>
      match f.cap 1 with
      | some (c :: cs) => toLowerCase (c :: cs)
      | _ => emailFromMatches ms

/-- The outer loop of the e-mail section over the patterns. -/
def emailFromPatterns : List Regex → JSString → JSString
  | [], _ => []
  | p :: ps, text =>
    match emailFromMatches (matchAll p text) with
    | [] => emailFromPatterns ps text
    | c :: cs => c :: cs

/-- The e-mail section of `extractResumeData`. -/
def extractEmail (text : JSString) : JSString := emailFromPatterns emailPatterns text

/-- The label alternation `(?:phone|mobile|contact|tel|telephone|cell)` under `i`. -/
def rePhoneLabel : Regex :=
  Regex.any [Regex.litI "phone", Regex.litI "mobile", Regex.litI "contact", Regex.litI "tel",
    Regex.litI "telephone", Regex.litI "cell"]

/-- Class `[+\d\s\-()]`. -/
def isPhoneChar (c : Nat) : Bool :=
  c == 43 || isDigit c || isSpace c || c == 45 || c == 40 || c == 41

/-- Class `[-.\s]`. -/
def isPhoneSep (c : Nat) : Bool := c == 45 || c == 46 || isSpace c

/-- The shape `\+?\d{1,4}[-.\s]?\(?\d{1,4}\)?[-.\s]?\d{1,4}[-.\s]?\d{1,9}`. -/
def rePhoneShape : Regex :=
  Regex.cat [Regex.optc (· == 43), .rep isDigit 1 (some 4), Regex.optc isPhoneSep,
    Regex.optc (· == 40), .rep isDigit 1 (some 4), Regex.optc (· == 41), Regex.optc isPhoneSep,
    .rep isDigit 1 (some 4), Regex.optc isPhoneSep, .rep isDigit 1 (some 9)]

/-- The list `phoneWithLabelPatterns`; both carry the `g` flag. -/
def phoneWithLabelPatterns : List Regex :=
  [ Regex.cat [rePhoneLabel, Regex.star isSpace, Regex.optc (· == 58), Regex.star isSpace,
      .group 1 (Regex.plus isPhoneChar)],
    Regex.cat [rePhoneLabel, Regex.star isSpace, Regex.optc (· == 58), Regex.star isSpace,
      .group 1 rePhoneShape] ]

/-- The list `phonePatterns`; both carry the `g` flag. -/
def phonePatterns : List Regex :=
  [ rePhoneShape, Regex.cat [.wordB, .rep isDigit 10 (some 15), .wordB] ]

/-- The expression `match.replace(/[^\d+]/g, '')`. -/
def cleaned (m : JSString) : JSString :=
  replaceAll (.chr fun c => !(isDigit c || c == 43)) [] m

/-- The inner loop of the labelled contact search: the first match whose cleaned form
has length at least 10. -/
def contactFromLabelMatches : List JSString → JSString
  | [] => []
  | m :: ms => if (cleaned m).length ≥ 10 then cleaned m else contactFromLabelMatches ms

/-- The outer loop of the labelled contact search. -/
def contactFromLabelPatterns : List Regex → JSString → JSString
  | [], _ => []
  | p :: ps, text =>
    match contactFromLabelMatches (matchAll p text) with
    | [] => contactFromLabelPatterns ps text
    | c :: cs => c :: cs

/-- The inner loop of the standalone contact search: the first match whose cleaned form
has length between 10 and 15. -/
def contactFromMatches : List JSString → JSString
  | [] => []
  | m :: ms =>
    if (cleaned m).length ≥ 10 ∧ (cleaned m).length ≤ 15 then cleaned m
    else contactFromMatches ms

/-- The outer loop of the standalone contact search. -/
def contactFromPatterns : List Regex → JSString → JSString
  | [], _ => []
  | p :: ps, text =>
    match contactFromMatches (matchAll p text) with
    | [] => contactFromPatterns ps text
    | c :: cs => c :: cs

/-- The contact section of `extractResumeData`. -/
def extractContact (text : JSString) : JSString :=
  match contactFromLabelPatterns phoneWithLabelPatterns text with
  | [] => contactFromPatterns phonePatterns text
  | c :: cs => c :: cs

/-- The label alternation `(?:date\s*of\s*birth|dob|d\.o\.b\.|birth\s*date|born)`
under `i`. -/
def reDobLabel : Regex :=
  Regex.any [
    Regex.cat [Regex.litI "date", Regex.star isSpace, Regex.litI "of", Regex.star isSpace,
      Regex.litI "birth"],
    Regex.litI "dob", Regex.litI "d.o.b.",
    Regex.cat [Regex.litI "birth", Regex.star isSpace, Regex.litI "date"],
    Regex.litI "born"]

/-- Class `[\/\-\.]`. -/
def isDateSep (c : Nat) : Bool := c == 47 || c == 45 || c == 46

/-- The shape `[0-9]{1,2}[\/\-\.][0-9]{1,2}[\/\-\.][0-9]{2,4}`. -/
def reNumericDate : Regex :=
  Regex.cat [.rep isDigit 1 (some 2), .chr isDateSep, .rep isDigit 1 (some 2), .chr isDateSep,
    .rep isDigit 2 (some 4)]

/-- The list `dobPatterns`; all three carry the `g` flag. -/
def dobPatterns : List Regex :=
  [ Regex.cat [reDobLabel, Regex.star isSpace, Regex.optc (· == 58), Regex.star isSpace,
      .group 1 reNumericDate],
    Regex.cat [reDobLabel, Regex.star isSpace, Regex.optc (· == 58), Regex.star isSpace,
      .group 1 (Regex.cat [Regex.plus isAlpha, Regex.plus isSpace, .rep isDigit 1 (some 2),
        Regex.optc (· == 44), Regex.plus isSpace, .rep isDigit 4 (some 4)])],
    Regex.cat [Regex.any [Regex.litI "born", Regex.litI "birth"], Regex.star isSpace,
      Regex.optc (· == 58), Regex.star isSpace, .group 1 reNumericDate] ]

/-- The loop over `dobPatterns`. Each pattern is global, so `originalText.match(pattern)`
is the array of the matched texts: `match[1]` is the second matched text when there is
one, and `match[0]` the first. -/
def dobFromPatterns : List Regex → JSString → JSString
  | [], _ => []
  | p :: ps, text =>
    match matchAll p text with
    | [] => dobFromPatterns ps text
    | m0 :: ms =>
      match trim (orElseStr ms.head? m0) with
      | [] => dobFromPatterns ps text
      | c :: cs => c :: cs

/-- The fallback `datePattern`, with the `g` flag:
`\b(0?[1-9]|[12][0-9]|3[01])[\/\-\.](0?[1-9]|1[0-2])[\/\-\.](19[4-9]\d|200[0-5])\b`. -/
def datePattern : Regex :=
  Regex.cat [.wordB,
    .group 1 (Regex.any [
      Regex.cat [Regex.optc (· == 48), .chr fun c => decide (49 ≤ c ∧ c ≤ 57)],
      Regex.cat [.chr fun c => c == 49 || c == 50, .chr isDigit],
      Regex.cat [.chr (· == 51), .chr fun c => c == 48 || c == 49]]),
    .chr isDateSep,
    .group 2 (Regex.any [
      Regex.cat [Regex.optc (· == 48), .chr fun c => decide (49 ≤ c ∧ c ≤ 57)],
      Regex.cat [.chr (· == 49), .chr fun c => decide (48 ≤ c ∧ c ≤ 50)]]),
    .chr isDateSep,
    .group 3 (Regex.any [
      Regex.cat [Regex.lit "19", .chr fun c => decide (52 ≤ c ∧ c ≤ 57), .chr isDigit],
      Regex.cat [Regex.lit "200", .chr fun c => decide (48 ≤ c ∧ c ≤ 53)]]),
    .wordB]

/-- The date-of-birth section of `extractResumeData`. -/
def extractDateOfBirth (text : JSString) : JSString :=
  match dobFromPatterns dobPatterns text with
  | [] =>
    match matchAll datePattern text with
    | [] => []
    | m :: _ => trim m
  | c :: cs => c :: cs

/-- The function `extractResumeData` of `pdfParser.js`. -/
def extractResumeData (text : JSString) : ResumeData :=
  match text with
  | [] => ⟨[], [], [], []⟩
  | _ :: _ => ⟨extractName text, extractEmail text, extractContact text, extractDateOfBirth text⟩

/-! ## emailService.js: attachment pipeline -/

/-- The object built as `attachmentData`. -/
structure AttachmentData where
  name : JSString
  email : JSString
  contactNumber : JSString
  dateOfBirth : JSString
  pdfPath : JSString
  pdfFilename : JSString
  rawText : JSString
deriving DecidableEq, Repr

/-- Modelled from the spec: the `Email` model of `models/Resume.js` is not among the
sources; a stored document carries the fields `processEmailContent` passes to the
constructor (MailRecord of the data model). The field `fromAddress` is the field `from`. -/
structure MailRecord where
  fromAddress : JSString
  fromName : JSString
  subject : JSString
  body : JSString
  receivedAt : Nat
  emailId : JSString
  hasAttachment : Bool
  attachmentData : Option AttachmentData
deriving DecidableEq, Repr

/-- The representations `attachment.content` can have, each with what the matching
`Buffer` conversion yields. `Buffer.from(s, 'base64')` does not throw on a string, so
the `binary` fallback of the source is never taken; for any other value `Buffer.from`
may throw (`none`). -/
inductive Content where
  | buffer (bytes : List Nat)
  | uint8Array (bytes : List Nat)
  | string (s : JSString) (base64 : List Nat)
  | other (converted : Option (List Nat))
deriving DecidableEq, Repr

/-- One entry of `parsed.attachments`, together with the outcomes of the effectful calls
made while it is processed: `fs.ensureDir`, `Date.now()`, `fs.writeFile`, `fs.stat`,
`fs.readFile`, `pdfParse` and `Tesseract.recognize`. A failed call is `false` or `none`;
`pdfParse` and `ocr` give the `text` property of their result when they succeed. -/
structure Attachment where
  filename : Option JSString
  name : Option JSString
  contentType : Option JSString
  content : Content
  ensureDirOk : Bool
  now : Nat
  writeOk : Bool
  statSize : Option Nat
  readFile : Option (List Nat)
  pdfParse : Option (Option JSString)
  ocr : Option (Option JSString)
deriving DecidableEq, Repr

/-- The local `filename`: `attachment.filename || attachment.name || ''`. -/
def Attachment.fileName (a : Attachment) : JSString :=
  orElseStr a.filename (orElseStr a.name [])

/-- The local `isPdf`. -/
def isPdf (a : Attachment) : Bool :=
  decide (orElseStr a.contentType [] = js "application/pdf") ||
    endsWith (toLowerCase a.fileName) (js ".pdf")

/-- Class `[^a-zA-Z0-9.-]`. -/
def isUnsafeChar (c : Nat) : Bool := !(isAlpha c || isDigit c || c == 46 || c == 45)

/-- The local `sanitizedFilename`:
`originalFilename.replace(/[^a-zA-Z0-9.-]/g, '_').replace(/\s+/g, '_')`. -/
def sanitize (originalFilename : JSString) : JSString :=
  replaceAll reSpaces (js "_") (replaceAll (.chr isUnsafeChar) (js "_") originalFilename)

/-- The local `pdfFilename`: the timestamp, an underscore and the sanitized name. -/
def pdfFilename (timestamp : Nat) (filename : JSString) : JSString :=
  decimal timestamp ++ js "_" ++ sanitize (orElseStr (some filename) (js "resume.pdf"))

/-- The call `path.join(uploadsDir, pdfFilename)`. -/
def pathJoin (dir file : JSString) : JSString := dir ++ js "/" ++ file

/-- The conversion of `attachment.content` to a `Buffer`; `none` when it throws. -/
def Content.toBuffer : Content → Option (List Nat)
  | .buffer b => some b
  | .uint8Array b => some b
  | .string _ b => some b
  | .other b => b

/-- What the text resolution of one PDF produced: the text handed to the field
extractor and whether `Tesseract.recognize` was called. -/
structure Resolved where
  text : JSString
  ocrInvoked : Bool
deriving DecidableEq, Repr

/-- The text after the `pdfParse` attempt: `pdfData.text || ''`, or `''` when it threw. -/
def textLayer (pdfParse : Option (Option JSString)) : JSString :=
  match pdfParse with
  | some t => orElseStr t []
  | none => []

/-- The condition `!extractedText || extractedText.trim().length < 50`. -/
def needsOcr (extractedText : JSString) : Bool :=
  decide (extractedText = [] ∨ (trim extractedText).length < 50)

/-- The text resolution inside `processEmailContent` (lines 350 to 402): text layer,
then OCR when the text layer is short, then the empty text when nothing was found. -/
def resolveText (pdfParse ocr : Option (Option JSString)) : Resolved :=
  let extractedText := textLayer pdfParse
  let afterOcr :=
    if needsOcr extractedText then
      match ocr with
      | some (some ocrText) =>
        if ocrText ≠ [] ∧ (trim ocrText).length > 0 then ocrText else extractedText
      | _ => extractedText
    else extractedText
  let final := if afterOcr = [] ∨ (trim afterOcr).length = 0 then [] else afterOcr
  ⟨final, needsOcr extractedText⟩

/-- A file on disk: its path and its bytes. -/
abbrev File := JSString × List Nat

/-- Outcome of the `try` block for one PDF attachment: the attachment data when the
block ran to its `break`, `none` when it threw; and the file it wrote, if any. -/
structure PdfResult where
  data : Option AttachmentData
  written : List File
deriving DecidableEq, Repr

/-- The body of the `try` block for one PDF attachment. -/
def processPdf (uploadsDir : JSString) (a : Attachment) : PdfResult :=
  if a.ensureDirOk = false then ⟨none, []⟩
  else
    let pdfPath := pathJoin uploadsDir (pdfFilename a.now a.fileName)
    match a.content.toBuffer with
    | none => ⟨none, []⟩
    | some [] => ⟨none, []⟩
    | some (b :: bs) =>
      if a.writeOk = false then ⟨none, []⟩
      else
        match a.statSize, a.readFile with
        | some _, some _ =>
          let resolved := resolveText a.pdfParse a.ocr
          let extractedData := extractResumeData resolved.text
          ⟨some {
              name := extractedData.name
              email := extractedData.email
              contactNumber := extractedData.contactNumber
              dateOfBirth := extractedData.dateOfBirth
              pdfPath := pdfPath
              pdfFilename := pdfFilename a.now a.fileName
              rawText := substring0 resolved.text 5000 },
            [(pdfPath, b :: bs)]⟩
        | _, _ => ⟨none, [(pdfPath, b :: bs)]⟩

/-- State after the loop over `parsed.attachments`: the locals `hasAttachment` and
`attachmentData`, the files written, and the positions in the list of the attachments
whose `try` block was entered. -/
structure LoopResult where
  hasAttachment : Bool
  attachmentData : Option AttachmentData
  written : List File
  attempted : List Nat
deriving DecidableEq, Repr

/-- The loop `for (const attachment of parsed.attachments)`; `i` is the position of the
head of the list. The `break` is the last statement of the `try` block, so it is reached
only when the block did not throw. -/
def attachmentLoop (uploadsDir : JSString) : Nat → List Attachment → LoopResult
  | _, [] => ⟨false, none, [], []⟩
  | i, a :: rest =>
    if isPdf a then
      match (processPdf uploadsDir a).data with
      | some data => ⟨true, some data, (processPdf uploadsDir a).written, [i]⟩
      | none =>
        let later := attachmentLoop uploadsDir (i + 1) rest
        ⟨true, later.attachmentData, (processPdf uploadsDir a).written ++ later.written,
          i :: later.attempted⟩
    else attachmentLoop uploadsDir (i + 1) rest

/-! ## emailService.js: processEmailContent -/

/-- The first sender `parsed.from.value[0]`. -/
structure Sender where
  address : JSString
  name : Option JSString
deriving DecidableEq, Repr

/-- The result of `simpleParser`. -/
structure Parsed where
  sender : Option Sender
  subject : Option JSString
  date : Option Nat
  text : Option JSString
  textAsHtml : Option JSString
  html : Option JSString
  textAsPlainText : Option JSString
  attachments : List Attachment
deriving DecidableEq, Repr

/-- Pattern `/<[^>]*>/g`. -/
def reTag : Regex := Regex.cat [.chr (· == 60), Regex.star (· != 62), .chr (· == 62)]

/-- Pattern `/\n{3,}/g`. -/
def reBlankLines : Regex := .rep (· == 10) 3 none

/-- The local `emailBodyText` after selection, clean-up and placeholder. -/
def bodyText (parsed : Parsed) : JSString :=
  let selected :=
    if truthy parsed.text then orElseStr parsed.text []
    else if truthy parsed.textAsHtml then
      trim (replaceAll reTag [] (orElseStr parsed.textAsHtml []))
    else if truthy parsed.html then trim (replaceAll reTag [] (orElseStr parsed.html []))
    else if truthy parsed.textAsPlainText then orElseStr parsed.textAsPlainText []
    else []
  match trim (replaceAll reBlankLines (js "\n\n") selected) with
  | [] => js "(No content)"
  | c :: cs => c :: cs

/-- The local `senderEmail`. -/
def senderEmail (parsed : Parsed) : JSString :=
  match parsed.sender with
  | some s => s.address
  | none => js "unknown@example.com"

/-- The local `senderName`. -/
def senderName (parsed : Parsed) : JSString :=
  match parsed.sender with
  | some s => orElseStr s.name (senderEmail parsed)
  | none => senderEmail parsed

/-- The correlation key `uid_<n>`. -/
def emailIdOf (uid : Nat) : JSString := js "uid_" ++ decimal uid

/-- A `newEmail` event. -/
structure Notification where
  message : JSString
  email : MailRecord
deriving DecidableEq, Repr

/-- Everything `processEmailContent` reads or writes outside its arguments: the stored
documents, the set `processedEmails`, the events emitted so far, the files written. -/
structure World where
  storage : List MailRecord
  processedEmails : List Nat
  emitted : List Notification
  files : List File
deriving DecidableEq, Repr

/-- The outcomes of the effectful calls of one run of `processEmailContent`:
`simpleParser` (`none` when it throws), `Email.findOne` and `save` (`false` when they
throw), `new Date()`, and whether a channel `io` was passed. -/
structure Delivery where
  parsed : Option Parsed
  findOneOk : Bool
  saveOk : Bool
  now : Nat
  hasChannel : Bool
deriving DecidableEq, Repr

/-- The call `processedEmails.add(uid)`. -/
def markProcessed (uid : Nat) (w : World) : World :=
  { w with processedEmails := if uid ∈ w.processedEmails then w.processedEmails
                              else uid :: w.processedEmails }

/-- The call `io.emit('newEmail', ...)`, guarded by `if (io)`. -/
def emit (hasChannel : Bool) (message : JSString) (email : MailRecord) (w : World) : World :=
  if hasChannel then { w with emitted := w.emitted ++ [⟨message, email⟩] } else w

/-- The call `Email.findOne` by `emailId`. -/
def findOne (storage : List MailRecord) (emailId : JSString) : Option MailRecord :=
  storage.find? fun r => r.emailId = emailId

/-- The call `existingEmail.save()` on the document `findOne` returned: the first stored
document with that key is replaced. -/
def saveExisting (emailId : JSString) (updated : MailRecord) : List MailRecord → List MailRecord
  | [] => []
  | r :: rs =>
    if r.emailId = emailId then updated :: rs else r :: saveExisting emailId updated rs

/-- The condition under which an existing document is updated. -/
def shouldBackfill (loop : LoopResult) (existing : MailRecord) : Bool :=
  loop.hasAttachment && loop.attachmentData.isSome &&
    (match existing.attachmentData with
     | none => true
     | some d => decide (d.name = []))

/-- The function `processEmailContent` of `emailService.js`, as a step on the world. -/
def processEmailContent (uploadsDir : JSString) (d : Delivery) (uid : Nat) (w : World) : World :=
  match d.parsed with
  | none => markProcessed uid w
  | some parsed =>
    let loop := attachmentLoop uploadsDir 0 parsed.attachments
    let w1 : World := { w with files := w.files ++ loop.written }
    if d.findOneOk = false then markProcessed uid w1
    else
      match findOne w1.storage (emailIdOf uid) with
      | some existingEmail =>
        if shouldBackfill loop existingEmail then
          if d.saveOk = false then markProcessed uid w1
          else
            let updated : MailRecord :=
              { existingEmail with hasAttachment := true, attachmentData := loop.attachmentData }
            markProcessed uid
              (emit d.hasChannel (js "Email updated with PDF attachment data!") updated
                { w1 with storage := saveExisting (emailIdOf uid) updated w1.storage })
        else markProcessed uid w1
      | none =>
        let email : MailRecord :=
          { fromAddress := senderEmail parsed
            fromName := senderName parsed
            subject := orElseStr parsed.subject (js "No Subject")
            body := bodyText parsed
            receivedAt := parsed.date.getD d.now
            emailId := emailIdOf uid
            hasAttachment := loop.hasAttachment
            attachmentData := loop.attachmentData }
        if d.saveOk = false then markProcessed uid w1
        else
          emit d.hasChannel
            (if loop.hasAttachment then js "New email with PDF attachment received!"
             else js "New email received!")
            email
            (markProcessed uid { w1 with storage := w1.storage ++ [email] })

/-! ## emailService.js: processEmail, enumeration and filter -/

/-- A valid `Date`, by its fields in local time. -/
structure LocalTime where
  year : Int
  month : Nat
  day : Nat
  hours : Nat
  minutes : Nat
  seconds : Nat
deriving DecidableEq, Repr

/-- A `Date` object: a valid one, or the invalid date whose `getTime()` is `NaN`. -/
inductive JSDate where
  | invalid
  | valid (t : LocalTime)
deriving DecidableEq, Repr

/-- The attributes of an enumerated message the pass reads: `uid`, and the `Date` that
`new Date(...)` builds from `attributes.date` and from `attributes.envelope.date`, each
`none` when the field is missing (falsy). Nothing in the filter callback throws on such a
message, so its `catch` branch is left out. -/
structure Message where
  uid : Nat
  date : Option JSDate
  envelopeDate : Option JSDate
deriving DecidableEq, Repr

/-- The limit to 300 messages: `allMessages.slice(0, 300)` when there are more. -/
def capMessages (allMessages : List Message) : List Message :=
  if allMessages.length > 300 then allMessages.take 300 else allMessages

/-- The year `new Date(year, month, day)` denotes: 0 to 99 stand for 1900 to 1999. -/
def fullYear (year : Int) : Int := if 0 ≤ year ∧ year ≤ 99 then 1900 + year else year

/-- The local midnight `new Date(d.getFullYear(), d.getMonth(), d.getDate())`, by the
calendar day it denotes; two such dates have the same `getTime()` exactly when they
denote the same day. -/
def dateOnly (t : LocalTime) : Int × Nat × Nat := (fullYear t.year, t.month, t.day)

/-- The local `emailDate` of the filter callback. -/
def emailDate (msg : Message) : Option JSDate :=
  match msg.date with
  | some d => some d
  | none => msg.envelopeDate

/-- The filter callback: whether the message is kept. -/
def isFromToday (today : LocalTime) (msg : Message) : Bool :=
  match emailDate msg with
  | none => true
  | some .invalid => true
  | some (.valid t) => decide (dateOnly t = dateOnly today)

/-- The messages a pass goes on to process: capped, then filtered to today. -/
def todaysMessages (today : LocalTime) (allMessages : List Message) : List Message :=
  (capMessages allMessages).filter (isFromToday today)

/-! ## emailService.js: processEmail, the loop over the messages -/

/-- A value found as the body of a message part or returned by `getPartData`. A string
is falsy when empty; the other values are truthy. `Buffer.from` accepts strings and byte
arrays; on any other value it may throw, which `convertible = false` records. -/
inductive Body where
  | string (s : JSString)
  | uint8Array (bytes : List Nat)
  | buffer (bytes : List Nat)
  | other (convertible : Bool)
deriving DecidableEq, Repr

/-- One entry of `message.parts`: the `which` key and the `body`, each `none` when
undefined. -/
structure Part where
  which : Option JSString
  body : Option Body
deriving DecidableEq, Repr

/-- Truthiness of a body value. -/
def truthyBody : Option Body → Bool
  | none => false
  | some (.string []) => false
  | some _ => true

/-- The test `part.which === '' || part.which === undefined`; for the parts of a
refetched message the source writes it `!p.which || p.which === ''`. -/
def isFullPart (p : Part) : Bool :=
  match p.which with
  | none => true
  | some [] => true
  | some (_ :: _) => false

/-- First stage: the body taken from `message.parts`. -/
def bodyFromParts (parts : List Part) : Option Body :=
  match parts with
  | [] => none
  | first :: _ =>
    match parts.find? isFullPart with
    | some fullPart =>
      if truthyBody fullPart.body then fullPart.body
      else if truthyBody first.body then first.body else none
    | none => if truthyBody first.body then first.body else none

/-- Third stage: the body taken from the parts of the refetched message,
`parts.find(...) || parts[0]`. -/
def bodyFromRefetch (parts : List Part) : Option Body :=
  match parts.find? isFullPart with
  | some p => if truthyBody p.body then p.body else none
  | none =>
    match parts with
    | [] => none
    | first :: _ => if truthyBody first.body then first.body else none

/-- What the loop body obtains for one message: its `parts`; the value the second stage
assigns to `emailBody` (`none` when `getParts` or `getPartData` throws or finds no part);
the parts of `refetched[0]` in the third stage (`none` when the search throws or returns
nothing); and the outcomes of the calls `processEmailContent` makes. -/
structure Fetched where
  parts : List Part
  partData : Option Body
  refetched : Option (List Part)
  delivery : Delivery
deriving DecidableEq, Repr

/-- The local `emailBody` after the three fetch stages; `none` when it stays falsy. -/
def fetchBody (f : Fetched) : Option Body :=
  match bodyFromParts f.parts with
  | some b => some b
  | none =>
    if truthyBody f.partData then f.partData
    else
      match f.refetched with
      | some parts => bodyFromRefetch parts
      | none => none

/-- Whether the conversion of `emailBody` to a `Buffer` succeeds. -/
def Body.convertible : Body → Bool
  | .string _ => true
  | .uint8Array _ => true
  | .buffer _ => true
  | .other ok => ok

/-- The body of the loop `for (const message of messages)` for one message. A message
whose `uid` is in `processedEmails` is skipped. When the conversion to a `Buffer` throws,
the `catch` of the loop body logs the error and does nothing else. -/
def processMessage (uploadsDir : JSString) (msg : Message) (f : Fetched) (w : World) : World :=
  if msg.uid ∈ w.processedEmails then w
  else
    match fetchBody f with
    | none => markProcessed msg.uid w
    | some body =>
      if body.convertible then processEmailContent uploadsDir f.delivery msg.uid w else w

/-- The function `processEmail`: one pass. `allMessages` is the result of
`connection.search(['ALL'], ...)`, `none` when it throws; `fetched` gives, for each
message, what the loop body obtains for it. -/
def processEmail (today : LocalTime) (uploadsDir : JSString)
    (allMessages : Option (List Message)) (fetched : Message → Fetched) (w : World) : World :=
  match allMessages with
  | none => w
  | some all =>
    (todaysMessages today all).foldl (fun acc msg => processMessage uploadsDir msg (fetched msg) acc) w

/-! ## emailService.js: startMonitoring, stopMonitoring and the polling timer -/

/-- The module state `isMonitoring` and `connection` (a connection handle, `none` for
`null`), together with what the calls leave behind in the environment: the handles on
which `end()` was called, the next handle `imap.connect` hands out, the number of active
timers created by `setInterval` (nothing in the source calls `clearInterval`), and the
numbers of calls of `processEmail`, of calls of `imap.connect`, and of errors logged by
the timer callback. -/
structure Monitor where
  isMonitoring : Bool
  connection : Option Nat
  ended : List Nat
  nextHandle : Nat
  intervals : Nat
  passes : Nat
  connects : Nat
  intervalErrors : Nat
deriving DecidableEq, Repr

/-- The function `startMonitoring`; `connectOk` and `openBoxOk` tell whether
`imap.connect` and `connection.openBox` succeed. The handle returned by `setInterval` is
kept in the local constant `checkInterval` and is not stored anywhere else. -/
def startMonitoring (connectOk openBoxOk : Bool) (m : Monitor) : Monitor :=
  if m.isMonitoring then m
  else if connectOk = false then { m with connects := m.connects + 1, isMonitoring := false }
  else
    let m1 : Monitor :=
      { m with connects := m.connects + 1, connection := some m.nextHandle,
               nextHandle := m.nextHandle + 1 }
    if openBoxOk = false then { m1 with isMonitoring := false }
    else { m1 with isMonitoring := true, intervals := m1.intervals + 1, passes := m1.passes + 1 }

/-- The function `stopMonitoring`. -/
def stopMonitoring (m : Monitor) : Monitor :=
  match m.connection with
  | some h => { m with ended := h :: m.ended, connection := none, isMonitoring := false }
  | none => { m with isMonitoring := false }

/-- One run of the callback passed to `setInterval`. With `connection` null the call
`connection.openBox` throws, the `catch` logs, `connection.end()` throws in turn and the
inner `catch` logs again. Otherwise `openBoxOk` tells whether `openBox` succeeds,
`connectOk` whether the `imap.connect` of the reconnection does, and `reopenOk` whether
the `openBox` on the new connection does. The `mail` listener registered by
`startMonitoring` is an event of the server and is not part of this step. -/
def intervalCallback (openBoxOk connectOk reopenOk : Bool) (m : Monitor) : Monitor :=
  match m.connection with
  | none => { m with intervalErrors := m.intervalErrors + 2 }
  | some h =>
    if openBoxOk then { m with passes := m.passes + 1 }
    else
      let m1 : Monitor :=
        { m with intervalErrors := m.intervalErrors + 1, ended := h :: m.ended,
                 connects := m.connects + 1 }
      if connectOk then
        let m2 : Monitor :=
          { m1 with connection := some m1.nextHandle, nextHandle := m1.nextHandle + 1 }
        if reopenOk then m2 else { m2 with intervalErrors := m2.intervalErrors + 1 }
      else { m1 with intervalErrors := m1.intervalErrors + 1 }

/-- Ten seconds of the event loop: every active timer runs its callback once. -/
def tenSeconds (openBoxOk connectOk reopenOk : Bool) (m : Monitor) : Monitor :=
  Nat.iterate (intervalCallback openBoxOk connectOk reopenOk) m.intervals m

/-! ## Specification vocabulary -/

/-- Number of stored documents with correlation key `k`. -/
def keyCount (storage : List MailRecord) (k : JSString) : Nat :=
  storage.countP fun r => decide (r.emailId = k)

/-- The storage invariant: at most one document per correlation key. -/
def UniqueKeys (storage : List MailRecord) : Prop := ∀ k, keyCount storage k ≤ 1

/-- A sequence of runs of `processEmailContent`, one per delivery of a message. -/
def ingest (uploadsDir : JSString) (deliveries : List (Delivery × Nat)) (w : World) : World :=
  deliveries.foldl (fun acc x => processEmailContent uploadsDir x.1 x.2 acc) w

/-- The stored documents with correlation key `k`, in storage order. -/
def recordsFor (storage : List MailRecord) (k : JSString) : List MailRecord :=
  storage.filter fun r => decide (r.emailId = k)

/-- An empty world: nothing stored, nothing processed, nothing emitted, no file. -/
def emptyWorld : World := ⟨[], [], [], []⟩

/-- A decoded message without attachments, used as a concrete delivery. -/
def plainParsed : Parsed :=
  { sender := some ⟨js "jane@example.com", some (js "Jane")⟩
    subject := some (js "Hello")
    date := some 1700000000000
    text := some (js "Hi there")
    textAsHtml := none
    html := none
    textAsPlainText := none
    attachments := [] }

/-- A delivery of `plainParsed` in which every call succeeds. -/
def plainDelivery : Delivery := ⟨some plainParsed, true, true, 1700000000500, true⟩

/-- The shape of a contact number: empty, or at least ten digits and plus signs. -/
def ContactShape (s : JSString) : Prop :=
  s = [] ∨ (10 ≤ s.length ∧ ∀ c ∈ s, isDigit c = true ∨ c = 43)

/-- Number of digit characters of a string. -/
def digitCount (s : JSString) : Nat := (s.filter isDigit).length

/-- Number of non-whitespace characters of a string. -/
def nonSpaceCount (s : JSString) : Nat := (s.filter fun c => !isSpace c).length

/-- A text layer of two letters separated by sixty spaces. -/
def sparseText : JSString := js "a" ++ List.replicate 60 32 ++ js "b"

/-- A PDF attachment whose content is empty; every call made for it would succeed. -/
def emptyPdf : Attachment :=
  { filename := some (js "empty.pdf")
    name := none
    contentType := some (js "application/pdf")
    content := .buffer []
    ensureDirOk := true
    now := 1700000000001
    writeOk := true
    statSize := some 0
    readFile := some []
    pdfParse := none
    ocr := none }

/-- A PDF attachment with a text layer; every call made for it succeeds. -/
def goodPdf : Attachment :=
  { filename := some (js "cv.pdf")
    name := none
    contentType := some (js "application/pdf")
    content := .buffer [37, 80, 68, 70]
    ensureDirOk := true
    now := 1700000000002
    writeOk := true
    statSize := some 4
    readFile := some [37, 80, 68, 70]
    pdfParse := some (some (js "Name: Jane Doe\nEmail: jane.doe@example.com\nPhone: +91 98765 43210"))
    ocr := none }

/-- The attachment data produced for `goodPdf` under the uploads directory `up`. -/
def goodPdfData : AttachmentData :=
  { name := js "Jane Doe"
    email := js "jane.doe@example.com"
    contactNumber := js "+919876543210"
    dateOfBirth := []
    pdfPath := js "up/1700000000002_cv.pdf"
    pdfFilename := js "1700000000002_cv.pdf"
    rawText := js "Name: Jane Doe\nEmail: jane.doe@example.com\nPhone: +91 98765 43210" }

/-- A stored document for message 7 without attachment data. -/
def bareRecord : MailRecord :=
  { fromAddress := js "jane@example.com"
    fromName := js "Jane"
    subject := js "Hello"
    body := js "Hi there"
    receivedAt := 1700000000000
    emailId := emailIdOf 7
    hasAttachment := false
    attachmentData := none }

/-- Today, as a local time: 6 November 2026, 10:30:00 (months count from 0). -/
def sampleToday : LocalTime := ⟨2026, 10, 6, 10, 30, 0⟩

/-- The text after the colon when `s` starts, after optional white space, with the word
`name` in any letter case followed by optional white space and a colon; white space is
the class `\s`, line breaks included. -/
def labelAt (s : JSString) : Option JSString :=
  match s.dropWhile isSpace with
  | n :: a :: m :: e :: r =>
    if eqIgnoreCase 110 n && eqIgnoreCase 97 a && eqIgnoreCase 109 m && eqIgnoreCase 101 e then
      match r.dropWhile isSpace with
      | [] => none
      | c :: rest => if c = 58 then some rest else none
    else none
  | _ => none

/-- The parts of a text that follow a line feed, in text order. -/
def lineTails : JSString → List JSString
  | [] => []
  | c :: cs => if c = 10 then cs :: lineTails cs else lineTails cs

/-- The text after the colon of the first `name` label that begins the text or follows a
line feed. -/
def firstLabel (text : JSString) : Option JSString :=
  ((text :: lineTails text).filterMap labelAt).head?

/-- The text after the colon in the first line, among the lines `split(/\r?\n/)` gives,
that begins with a `name` label. -/
def firstLabelLine (text : JSString) : Option JSString :=
  ((split reLineBreak text).filterMap labelAt).head?

/-- The part of the first label pattern that follows `(?:^|\n)`. -/
def reLabelTail : Regex :=
  Regex.cat [Regex.star isSpace, Regex.litI "name", Regex.star isSpace, Regex.unit ':',
    Regex.star isSpace, .group 1 (Regex.plus notNewline)]

/-- A text of the form `local@domain.tld`: a non-empty run of `[a-zA-Z0-9._%+-]`, an at
sign, a non-empty run of `[a-zA-Z0-9.-]`, a dot, and two or more letters. -/
def IsAddress (w : JSString) : Prop :=
  ∃ l d t, w = l ++ 64 :: (d ++ 46 :: t) ∧ l ≠ [] ∧ (∀ c ∈ l, isLocalChar c = true) ∧
    d ≠ [] ∧ (∀ c ∈ d, isDomainChar c = true) ∧ 2 ≤ t.length ∧ (∀ c ∈ t, isAlpha c = true)

/-- A word boundary between the text before a position (nearest code unit first) and
the text after it: exactly one side has a word character next to the position. -/
def Boundary (pre rest : List Nat) : Prop := isWordAt pre ≠ isWordAt rest

/-- The address `w` occurs in `text` at offset `i`, delimited by word boundaries. -/
def AddressAt (text : JSString) (i : Nat) (w : JSString) : Prop :=
  ∃ a b, text = a ++ (w ++ b) ∧ a.length = i ∧ IsAddress w ∧
    Boundary a.reverse (w ++ b) ∧ Boundary (w.reverse ++ a.reverse) b

/-- Order of end states: the earlier one has consumed more. -/
def Longer (x y : MState) : Prop := x.rest.length < y.rest.length

/-- A pattern whose every match holds an at sign. -/
def NeedsAt (r : Regex) : Prop := ∀ s : MState, 64 ∉ s.rest → r.ends s = []

/-- The first `n` messages of a mailbox in the order the server lists them, oldest
first: message `i + 1` has `uid = i + 1` and arrived at minute `i` of the day. -/
def arrivals (n : Nat) : List Message :=
  (List.range n).map fun i => ⟨i + 1, some (.valid ⟨2026, 10, 6, i / 60, i % 60, 0⟩), none⟩

/-- A fetched message whose only part holds a value that `Buffer.from` rejects. -/
def oddBodyFetched : Fetched :=
  ⟨[⟨some [], some (.other false)⟩], none, none, plainDelivery⟩

/-- A fetched message with a string body, decoded to `plainParsed`. -/
def plainFetched : Fetched :=
  ⟨[⟨some [], some (.string (js "Subject: Hello\r\n\r\nHi there"))⟩], none, none, plainDelivery⟩

/-- A stored document for message 7 whose attachment data has an empty name. -/
def namelessRecord : MailRecord :=
  { bareRecord with
    hasAttachment := true
    attachmentData := some
      { name := []
        email := js "old@example.com"
        contactNumber := []
        dateOfBirth := []
        pdfPath := js "up/1600000000000_old.pdf"
        pdfFilename := js "1600000000000_old.pdf"
        rawText := js "old@example.com" } }

/-- A stored document for message 7 whose attachment data has a name. -/
def namedRecord : MailRecord :=
  { bareRecord with hasAttachment := true, attachmentData := some goodPdfData }

/-- A delivery of a message that carries `goodPdf`; every call succeeds. -/
def pdfDelivery : Delivery :=
  ⟨some { plainParsed with attachments := [goodPdf] }, true, true, 1700000000500, true⟩

/-- The text the resolver hands to the field extractor, in the words of the
specification: the OCR text when OCR was invoked and returned text that is non-empty
after trimming; otherwise the text-layer text when that is non-empty after trimming;
otherwise the empty string. -/
def specResolvedText (pdfParse ocr : Option (Option JSString)) : JSString :=
  match ocr with
  | some (some ocrText) =>
    if (resolveText pdfParse ocr).ocrInvoked = true ∧ trim ocrText ≠ [] then ocrText
    else if trim (textLayer pdfParse) ≠ [] then textLayer pdfParse else []
  | _ => if trim (textLayer pdfParse) ≠ [] then textLayer pdfParse else []

/-- The document `processEmailContent` builds for a new message. -/
def newRecord (uploadsDir : JSString) (d : Delivery) (parsed : Parsed) (uid : Nat) : MailRecord :=
  { fromAddress := senderEmail parsed
    fromName := senderName parsed
    subject := orElseStr parsed.subject (js "No Subject")
    body := bodyText parsed
    receivedAt := parsed.date.getD d.now
    emailId := emailIdOf uid
    hasAttachment := (attachmentLoop uploadsDir 0 parsed.attachments).hasAttachment
    attachmentData := (attachmentLoop uploadsDir 0 parsed.attachments).attachmentData }


/-- Class `[A-Za-z0-9.-]`, the code units a sanitized filename keeps. -/
def isKept (c : Nat) : Bool := isAlpha c || isDigit c || c == 46 || c == 45

/-- The sanitized name in the words of the specification: each character is kept if it
is in `[A-Za-z0-9.-]` and replaced by an underscore otherwise. -/
def specSanitize (name : JSString) : JSString :=
  name.map fun c => if isKept c then c else 95

/-- The number a string of decimal digits denotes. -/
def numVal (s : JSString) : Nat := s.foldl (fun a c => a * 10 + (c - 48)) 0

/-- Patterns built from classes, concatenation, alternation, groups and quantified
classes only: no anchor, no word boundary, no optional group. -/
def Regex.plain : Regex → Bool
  | .eps => true
  | .chr _ => true
  | .seq a b => a.plain && b.plain
  | .alt a b => a.plain && b.plain
  | .group _ r => r.plain
  | .rep _ _ _ => true
  | _ => false

/-- The texts a plain pattern matches in full. -/
def Regex.lang : Regex → List Nat → Prop
  | .eps, w => w = []
  | .chr p, w => ∃ c, w = [c] ∧ p c = true
  | .seq a b, w => ∃ u v, w = u ++ v ∧ a.lang u ∧ b.lang v
  | .alt a b, w => a.lang w ∨ b.lang w
  | .group _ r, w => r.lang w
  | .rep p lo hi, w => (∀ c ∈ w, p c = true) ∧ lo ≤ w.length ∧ ∀ n, hi = some n → w.length ≤ n
  | _, _ => False

/-- A run of decimal digits, `minLen` to `maxLen` of them, denoting a number between `lo`
and `hi`. -/
def NumIn (s : JSString) (minLen maxLen lo hi : Nat) : Prop :=
  (∀ c ∈ s, isDigit c = true) ∧ minLen ≤ s.length ∧ s.length ≤ maxLen ∧
    lo ≤ numVal s ∧ numVal s ≤ hi

/-- A numeric date that looks like a birth date: a day 1 to 31 in one or two digits, a
separator `/`, `-` or `.`, a month 1 to 12 in one or two digits, a separator, and a year
in four digits within [1940, 2005]. -/
def IsBirthDate (w : JSString) : Prop :=
  ∃ d s1 m s2 y, w = d ++ s1 :: (m ++ s2 :: y) ∧ NumIn d 1 2 1 31 ∧ isDateSep s1 = true ∧
    NumIn m 1 2 1 12 ∧ isDateSep s2 = true ∧ NumIn y 4 4 1940 2005

/-- The birth date `w` occurs in `text` at offset `i`, delimited by word boundaries. -/
def DateAt (text : JSString) (i : Nat) (w : JSString) : Prop :=
  ∃ a b, text = a ++ (w ++ b) ∧ a.length = i ∧ IsBirthDate w ∧
    Boundary a.reverse (w ++ b) ∧ Boundary (w.reverse ++ a.reverse) b

/-- The day alternatives of `datePattern`: `0?[1-9]|[12][0-9]|3[01]`. -/
def reDay : Regex :=
  Regex.any [
    Regex.cat [Regex.optc (· == 48), .chr fun c => decide (49 ≤ c ∧ c ≤ 57)],
    Regex.cat [.chr fun c => c == 49 || c == 50, .chr isDigit],
    Regex.cat [.chr (· == 51), .chr fun c => c == 48 || c == 49]]

/-- The month alternatives of `datePattern`: `0?[1-9]|1[0-2]`. -/
def reMonth : Regex :=
  Regex.any [
    Regex.cat [Regex.optc (· == 48), .chr fun c => decide (49 ≤ c ∧ c ≤ 57)],
    Regex.cat [.chr (· == 49), .chr fun c => decide (48 ≤ c ∧ c ≤ 50)]]

/-- The year alternatives of `datePattern`: `19[4-9]\d|200[0-5]`. -/
def reYear : Regex :=
  Regex.any [
    Regex.cat [Regex.lit "19", .chr fun c => decide (52 ≤ c ∧ c ≤ 57), .chr isDigit],
    Regex.cat [Regex.lit "200", .chr fun c => decide (48 ≤ c ∧ c ≤ 53)]]

/-- The part of `datePattern` between the two word boundaries. -/
def reDateCore : Regex :=
  .seq (.group 1 reDay) (.seq (.chr isDateSep) (.seq (.group 2 reMonth)
    (.seq (.chr isDateSep) (.group 3 reYear))))

/-- The module state when the server starts. -/
def idleMonitor : Monitor := ⟨false, none, [], 0, 0, 0, 0, 0⟩

/-- The code units of the class `\s`, listed. -/
def spaceUnits : List Nat :=
  [9, 10, 11, 12, 13, 32, 160, 5760, 8192, 8193, 8194, 8195, 8196, 8197, 8198, 8199, 8200,
    8201, 8202, 8232, 8233, 8239, 8287, 12288, 65279]

/-- A sufficient test, on the shape of a pattern, that each of its matches holds a code
unit that is not white space: some mandatory class of the pattern excludes white space. -/
def Regex.inked : Regex → Bool
  | .chr p => spaceUnits.all fun c => !p c
  | .rep p lo _ => decide (1 ≤ lo) && spaceUnits.all fun c => !p c
  | .seq a b => a.inked || b.inked
  | .alt a b => a.inked && b.inked
  | .group _ r => r.inked
  | _ => false

/-- Every match of the pattern consumes a code unit that is not white space. -/
def ConsumesInk (r : Regex) : Prop :=
  ∀ s e, e ∈ r.ends s → ∃ u, s.rest = u ++ e.rest ∧ ∃ c ∈ u, isSpace c = false

/-- The clean-up of the body in the words of the specification: each run of three or
more consecutive newline characters is replaced by exactly two. `k` counts the newline
characters already kept in the current run. -/
def squeezeNewlines : Nat → JSString → JSString
  | _, [] => []
  | k, c :: cs =>
    if c = 10 then
      if k < 2 then 10 :: squeezeNewlines (k + 1) cs else squeezeNewlines k cs
    else c :: squeezeNewlines 0 cs

/-- The body selected from the decoded message: the plain text, else the HTML renderings
with the tags removed and trimmed, else the plain-text rendering, else nothing. -/
def selectedBody (parsed : Parsed) : JSString :=
  if truthy parsed.text then orElseStr parsed.text []
  else if truthy parsed.textAsHtml then
    trim (replaceAll reTag [] (orElseStr parsed.textAsHtml []))
  else if truthy parsed.html then trim (replaceAll reTag [] (orElseStr parsed.html []))
  else if truthy parsed.textAsPlainText then orElseStr parsed.textAsPlainText []
  else []

/-- The stored body in the words of the specification: the selected body with its blank
lines collapsed, trimmed, or the placeholder when nothing is left. -/
def specBody (parsed : Parsed) : JSString :=
  match trim (squeezeNewlines 0 (selectedBody parsed)) with
  | [] => js "(No content)"
  | c :: cs => c :: cs

/-- A capitalized word: an uppercase letter followed by one or more lowercase letters. -/
def IsCapWord (w : JSString) : Prop :=
  ∃ c l, w = c :: l ∧ isUpper c = true ∧ l ≠ [] ∧ ∀ x ∈ l, isLower x = true

/-- A non-empty run of white space. -/
def IsGap (s : JSString) : Prop := s ≠ [] ∧ ∀ x ∈ s, isSpace x = true

/-- Two capitalized words separated by white space, or three. -/
def IsCapName (w : JSString) : Prop :=
  ∃ w1 s1 w2, IsCapWord w1 ∧ IsGap s1 ∧ IsCapWord w2 ∧
    (w = w1 ++ (s1 ++ w2) ∨ ∃ s2 w3, IsGap s2 ∧ IsCapWord w3 ∧ w = w1 ++ (s1 ++ w2) ++ (s2 ++ w3))

/-- The start of a line, for the text before a position (nearest code unit first): the
start of the text, or right after a line terminator. -/
def LineStart (pre : List Nat) : Prop :=
  match pre with
  | [] => True
  | c :: _ => isLineTerminator c = true

/-- The capitalized name `w` occurs in `text` at offset `i`, at the start of a line. -/
def NameAt (text : JSString) (i : Nat) (w : JSString) : Prop :=
  ∃ a b, text = a ++ (w ++ b) ∧ a.length = i ∧ LineStart a.reverse ∧ IsCapName w

/-- The two capitalized words of `namePattern`: `[A-Z][a-z]+\s+[A-Z][a-z]+`. -/
def reTwoWords : Regex :=
  .seq (.chr isUpper) (.seq (.rep isLower 1 none) (.seq (.rep isSpace 1 none)
    (.seq (.chr isUpper) (.rep isLower 1 none))))

/-- The optional third word of `namePattern`: `\s+[A-Z][a-z]+`. -/
def reThirdWord : Regex :=
  .seq (.rep isSpace 1 none) (.seq (.chr isUpper) (.rep isLower 1 none))

/-! ## Storage lemmas -/

theorem markProcessed_storage (uid : Nat) (w : World) :
    (markProcessed uid w).storage = w.storage := rfl

theorem emit_storage (c : Bool) (m : JSString) (e : MailRecord) (w : World) :
    (emit c m e w).storage = w.storage := by
  unfold emit; split <;> rfl

theorem findOne_eq_none_keyCount {storage : List MailRecord} {k : JSString}
    (h : findOne storage k = none) : keyCount storage k = 0 := by
  unfold findOne at h
  unfold keyCount
  rw [List.countP_eq_zero]
  intro r hr
  have := List.find?_eq_none.mp h r hr
  simpa using this

theorem recordsFor_saveExisting (k : JSString) (u : MailRecord) (hu : u.emailId = k)
    (storage : List MailRecord) (k2 : JSString) :
    recordsFor (saveExisting k u storage) k2 =
      if k2 = k then
        (match recordsFor storage k with
         | [] => []
         | _ :: rs => u :: rs)
      else recordsFor storage k2 := by
  induction storage with
  | nil => simp [saveExisting, recordsFor]
  | cons r rs ih =>
    unfold recordsFor at ih ⊢
    by_cases hr : r.emailId = k
    · by_cases hk : k2 = k
      · subst hk
        simp [saveExisting, hr, hu, List.filter_cons]
      · have h1 : ¬ (u.emailId = k2) := by rw [hu]; exact fun h => hk h.symm
        have h2 : ¬ (r.emailId = k2) := by rw [hr]; exact fun h => hk h.symm
        have h3 : ¬ (k = k2) := fun h => hk h.symm
        simp [saveExisting, hr, hk, h1, h2, h3, List.filter_cons]
    · by_cases hk : k2 = k
      · subst hk
        simp only [saveExisting, hr, if_false, List.filter_cons, decide_False, ite_true] at ih ⊢
        simpa using ih
      · simp only [saveExisting, hr, if_false, List.filter_cons, hk] at ih ⊢
        by_cases h2 : r.emailId = k2
        · simp [h2, ih]
        · simp [h2, ih]

theorem keyCount_eq_length (storage : List MailRecord) (k : JSString) :
    keyCount storage k = (recordsFor storage k).length := by
  unfold keyCount recordsFor
  rw [List.countP_eq_length_filter]

theorem keyCount_saveExisting (k : JSString) (u : MailRecord) (hu : u.emailId = k)
    (storage : List MailRecord) (k2 : JSString) :
    keyCount (saveExisting k u storage) k2 = keyCount storage k2 := by
  rw [keyCount_eq_length, keyCount_eq_length, recordsFor_saveExisting k u hu]
  by_cases hk : k2 = k
  · subst hk
    simp only [if_true]
    cases recordsFor storage k2 <;> simp
  · simp [hk]

theorem findOne_emailId {storage : List MailRecord} {k : JSString} {r : MailRecord}
    (h : findOne storage k = some r) : r.emailId = k := by
  unfold findOne at h
  have := List.find?_some h
  simpa using this

theorem uniqueKeys_nil : UniqueKeys [] := by
  intro k; simp [keyCount]

/-- The storage after one run of `processEmailContent`. -/
theorem processEmailContent_storage (dir : JSString) (d : Delivery) (uid : Nat) (w : World) :
    (processEmailContent dir d uid w).storage =
      match d.parsed with
      | none => w.storage
      | some parsed =>
        if d.findOneOk = false ∨ d.saveOk = false then w.storage
        else
          match findOne w.storage (emailIdOf uid) with
          | some existing =>
            if shouldBackfill (attachmentLoop dir 0 parsed.attachments) existing then
              saveExisting (emailIdOf uid)
                { existing with
                  hasAttachment := true
                  attachmentData := (attachmentLoop dir 0 parsed.attachments).attachmentData }
                w.storage
            else w.storage
          | none =>
            w.storage ++
              [{ fromAddress := senderEmail parsed
                 fromName := senderName parsed
                 subject := orElseStr parsed.subject (js "No Subject")
                 body := bodyText parsed
                 receivedAt := parsed.date.getD d.now
                 emailId := emailIdOf uid
                 hasAttachment := (attachmentLoop dir 0 parsed.attachments).hasAttachment
                 attachmentData := (attachmentLoop dir 0 parsed.attachments).attachmentData }] := by
  unfold processEmailContent
  cases d.parsed with
  | none => rfl
  | some parsed =>
    simp only
    cases hf : d.findOneOk <;> cases hs : d.saveOk <;>
      simp only [markProcessed_storage, emit_storage, if_true, if_false, or_self, or_true,
        true_or, or_false, Bool.true_eq_false, Bool.false_eq_true] <;>
      cases findOne w.storage (emailIdOf uid) <;>
      simp only [markProcessed_storage, emit_storage, if_true, if_false] <;>
      split <;> simp only [markProcessed_storage, emit_storage]

/-- One run of `processEmailContent` keeps the storage invariant. -/
theorem processEmailContent_unique (dir : JSString) (d : Delivery) (uid : Nat) (w : World)
    (h : UniqueKeys w.storage) : UniqueKeys (processEmailContent dir d uid w).storage := by
  rw [processEmailContent_storage]
  cases d.parsed with
  | none => exact h
  | some parsed =>
    simp only
    split
    · exact h
    · cases hfo : findOne w.storage (emailIdOf uid) with
      | some existing =>
        simp only
        split
        · intro k
          rw [keyCount_saveExisting (emailIdOf uid) _ (by simpa using findOne_emailId hfo)]
          exact h k
        · exact h
      | none =>
        intro k
        simp only [keyCount, List.countP_append, List.countP_cons, List.countP_nil]
        by_cases hk : emailIdOf uid = k
        · subst hk
          have := findOne_eq_none_keyCount hfo
          unfold keyCount at this
          simp [this]
        · have := h k
          unfold keyCount at this
          simp [hk]
          exact this

theorem ingest_unique (dir : JSString) (ds : List (Delivery × Nat)) (w : World)
    (h : UniqueKeys w.storage) : UniqueKeys (ingest dir ds w).storage := by
  induction ds generalizing w with
  | nil => simpa [ingest] using h
  | cons x xs ih =>
    have := ih (processEmailContent dir x.1 x.2 w) (processEmailContent_unique dir x.1 x.2 w h)
    simpa [ingest] using this

theorem attachmentLoop_data_some (dir : JSString) (i : Nat) (as : List Attachment)
    (data : AttachmentData) (h : (attachmentLoop dir i as).attachmentData = some data) :
    (attachmentLoop dir i as).hasAttachment = true := by
  induction as generalizing i with
  | nil => simp [attachmentLoop] at h
  | cons a rest ih =>
    unfold attachmentLoop at h ⊢
    by_cases hp : isPdf a = true
    · simp only [hp, if_true] at h ⊢
      cases hd : (processPdf dir a).data <;> simp
    · simp only [hp, if_false] at h ⊢
      exact ih _ h

theorem findOne_of_recordsFor {storage : List MailRecord} {k : JSString} {r : MailRecord}
    {rs : List MailRecord} (h : recordsFor storage k = r :: rs) : findOne storage k = some r := by
  unfold recordsFor at h
  unfold findOne
  induction storage with
  | nil => simp at h
  | cons x xs ih =>
    by_cases hx : x.emailId = k
    · simp [List.filter_cons, hx] at h
      obtain ⟨rfl, _⟩ := h
      simp [List.find?_cons, hx]
    · simp [List.filter_cons, hx] at h
      simp [List.find?_cons, hx, ih h]

/-- C1. Storage uniqueness: a run of `processEmailContent` on a store with at most one
document per correlation key leaves a store with at most one document per key; so does
any sequence of runs; and from an empty store, after any sequence of deliveries (the
same identifier may be delivered repeatedly), each key counts at most one document. -/
theorem storage_unique_per_key (dir : JSString) (w : World) (h : UniqueKeys w.storage) :
    (∀ d uid, UniqueKeys (processEmailContent dir d uid w).storage) ∧
    (∀ ds, UniqueKeys (ingest dir ds w).storage) ∧
    (∀ ds w0 n, w0.storage = [] → keyCount (ingest dir ds w0).storage (emailIdOf n) ≤ 1) :=
  ⟨fun d uid => processEmailContent_unique dir d uid w h,
   fun ds => ingest_unique dir ds w h,
   fun ds w0 n h0 => ingest_unique dir ds w0 (by rw [h0]; exact uniqueKeys_nil) (emailIdOf n)⟩

/-- Witness of C1: from the empty store, three deliveries of the same message leave at
most one document for its key. -/
theorem storage_unique_per_key_witness :
    UniqueKeys emptyWorld.storage ∧
    UniqueKeys (ingest [] [(plainDelivery, 7), (plainDelivery, 7), (plainDelivery, 7)]
      emptyWorld).storage :=
  ⟨uniqueKeys_nil, (storage_unique_per_key [] emptyWorld uniqueKeys_nil).2.1 _⟩

/-- C2. Backfill: when storage holds one document for key `uid_<n>`, without attachment
data, and the run for message `n` produces attachment data (the message is decoded and
the storage calls succeed), storage afterwards holds exactly one document for that key;
it has `hasAttachment = true`, the new attachment data, and the sender, subject, body and
received timestamp it had before. -/
theorem backfill_gains_attachment (dir : JSString) (d : Delivery) (uid : Nat) (w : World)
    (parsed : Parsed) (existing : MailRecord) (data : AttachmentData)
    (hparsed : d.parsed = some parsed) (hfind : d.findOneOk = true) (hsave : d.saveOk = true)
    (hone : recordsFor w.storage (emailIdOf uid) = [existing])
    (hbare : existing.attachmentData = none)
    (hdata : (attachmentLoop dir 0 parsed.attachments).attachmentData = some data) :
    ∃ r, recordsFor (processEmailContent dir d uid w).storage (emailIdOf uid) = [r] ∧
      r.hasAttachment = true ∧ r.attachmentData = some data ∧
      r.fromAddress = existing.fromAddress ∧ r.fromName = existing.fromName ∧
      r.subject = existing.subject ∧ r.body = existing.body ∧
      r.receivedAt = existing.receivedAt ∧ r.emailId = existing.emailId := by
  have hfo := findOne_of_recordsFor hone
  have hha := attachmentLoop_data_some dir 0 parsed.attachments data hdata
  have hsb : shouldBackfill (attachmentLoop dir 0 parsed.attachments) existing = true := by
    simp [shouldBackfill, hha, hdata, hbare]
  rw [processEmailContent_storage, hparsed]
  simp only [hfind, hsave, hfo, hsb, if_true, Bool.true_eq_false, or_self, if_false]
  rw [recordsFor_saveExisting _ _ (by simpa using findOne_emailId hfo)]
  simp only [if_true, hone]
  exact ⟨_, rfl, rfl, hdata, rfl, rfl, rfl, rfl, rfl, rfl⟩

/-! ## Contact number lemmas -/

theorem search_chr_none (p : Nat → Bool) (pre rest : List Nat)
    (h : search (.chr p) pre rest = none) : rest.filter (fun c => !p c) = rest := by
  induction rest generalizing pre with
  | nil => rfl
  | cons c cs ih =>
    unfold search at h
    by_cases hc : p c = true
    · simp [matchAt, Regex.ends, hc] at h
    · simp [matchAt, Regex.ends, hc] at h
      simp [List.filter_cons, hc, ih _ h]

theorem search_chr_some (p : Nat → Bool) (pre rest : List Nat) (f : Found)
    (h : search (.chr p) pre rest = some f) :
    ∃ c, f.rest = c :: f.fin.rest ∧ f.rest.length ≤ rest.length ∧
      (rest.take (rest.length - f.rest.length)).filter (fun c => !p c) =
        rest.take (rest.length - f.rest.length) ∧
      rest.filter (fun c => !p c) =
        rest.take (rest.length - f.rest.length) ++ f.fin.rest.filter (fun c => !p c) := by
  induction rest generalizing pre with
  | nil => simp [search, matchAt, Regex.ends] at h
  | cons c cs ih =>
    unfold search at h
    by_cases hc : p c = true
    · simp [matchAt, Regex.ends, hc] at h
      subst h
      exact ⟨c, rfl, le_refl _, by simp, by simp [List.filter_cons, hc]⟩
    · simp [matchAt, Regex.ends, hc] at h
      obtain ⟨c2, h1, h2, h3, h4⟩ := ih _ h
      refine ⟨c2, h1, by simp; omega, ?_, ?_⟩
      · have : (c :: cs).length - f.rest.length = (cs.length - f.rest.length) + 1 := by
          simp; omega
        rw [this, List.take_succ_cons, List.filter_cons]
        simp [hc, h3]
      · have : (c :: cs).length - f.rest.length = (cs.length - f.rest.length) + 1 := by
          simp; omega
        rw [this, List.take_succ_cons, List.filter_cons]
        simp [hc]
        exact h4

theorem replaceAllAux_chr (p : Nat → Bool) (fuel : Nat) (pre rest : List Nat)
    (hfuel : rest.length < fuel) :
    replaceAllAux (.chr p) [] fuel pre rest = rest.filter (fun c => !p c) := by
  induction fuel generalizing pre rest with
  | zero => omega
  | succ n ih =>
    unfold replaceAllAux
    cases hs : search (.chr p) pre rest with
    | none => simp only; exact (search_chr_none p pre rest hs).symm
    | some f =>
      simp only
      obtain ⟨c, h1, h2, h3, h4⟩ := search_chr_some p pre rest f hs
      have hlen : f.fin.rest.length ≠ f.rest.length := by rw [h1]; simp
      rw [if_neg hlen, ih _ _ (by rw [h1] at h2; simp at h2; omega), h4]
      simp

/-- Removing every code unit of a class is a filter. -/
theorem replaceAll_chr (p : Nat → Bool) (s : JSString) :
    replaceAll (.chr p) [] s = s.filter (fun c => !p c) :=
  replaceAllAux_chr p _ [] s (by omega)

theorem cleaned_eq (m : JSString) : cleaned m = m.filter (fun c => isDigit c || c == 43) := by
  unfold cleaned
  rw [replaceAll_chr]
  congr 1
  funext c
  simp

theorem cleaned_chars (m : JSString) : ∀ c ∈ cleaned m, isDigit c = true ∨ c = 43 := by
  intro c hc
  rw [cleaned_eq] at hc
  simpa using (List.mem_filter.mp hc).2

theorem contactFromLabelMatches_shape (ms : List JSString) :
    ContactShape (contactFromLabelMatches ms) := by
  induction ms with
  | nil => exact Or.inl rfl
  | cons m ms ih =>
    unfold contactFromLabelMatches
    split
    · exact Or.inr ⟨by assumption, cleaned_chars m⟩
    · exact ih

theorem contactFromLabelPatterns_shape (ps : List Regex) (text : JSString) :
    ContactShape (contactFromLabelPatterns ps text) := by
  induction ps with
  | nil => exact Or.inl rfl
  | cons p ps ih =>
    unfold contactFromLabelPatterns
    have := contactFromLabelMatches_shape (matchAll p text)
    split
    · exact ih
    · rename_i c cs heq
      rw [heq] at this
      exact this

theorem contactFromMatches_shape (ms : List JSString) :
    ContactShape (contactFromMatches ms) := by
  induction ms with
  | nil => exact Or.inl rfl
  | cons m ms ih =>
    unfold contactFromMatches
    split
    · rename_i h
      exact Or.inr ⟨h.1, cleaned_chars m⟩
    · exact ih

theorem contactFromPatterns_shape (ps : List Regex) (text : JSString) :
    ContactShape (contactFromPatterns ps text) := by
  induction ps with
  | nil => exact Or.inl rfl
  | cons p ps ih =>
    unfold contactFromPatterns
    have := contactFromMatches_shape (matchAll p text)
    split
    · exact ih
    · rename_i c cs heq
      rw [heq] at this
      exact this

theorem extractContact_shape (text : JSString) : ContactShape (extractContact text) := by
  unfold extractContact
  have := contactFromLabelPatterns_shape phoneWithLabelPatterns text
  split
  · exact contactFromPatterns_shape phonePatterns text
  · rename_i c cs heq
    rw [heq] at this
    exact this

set_option maxRecDepth 100000 in
/-- Witness of C2: message 7 is stored bare, then delivered again with a PDF. -/
theorem backfill_gains_attachment_witness :
    ∃ r, recordsFor (processEmailContent (js "up")
          ⟨some { plainParsed with attachments := [goodPdf] }, true, true, 0, true⟩ 7
          { emptyWorld with storage := [bareRecord] }).storage (emailIdOf 7) = [r] ∧
      r.hasAttachment = true ∧ r.attachmentData = some goodPdfData ∧
      r.fromAddress = bareRecord.fromAddress ∧ r.fromName = bareRecord.fromName ∧
      r.subject = bareRecord.subject ∧ r.body = bareRecord.body ∧
      r.receivedAt = bareRecord.receivedAt ∧ r.emailId = bareRecord.emailId :=
  backfill_gains_attachment (js "up")
    ⟨some { plainParsed with attachments := [goodPdf] }, true, true, 0, true⟩ 7
    { emptyWorld with storage := [bareRecord] } { plainParsed with attachments := [goodPdf] }
    bareRecord goodPdfData rfl rfl rfl (by decide) rfl (by decide)

/-- C5, the code at the input `"DOB: 15/08/1995"`: the labelled pattern is global, so
`match[1]` is undefined and the whole match, label included, becomes the date of birth. -/
theorem dob_labelled_keeps_label :
    (extractResumeData (js "DOB: 15/08/1995")).dateOfBirth = js "DOB: 15/08/1995" ∧
    (extractResumeData (js "DOB: 15/08/1995")).dateOfBirth ≠ js "15/08/1995" := by
  decide

/-- C6 as stated fails: `"Phone: +123456789"` yields the non-empty contact number
`"+123456789"`, which has nine digits. -/
theorem contact_nine_digits :
    (extractResumeData (js "Phone: +123456789")).contactNumber = js "+123456789" ∧
    (extractResumeData (js "Phone: +123456789")).contactNumber ≠ [] ∧
    ¬ 10 ≤ digitCount (extractResumeData (js "Phone: +123456789")).contactNumber := by
  decide

/-- C6 amended. Contact number minimum: for every text, a non-empty `contactNumber`
returned by `extractResumeData` has at least 10 characters, each a digit or a plus
sign; plus signs count toward the minimum. -/
theorem contact_min_length (text : JSString) :
    (extractResumeData text).contactNumber = [] ∨
      (10 ≤ (extractResumeData text).contactNumber.length ∧
        ∀ c ∈ (extractResumeData text).contactNumber, isDigit c = true ∨ c = 43) := by
  unfold extractResumeData
  cases text with
  | nil => exact Or.inl rfl
  | cons c cs => exact extractContact_shape (c :: cs)

/-! ## Text resolution, attachment loop and calendar-day filter -/

theorem filter_dropWhile_space (s : JSString) :
    (s.dropWhile isSpace).filter (fun c => !isSpace c) = s.filter (fun c => !isSpace c) := by
  induction s with
  | nil => rfl
  | cons c cs ih =>
    by_cases hc : isSpace c = true
    · simp [List.dropWhile_cons, List.filter_cons, hc, ih]
    · simp [List.dropWhile_cons, List.filter_cons, hc]

theorem nonSpaceCount_trim (s : JSString) : nonSpaceCount (trim s) = nonSpaceCount s := by
  unfold nonSpaceCount trim
  rw [List.filter_reverse, List.length_reverse, filter_dropWhile_space, List.filter_reverse,
    List.length_reverse, filter_dropWhile_space]

theorem nonSpaceCount_le_trim (s : JSString) : nonSpaceCount s ≤ (trim s).length := by
  rw [← nonSpaceCount_trim]
  exact List.length_filter_le _ _

theorem trim_length_le (s : JSString) : (trim s).length ≤ s.length := by
  unfold trim
  rw [List.length_reverse]
  calc ((s.dropWhile isSpace).reverse.dropWhile isSpace).length
      ≤ (s.dropWhile isSpace).reverse.length := (List.dropWhile_sublist _).length_le
    _ = (s.dropWhile isSpace).length := List.length_reverse _
    _ ≤ s.length := (List.dropWhile_sublist _).length_le

/-- C8 as stated fails: a text layer of two letters separated by sixty spaces has fewer
than 50 non-whitespace characters, and OCR is not invoked for it. -/
theorem ocr_not_invoked_sparse :
    nonSpaceCount (textLayer (some (some sparseText))) < 50 ∧
    (resolveText (some (some sparseText)) (some (some (js "scanned")))).ocrInvoked = false := by
  decide

/-- C8 amended. OCR trigger: the OCR fallback is invoked if and only if text-layer
extraction failed or produced text whose length after trimming leading and trailing
white space is below 50; in particular it is invoked for a 10-character result and never
invoked for a result with 50 or more non-whitespace characters. -/
theorem ocr_trigger (pdfParse ocr : Option (Option JSString)) :
    ((resolveText pdfParse ocr).ocrInvoked = true ↔
      (pdfParse = none ∨ (trim (textLayer pdfParse)).length < 50)) ∧
    ((textLayer pdfParse).length = 10 → (resolveText pdfParse ocr).ocrInvoked = true) ∧
    (50 ≤ nonSpaceCount (textLayer pdfParse) → (resolveText pdfParse ocr).ocrInvoked = false) := by
  have hinv : (resolveText pdfParse ocr).ocrInvoked = needsOcr (textLayer pdfParse) := rfl
  have hiff : needsOcr (textLayer pdfParse) = true ↔ (trim (textLayer pdfParse)).length < 50 := by
    unfold needsOcr
    rw [decide_eq_true_eq]
    constructor
    · rintro (h | h)
      · rw [h]; decide
      · exact h
    · exact Or.inr
  refine ⟨?_, ?_, ?_⟩
  · rw [hinv, hiff]
    constructor
    · exact Or.inr
    · rintro (h | h)
      · subst h; decide
      · exact h
  · intro h
    rw [hinv, hiff]
    have := trim_length_le (textLayer pdfParse)
    omega
  · intro h
    rw [hinv]
    have := nonSpaceCount_le_trim (textLayer pdfParse)
    cases hn : needsOcr (textLayer pdfParse)
    · rfl
    · have := hiff.mp hn
      omega

/-- Witness of C8 amended: a 10-character text layer, and one of 60 letters. -/
theorem ocr_trigger_witness :
    (resolveText (some (some (js "0123456789"))) none).ocrInvoked = true ∧
    (resolveText (some (some (List.replicate 60 97))) none).ocrInvoked = false :=
  ⟨(ocr_trigger (some (some (js "0123456789"))) none).2.1 (by decide),
   (ocr_trigger (some (some (List.replicate 60 97))) none).2.2 (by decide)⟩

set_option maxRecDepth 100000 in
/-- C9, the code on a message with three PDF attachments of which the first has empty
content: its `try` block throws before the `break`, the loop goes on, and the second PDF
is processed too; only the third is ignored. -/
theorem second_pdf_attempted_after_failure :
    (attachmentLoop (js "up") 0 [emptyPdf, goodPdf, goodPdf]).attempted = [0, 1] ∧
    (attachmentLoop (js "up") 0 [emptyPdf, goodPdf, goodPdf]).attachmentData = some goodPdfData := by
  decide

theorem fullYear_of_ge (y : Int) (h : 100 ≤ y) : fullYear y = y := by
  unfold fullYear
  rw [if_neg]
  omega

theorem fullYear_lt (y : Int) : fullYear y = y ∨ (1900 ≤ fullYear y ∧ fullYear y ≤ 1999) := by
  unfold fullYear
  split
  · right; omega
  · left; rfl

theorem dateOnly_eq_iff (today t : LocalTime) (h : 2000 ≤ today.year) :
    dateOnly t = dateOnly today ↔
      (t.year = today.year ∧ t.month = today.month ∧ t.day = today.day) := by
  unfold dateOnly
  rw [fullYear_of_ge today.year (by omega)]
  simp only [Prod.mk.injEq]
  constructor
  · rintro ⟨h1, h2, h3⟩
    refine ⟨?_, h2, h3⟩
    rcases fullYear_lt t.year with h4 | h4
    · rw [← h4]; exact h1
    · omega
  · rintro ⟨h1, h2, h3⟩
    refine ⟨?_, h2, h3⟩
    rw [h1]
    exact fullYear_of_ge today.year (by omega)

/-- C10. Calendar-day filter: with "now" in the year 2000 or later, a message is kept by
the filter if and only if its date is missing or invalid, or its local year, month and
day all equal those of "now". Only the date fields are compared: a message of today at
23:59:59 is kept, one at 00:00:01 on the following day number is dropped. -/
theorem calendar_day_filter (today : LocalTime) (msg : Message) (h : 2000 ≤ today.year) :
    (isFromToday today msg = true ↔
      (emailDate msg = none ∨ emailDate msg = some .invalid ∨
        ∃ t, emailDate msg = some (.valid t) ∧
          t.year = today.year ∧ t.month = today.month ∧ t.day = today.day)) ∧
    (∀ all, msg ∈ todaysMessages today all ↔
      (msg ∈ capMessages all ∧ isFromToday today msg = true)) ∧
    (emailDate msg = some (.valid { today with hours := 23, minutes := 59, seconds := 59 }) →
      isFromToday today msg = true) ∧
    (emailDate msg =
        some (.valid { today with day := today.day + 1, hours := 0, minutes := 0, seconds := 1 }) →
      isFromToday today msg = false) := by
  refine ⟨?_, ?_, ?_, ?_⟩
  · unfold isFromToday
    cases hd : emailDate msg with
    | none => simp
    | some d =>
      cases d with
      | invalid => simp
      | valid t =>
        simp only [decide_eq_true_eq, dateOnly_eq_iff today t h]
        constructor
        · intro h1
          exact Or.inr (Or.inr ⟨t, rfl, h1⟩)
        · rintro (h1 | h1 | ⟨t2, h1, h2⟩)
          · cases h1
          · cases h1
          · cases h1
            exact h2
  · intro all
    unfold todaysMessages
    rw [List.mem_filter]
  · intro h1
    unfold isFromToday
    rw [h1]
    simp [dateOnly]
  · intro h1
    unfold isFromToday
    rw [h1]
    simp [dateOnly]

/-- Witness of C10: two messages two seconds apart around midnight. -/
theorem calendar_day_filter_witness :
    (2000 : Int) ≤ sampleToday.year ∧
    isFromToday sampleToday ⟨1, some (.valid ⟨2026, 10, 6, 23, 59, 59⟩), none⟩ = true ∧
    isFromToday sampleToday ⟨2, some (.valid ⟨2026, 10, 7, 0, 0, 1⟩), none⟩ = false ∧
    isFromToday sampleToday ⟨3, none, some .invalid⟩ = true :=
  ⟨by decide,
   (calendar_day_filter sampleToday ⟨1, some (.valid ⟨2026, 10, 6, 23, 59, 59⟩), none⟩
      (by decide)).2.2.1 rfl,
   (calendar_day_filter sampleToday ⟨2, some (.valid ⟨2026, 10, 7, 0, 0, 1⟩), none⟩
      (by decide)).2.2.2 rfl,
   (calendar_day_filter sampleToday ⟨3, none, some .invalid⟩ (by decide)).1.mpr
      (Or.inr (Or.inl rfl))⟩

/-! ## Lemmas on the matcher -/

theorem repEnds_nil (p : Nat → Bool) (caps : List (Nat × JSString)) (lo : Nat) (hi : Option Nat)
    (pre : List Nat) :
    repEnds p caps lo hi pre [] = if lo = 0 then [⟨pre, [], caps⟩] else [] := by
  unfold repEnds; rfl

theorem repEnds_cons (p : Nat → Bool) (caps : List (Nat × JSString)) (lo : Nat) (hi : Option Nat)
    (pre : List Nat) (c : Nat) (cs : List Nat) :
    repEnds p caps lo hi pre (c :: cs) =
      (if hi ≠ some 0 ∧ p c = true then
          repEnds p caps (lo - 1) (hi.map (· - 1)) (c :: pre) cs
        else [])
        ++ (if lo = 0 then [⟨pre, c :: cs, caps⟩] else []) := by
  rw [repEnds]

/-- Every end state of a repetition is reached by consuming code units of the class,
at least `lo` and at most `hi` of them. -/
theorem mem_repEnds {p : Nat → Bool} {caps : List (Nat × JSString)} {lo : Nat}
    {hi : Option Nat} {pre rest : List Nat} {e : MState}
    (h : e ∈ repEnds p caps lo hi pre rest) :
    ∃ u, rest = u ++ e.rest ∧ e.pre = u.reverse ++ pre ∧ e.caps = caps ∧
      (∀ c ∈ u, p c = true) ∧ lo ≤ u.length ∧ (∀ n, hi = some n → u.length ≤ n) := by
  induction rest generalizing lo hi pre with
  | nil =>
    rw [repEnds_nil] at h
    split at h
    · rename_i h0
      simp only [List.mem_singleton] at h
      subst h
      exact ⟨[], rfl, rfl, rfl, by simp, by simp [h0], by simp⟩
    · simp at h
  | cons c cs ih =>
    rw [repEnds_cons, List.mem_append] at h
    rcases h with h | h
    · split at h
      · rename_i hc
        obtain ⟨u, h1, h2, h3, h4, h5, h6⟩ := ih h
        refine ⟨c :: u, by rw [h1]; rfl, by rw [h2]; simp, h3, ?_, by simp; omega, ?_⟩
        · intro x hx
          rcases List.mem_cons.mp hx with hx | hx
          · rw [hx]; exact hc.2
          · exact h4 x hx
        · intro n hn
          subst hn
          have := h6 (n - 1) (by simp)
          have hn0 : n ≠ 0 := fun h0 => hc.1 (by rw [h0])
          simp; omega
      · simp at h
    · split at h
      · rename_i h0
        simp only [List.mem_singleton] at h
        subst h
        exact ⟨[], rfl, rfl, rfl, by simp, by simp [h0], by simp⟩
      · simp at h

/-- A greedy `*` followed by a continuation that cannot start on a code unit of the
class has one way to match: the whole run. -/
theorem repEnds_bind_of_fail (p : Nat → Bool) (caps : List (Nat × JSString))
    (pre rest : List Nat) (F : MState → List MState)
    (hF : ∀ e : MState, (∃ c cs, e.rest = c :: cs ∧ p c = true) → F e = []) :
    (repEnds p caps 0 none pre rest).flatMap F =
      F ⟨(rest.takeWhile p).reverse ++ pre, rest.dropWhile p, caps⟩ := by
  induction rest generalizing pre with
  | nil => simp [repEnds_nil]
  | cons c cs ih =>
    rw [repEnds_cons]
    by_cases hc : p c = true
    · have hs : F ⟨pre, c :: cs, caps⟩ = [] := hF _ ⟨c, cs, rfl, hc⟩
      simp only [hc, ne_eq, not_false_eq_true, and_self, if_true, Option.map_none',
        List.flatMap_append, List.flatMap_cons, List.flatMap_nil, List.append_nil, hs,
        reduceCtorEq]
      rw [ih]
      simp [List.takeWhile_cons, List.dropWhile_cons, hc]
    · simp [List.takeWhile_cons, List.dropWhile_cons, hc]

/-- A greedy repetition without upper bound followed by a continuation: when the
continuation fails after every longer repetition and succeeds after `w`, the first match
is the first match of the continuation after `w`. -/
theorem repEnds_bind_head (p : Nat → Bool) (caps : List (Nat × JSString)) (lo : Nat)
    (pre w t : List Nat) (F : MState → List MState)
    (hw : ∀ c ∈ w, p c = true) (hlo : lo ≤ w.length)
    (hlong : ∀ e ∈ repEnds p caps 0 none (w.reverse ++ pre) t,
      e.rest.length < t.length → F e = [])
    (hne : F ⟨w.reverse ++ pre, t, caps⟩ ≠ []) :
    ((repEnds p caps lo none pre (w ++ t)).flatMap F).head? =
      (F ⟨w.reverse ++ pre, t, caps⟩).head? := by
  induction w generalizing lo pre with
  | nil =>
    simp only [List.length_nil, Nat.le_zero_eq] at hlo
    subst hlo
    simp only [List.reverse_nil, List.nil_append] at hlong hne ⊢
    cases t with
    | nil => simp [repEnds_nil]
    | cons c cs =>
      rw [repEnds_cons] at hlong ⊢
      simp only [if_true, List.flatMap_append, List.flatMap_cons, List.flatMap_nil, List.append_nil]
      have hA : (if (none : Option Nat) ≠ some 0 ∧ p c = true then
          repEnds p caps (0 - 1) (Option.map (· - 1) none) (c :: pre) cs else []).flatMap F = [] := by
        rw [List.flatMap_eq_nil_iff]
        intro e he
        apply hlong e (List.mem_append_left _ he)
        split at he
        · obtain ⟨u, h1, _⟩ := mem_repEnds he
          have := congrArg List.length h1
          simp at this ⊢
          omega
        · simp at he
      rw [hA]
      rfl
  | cons c w ih =>
    rw [List.cons_append, repEnds_cons]
    have hc : p c = true := hw c (List.mem_cons_self _ _)
    simp only [hc, ne_eq, not_false_eq_true, and_self, if_true, Option.map_none',
      List.flatMap_append, reduceCtorEq]
    have hrec := ih (lo - 1) (c :: pre) (fun x hx => hw x (List.mem_cons_of_mem _ hx))
      (by simp at hlo; omega) (by simpa using hlong) (by simpa using hne)
    have hne2 : (repEnds p caps (lo - 1) none (c :: pre) (w ++ t)).flatMap F ≠ [] := by
      intro h0
      rw [h0] at hrec
      have : (F ⟨w.reverse ++ c :: pre, t, caps⟩) ≠ [] := by simpa using hne
      cases hF : F ⟨w.reverse ++ c :: pre, t, caps⟩ with
      | nil => exact this hF
      | cons x xs => rw [hF] at hrec; simp at hrec
    rw [List.head?_append_of_ne_nil _ hne2, hrec]
    simp

/-- The first match of a greedy repetition without upper bound is the longest one. -/
theorem repEnds_head (p : Nat → Bool) (caps : List (Nat × JSString)) (lo : Nat)
    (pre rest : List Nat) (hlo : lo ≤ (rest.takeWhile p).length) :
    (repEnds p caps lo none pre rest).head? =
      some ⟨(rest.takeWhile p).reverse ++ pre, rest.dropWhile p, caps⟩ := by
  have h := repEnds_bind_head p caps lo pre (rest.takeWhile p) (rest.dropWhile p)
    (fun e => [e]) (fun c hc => (List.mem_takeWhile_imp hc)) hlo ?_ (by simp)
  · rw [List.takeWhile_append_dropWhile] at h
    simpa using h
  · intro e he hlt
    exfalso
    obtain ⟨u, h1, _, _, h4, _⟩ := mem_repEnds he
    cases u with
    | nil =>
      have := congrArg List.length h1
      simp at this
      omega
    | cons c u =>
      have hc := h4 c (List.mem_cons_self _ _)
      cases hd : rest.dropWhile p with
      | nil => rw [hd] at h1; simp at h1
      | cons d ds =>
        have hnd := List.head_dropWhile_not p rest (by rw [hd]; simp)
        rw [hd] at h1
        simp only [List.cons_append, List.cons.injEq] at h1
        simp only [hd, List.head_cons] at hnd
        rw [h1.1, hc] at hnd
        simp at hnd

theorem ends_eps (s : MState) : Regex.eps.ends s = [s] := by rw [Regex.ends]

theorem ends_seq (a b : Regex) (s : MState) :
    (Regex.seq a b).ends s = (a.ends s).flatMap b.ends := by rw [Regex.ends]

theorem ends_alt (a b : Regex) (s : MState) :
    (Regex.alt a b).ends s = a.ends s ++ b.ends s := by rw [Regex.ends]

theorem ends_group (i : Nat) (r : Regex) (s : MState) :
    (Regex.group i r).ends s =
      (r.ends s).map fun e =>
        { e with caps := (i, s.rest.take (s.rest.length - e.rest.length)) :: e.caps } := by
  rw [Regex.ends]

theorem ends_rep (p : Nat → Bool) (lo : Nat) (hi : Option Nat) (s : MState) :
    (Regex.rep p lo hi).ends s = repEnds p s.caps lo hi s.pre s.rest := by rw [Regex.ends]

theorem ends_opt (r : Regex) (s : MState) :
    (Regex.opt r).ends s =
      (r.ends s).filter (fun e => e.rest.length != s.rest.length) ++ [s] := by rw [Regex.ends]

theorem ends_chr_nil (p : Nat → Bool) (pre : List Nat) (caps : List (Nat × JSString)) :
    (Regex.chr p).ends ⟨pre, [], caps⟩ = [] := by rw [Regex.ends]

theorem ends_chr_cons (p : Nat → Bool) (pre : List Nat) (c : Nat) (cs : List Nat)
    (caps : List (Nat × JSString)) :
    (Regex.chr p).ends ⟨pre, c :: cs, caps⟩ = if p c then [⟨c :: pre, cs, caps⟩] else [] := by
  rw [Regex.ends]

theorem ends_bol_nil (rest : List Nat) (caps : List (Nat × JSString)) :
    Regex.bol.ends ⟨[], rest, caps⟩ = [⟨[], rest, caps⟩] := by rw [Regex.ends]

theorem ends_bol_cons (c : Nat) (pre rest : List Nat) (caps : List (Nat × JSString)) :
    Regex.bol.ends ⟨c :: pre, rest, caps⟩ = [] := by rw [Regex.ends]

theorem ends_eol_nil (pre : List Nat) (caps : List (Nat × JSString)) :
    Regex.eol.ends ⟨pre, [], caps⟩ = [⟨pre, [], caps⟩] := by rw [Regex.ends]

theorem ends_eol_cons (pre : List Nat) (c : Nat) (cs : List Nat) (caps : List (Nat × JSString)) :
    Regex.eol.ends ⟨pre, c :: cs, caps⟩ = [] := by rw [Regex.ends]

theorem ends_wordB (s : MState) :
    Regex.wordB.ends s = if isWordAt s.pre != isWordAt s.rest then [s] else [] := by
  rw [Regex.ends]

theorem repEnds_eq_nil_of_short (p : Nat → Bool) (caps : List (Nat × JSString)) (lo : Nat)
    (hi : Option Nat) (pre rest : List Nat) (h : rest.length < lo) :
    repEnds p caps lo hi pre rest = [] := by
  rw [List.eq_nil_iff_forall_not_mem]
  intro e he
  obtain ⟨u, h1, _, _, _, h5, _⟩ := mem_repEnds he
  have := congrArg List.length h1
  simp at this
  omega

theorem search_cons_of_matchAt {r : Regex} {pre : List Nat} {c : Nat} {cs : List Nat}
    {e : MState} (h : matchAt r pre (c :: cs) = some e) :
    search r pre (c :: cs) = some ⟨pre, c :: cs, e⟩ := by
  rw [search, h]

/-- A greedy repetition without upper bound that must reach the end of the text: on a
text of the class it consumes everything. -/
theorem repEnds_eol_head (p : Nat → Bool) (caps : List (Nat × JSString)) (lo : Nat)
    (pre w : List Nat) (G : MState → MState) (hw : ∀ c ∈ w, p c = true) (hlo : lo ≤ w.length)
    (hG : ∀ e, (G e).rest = e.rest) :
    ((repEnds p caps lo none pre w).flatMap fun e => Regex.eol.ends (G e)).head? =
      some (G ⟨w.reverse ++ pre, [], caps⟩) := by
  have hnil : ∀ e : MState, e.rest = [] → Regex.eol.ends e = [e] := by
    intro e he
    cases e with
    | mk p1 r1 c1 =>
      simp only at he
      subst he
      exact ends_eol_nil _ _
  have h := repEnds_bind_head p caps lo pre w [] (fun e => Regex.eol.ends (G e)) hw hlo
    (by intro e he hlt; simp at hlt)
    (by
      simp only
      rw [hnil _ (by rw [hG])]
      simp)
  rw [List.append_nil] at h
  rw [h]
  simp only
  rw [hnil _ (by rw [hG])]
  rfl

/-! ## Name strategy 2 -/

/-- On a run of capitals the pattern `/^[A-Z]+$/` matches. -/
theorem test_reUpperOnly (line : JSString) (hne : line ≠ []) (hupper : ∀ c ∈ line, isUpper c = true) :
    test reUpperOnly line = true := by
  cases line with
  | nil => exact absurd rfl hne
  | cons c cs =>
    have hm : matchAt reUpperOnly [] (c :: cs) = some ⟨(c :: cs).reverse ++ [], [], []⟩ := by
      unfold matchAt
      show (((Regex.seq .bol (Regex.seq (.rep isUpper 1 none) .eol)).ends
        ⟨[], c :: cs, []⟩).head?) = _
      rw [ends_seq, ends_bol_nil, List.flatMap_cons, List.flatMap_nil, List.append_nil, ends_seq,
        ends_rep]
      exact repEnds_eol_head isUpper [] 1 [] (c :: cs) id hupper (by simp) (fun _ => rfl)
    unfold test
    rw [search_cons_of_matchAt hm]
    rfl

/-- On a run of `n ≥ 6` capitals the split pattern captures the first `n - 3` and the
last three letters. -/
theorem jsMatch_splitPattern (a b : List Nat) (ha : 3 ≤ a.length) (hb : b.length = 3)
    (hua : ∀ c ∈ a, isUpper c = true) (hub : ∀ c ∈ b, isUpper c = true) :
    ∃ m, jsMatch splitPattern (a ++ b) = some m ∧ m.cap 1 = some a ∧ m.cap 2 = some b := by
  have hsecond : ∀ (caps : List (Nat × JSString)) (pre : List Nat),
      ((Regex.seq (.group 2 (.rep isUpper 3 none)) .eol).ends ⟨pre, b, caps⟩).head? =
        some ⟨b.reverse ++ pre, [], (2, b) :: caps⟩ := by
    intro caps pre
    rw [ends_seq, ends_group, ends_rep, List.flatMap_map]
    have h := repEnds_eol_head isUpper caps 3 pre b
      (fun e => { e with caps := (2, b.take (b.length - e.rest.length)) :: e.caps })
      hub (by omega) (fun _ => rfl)
    simpa using h
  have hmatch : matchAt splitPattern [] (a ++ b) =
      some ⟨b.reverse ++ (a.reverse ++ []), [], [(2, b), (1, a)]⟩ := by
    unfold matchAt
    show (((Regex.seq .bol (Regex.seq (.group 1 (.rep isUpper 3 none))
        (Regex.seq (.group 2 (.rep isUpper 3 none)) .eol))).ends ⟨[], a ++ b, []⟩).head?) = _
    rw [ends_seq, ends_bol_nil, List.flatMap_cons, List.flatMap_nil, List.append_nil, ends_seq,
      ends_group, ends_rep, List.flatMap_map]
    have hF : (Regex.seq (.group 2 (.rep isUpper 3 none)) .eol).ends
        ⟨a.reverse ++ [], b, [(1, (a ++ b).take ((a ++ b).length - b.length))]⟩ ≠ [] := by
      intro h0
      have := hsecond [(1, (a ++ b).take ((a ++ b).length - b.length))] (a.reverse ++ [])
      rw [h0] at this
      simp at this
    rw [repEnds_bind_head isUpper [] 3 [] a b
      (fun e => (Regex.seq (.group 2 (.rep isUpper 3 none)) .eol).ends
        { e with caps := (1, (a ++ b).take ((a ++ b).length - e.rest.length)) :: e.caps })
      hua ha ?_ hF]
    · simp only
      rw [hsecond]
      simp
    · intro e he hlt
      simp only
      rw [ends_seq, ends_group, ends_rep, repEnds_eq_nil_of_short _ _ _ _ _ _ (by simp; omega)]
      rfl
  cases hab : a ++ b with
  | nil =>
    have h := congrArg List.length hab
    simp only [List.length_append, List.length_nil] at h
    omega
  | cons c cs =>
    rw [hab] at hmatch
    refine ⟨_, search_cons_of_matchAt hmatch, ?_, ?_⟩
    · simp [Found.cap, List.find?_cons]
    · simp [Found.cap, List.find?_cons]

theorem nameFromLabels_none (ps : List Regex) (text : JSString)
    (h : ∀ p ∈ ps, jsMatch p text = none) : nameFromLabels ps text = [] := by
  induction ps with
  | nil => rfl
  | cons p ps ih =>
    rw [nameFromLabels, h p (List.mem_cons_self _ _)]
    exact ih fun q hq => h q (List.mem_cons_of_mem _ hq)

theorem isSpace_of_isUpper {c : Nat} (h : isUpper c = true) : isSpace c = false := by
  simp only [isUpper, decide_eq_true_eq] at h
  simp only [isSpace, Bool.or_eq_false_iff, beq_eq_false_iff_ne, decide_eq_false_iff_not]
  omega

theorem isLower_of_isUpper {c : Nat} (h : isUpper c = true) : isLower c = false := by
  simp only [isUpper, decide_eq_true_eq] at h
  simp only [isLower, decide_eq_false_iff_not]
  omega

theorem toUpperCase_of_upper (line : JSString) (h : ∀ c ∈ line, isUpper c = true) :
    toUpperCase line = line := by
  unfold toUpperCase
  conv => rhs; rw [← List.map_id line]
  apply List.map_congr_left
  intro c hc
  simp [isLower_of_isUpper (h c hc)]

theorem filter_notSpace_of_upper (line : JSString) (h : ∀ c ∈ line, isUpper c = true) :
    line.filter (fun c => !isSpace c) = line := by
  rw [List.filter_eq_self]
  intro c hc
  simp [isSpace_of_isUpper (h c hc)]

theorem nameFromCapsLines_cons (c : Nat) (cs : JSString) (ls : List JSString) :
    nameFromCapsLines (c :: cs) ls = c :: cs := rfl

theorem nameFromCapitalizedLines_cons (c : Nat) (cs : JSString) (ls : List JSString) :
    nameFromCapitalizedLines (c :: cs) ls = c :: cs := rfl

theorem nameFromPattern_cons (c : Nat) (cs : JSString) (text : JSString) :
    nameFromPattern (c :: cs) text = c :: cs := rfl

/-- A name found by strategy 1 or 2 is the final name. -/
theorem later_strategies_keep (name : JSString) (ls : List JSString) (text : JSString)
    (h : name ≠ []) :
    nameFromPattern (nameFromCapitalizedLines (nameFromCapsLines name ls) ls) text = name := by
  cases name with
  | nil => exact absurd rfl h
  | cons c cs => rfl

theorem nameFromFirstLine_split (line : JSString) (rest : List JSString) (a b : List Nat)
    (hline : line = a ++ b) (ha : 3 ≤ a.length) (hb : b.length = 3) (hlen : line.length ≤ 29)
    (hua : ∀ c ∈ a, isUpper c = true) (hub : ∀ c ∈ b, isUpper c = true) :
    nameFromFirstLine [] (line :: rest) = a ++ js " " ++ b := by
  have hupper : ∀ c ∈ line, isUpper c = true := by
    intro c hc
    rw [hline, List.mem_append] at hc
    exact hc.elim (hua c) (hub c)
  have hl : line.length = a.length + 3 := by rw [hline, List.length_append, hb]
  have hne : line ≠ [] := by
    intro h0; rw [h0] at hl; simp at hl
  obtain ⟨m, hm, h1, h2⟩ := jsMatch_splitPattern a b ha hb hua hub
  rw [← hline] at hm
  unfold nameFromFirstLine
  simp only
  rw [if_pos ⟨(toUpperCase_of_upper line hupper).symm, by
    rw [replaceAll_chr, filter_notSpace_of_upper line hupper]
    exact test_reUpperOnly line hne hupper⟩]
  rw [if_pos ⟨by omega, by omega⟩, hm]
  simp only [h1, h2, Option.getD_some]

theorem lines_nil : lines [] = [] := by decide

/-- C3. Name strategy 2 split: for every text in which no pattern of `namePatterns1`
matches and whose first non-blank line (trimmed) is a single run of `n` capitals with
`6 ≤ n ≤ 29`, the extracted name is two segments of capitals separated by one space whose
concatenation is that line, the first of at least three letters and the second being the
last three letters; in particular `"DANISHALI\nSoftware Engineer"` yields `"DANISH ALI"`. -/
theorem name_split_all_caps (text line : JSString)
    (hlabel : ∀ p ∈ namePatterns1, jsMatch p text = none)
    (hfirst : (lines text).head? = some line)
    (hupper : ∀ c ∈ line, isUpper c = true)
    (hlen : 6 ≤ line.length ∧ line.length ≤ 29) :
    (∃ a b, (extractResumeData text).name = a ++ js " " ++ b ∧ a ++ b = line ∧
      3 ≤ a.length ∧ b = line.drop (line.length - 3) ∧ b.length = 3 ∧
      (∀ c ∈ a, isUpper c = true) ∧ (∀ c ∈ b, isUpper c = true)) ∧
    (extractResumeData (js "DANISHALI\nSoftware Engineer")).name = js "DANISH ALI" := by
  refine ⟨?_, by decide⟩
  have hua : ∀ c ∈ line.take (line.length - 3), isUpper c = true :=
    fun c hc => hupper c (List.mem_of_mem_take hc)
  have hub : ∀ c ∈ line.drop (line.length - 3), isUpper c = true :=
    fun c hc => hupper c (List.mem_of_mem_drop hc)
  have hal : 3 ≤ (line.take (line.length - 3)).length := by
    rw [List.length_take]; omega
  have hbl : (line.drop (line.length - 3)).length = 3 := by
    rw [List.length_drop]; omega
  refine ⟨line.take (line.length - 3), line.drop (line.length - 3), ?_,
    List.take_append_drop _ _, hal, rfl, hbl, hua, hub⟩
  cases text with
  | nil => rw [lines_nil] at hfirst; simp at hfirst
  | cons t ts =>
    cases hl : lines (t :: ts) with
    | nil => rw [hl] at hfirst; simp at hfirst
    | cons l ls =>
      rw [hl] at hfirst
      simp only [List.head?_cons, Option.some.injEq] at hfirst
      subst hfirst
      show extractName (t :: ts) = _
      unfold extractName
      rw [nameFromLabels_none _ _ hlabel, hl,
        nameFromFirstLine_split l ls _ _ (List.take_append_drop _ _).symm hal hbl hlen.2 hua hub]
      apply later_strategies_keep
      intro h0
      have := congrArg List.length h0
      simp only [List.length_append, List.length_nil] at this
      omega

/-- Witness of C3: the text `"DANISHALI\nSoftware Engineer"`. -/
theorem name_split_all_caps_witness :
    ∃ a b, (extractResumeData (js "DANISHALI\nSoftware Engineer")).name = a ++ js " " ++ b ∧
      a ++ b = js "DANISHALI" ∧ 3 ≤ a.length ∧
      b = (js "DANISHALI").drop ((js "DANISHALI").length - 3) ∧ b.length = 3 ∧
      (∀ c ∈ a, isUpper c = true) ∧ (∀ c ∈ b, isUpper c = true) :=
  (name_split_all_caps (js "DANISHALI\nSoftware Engineer") (js "DANISHALI")
    (by decide) (by decide) (by decide) (by decide)).1

/-! ## Name strategy 1 -/

theorem namePatterns1_head :
    namePatterns1.head? = some (Regex.seq (Regex.alt .bol (Regex.unit '\n')) reLabelTail) := rfl

theorem reLabelTail_eq :
    reLabelTail = Regex.seq (.rep isSpace 0 none)
      (Regex.seq (Regex.seq (Regex.ci 110) (Regex.seq (Regex.ci 97)
          (Regex.seq (Regex.ci 109) (Regex.ci 101))))
        (Regex.seq (.rep isSpace 0 none) (Regex.seq (Regex.chr (· == 58))
          (Regex.seq (.rep isSpace 0 none) (.group 1 (.rep notNewline 1 none)))))) := rfl

theorem not_eqIgnoreCase_of_space (k c : Nat) (hk : isAlpha k = true) (h : isSpace c = true) :
    eqIgnoreCase k c = false := by
  simp only [isAlpha, isUpper, isLower, Bool.or_eq_true, decide_eq_true_eq] at hk
  simp only [isSpace, Bool.or_eq_true, beq_iff_eq, decide_eq_true_eq] at h
  simp only [eqIgnoreCase, isLower, isUpper, Bool.or_eq_false_iff, Bool.and_eq_false_iff,
    beq_eq_false_iff_ne, decide_eq_false_iff_not]
  omega

theorem notNewline_of_not_space {c : Nat} (h : isSpace c = false) : notNewline c = true := by
  simp only [isSpace, Bool.or_eq_false_iff, beq_eq_false_iff_ne, decide_eq_false_iff_not] at h
  simp only [notNewline, Bool.not_eq_true', Bool.or_eq_false_iff, beq_eq_false_iff_ne]
  omega

/-- The literal `name` under the `i` flag. -/
theorem ends_name (pre t : List Nat) (caps : List (Nat × JSString)) :
    (Regex.seq (Regex.ci 110) (Regex.seq (Regex.ci 97)
        (Regex.seq (Regex.ci 109) (Regex.ci 101)))).ends ⟨pre, t, caps⟩ =
      match t with
      | n :: a :: m :: e :: r =>
        if eqIgnoreCase 110 n && eqIgnoreCase 97 a && eqIgnoreCase 109 m && eqIgnoreCase 101 e
        then [⟨e :: m :: a :: n :: pre, r, caps⟩] else []
      | _ => [] := by
  unfold Regex.ci
  rcases t with _ | ⟨n, _ | ⟨a, _ | ⟨m, _ | ⟨e, r⟩⟩⟩⟩
  · simp [ends_seq, ends_chr_nil]
  · by_cases h1 : eqIgnoreCase 110 n = true <;>
      simp [ends_seq, ends_chr_nil, ends_chr_cons, h1]
  · by_cases h1 : eqIgnoreCase 110 n = true <;> by_cases h2 : eqIgnoreCase 97 a = true <;>
      simp [ends_seq, ends_chr_nil, ends_chr_cons, h1, h2]
  · by_cases h1 : eqIgnoreCase 110 n = true <;> by_cases h2 : eqIgnoreCase 97 a = true <;>
      by_cases h3 : eqIgnoreCase 109 m = true <;>
      simp [ends_seq, ends_chr_nil, ends_chr_cons, h1, h2, h3]
  · by_cases h1 : eqIgnoreCase 110 n = true <;> by_cases h2 : eqIgnoreCase 97 a = true <;>
      by_cases h3 : eqIgnoreCase 109 m = true <;> by_cases h4 : eqIgnoreCase 101 e = true <;>
      simp [ends_seq, ends_chr_nil, ends_chr_cons, h1, h2, h3, h4]

theorem take_length_sub_dropWhile (p : Nat → Bool) (l : List Nat) :
    l.take (l.length - (l.dropWhile p).length) = l.takeWhile p := by
  have h := List.takeWhile_append_dropWhile p l
  have hlen : l.length - (l.dropWhile p).length = (l.takeWhile p).length := by
    have := congrArg List.length h
    simp only [List.length_append] at this
    omega
  rw [hlen]
  have h2 := @List.take_left' _ (l.takeWhile p) (l.dropWhile p) _ rfl
  rwa [h] at h2

/-- The capture group `([^\n\r]+)` started on a non-blank code unit. -/
theorem ends_capture_head (pre : List Nat) (c : Nat) (cs : List Nat)
    (caps : List (Nat × JSString)) (hc : notNewline c = true) :
    ((Regex.group 1 (.rep notNewline 1 none)).ends ⟨pre, c :: cs, caps⟩).head? =
      some ⟨((c :: cs).takeWhile notNewline).reverse ++ pre, (c :: cs).dropWhile notNewline,
        (1, (c :: cs).takeWhile notNewline) :: caps⟩ := by
  rw [ends_group, ends_rep, List.head?_map,
    repEnds_head notNewline caps 1 pre (c :: cs) (by simp [List.takeWhile_cons, hc])]
  simp only [Option.map_some', Option.some.injEq, MState.mk.injEq, true_and]
  rw [take_length_sub_dropWhile]

/-- The part `\s*([^\n\r]+)` after the colon: the white space is skipped and the capture
runs to the end of the line. -/
theorem ends_after_colon_head (pre rest : List Nat) (c : Nat) (cs : List Nat)
    (caps : List (Nat × JSString)) (hd : rest.dropWhile isSpace = c :: cs) :
    ((Regex.seq (.rep isSpace 0 none) (.group 1 (.rep notNewline 1 none))).ends
        ⟨pre, rest, caps⟩).head? =
      some ⟨((c :: cs).takeWhile notNewline).reverse ++ ((rest.takeWhile isSpace).reverse ++ pre),
        (c :: cs).dropWhile notNewline, (1, (c :: cs).takeWhile notNewline) :: caps⟩ := by
  have hcs : isSpace c = false := by
    have := List.head_dropWhile_not isSpace rest (by rw [hd]; simp)
    simpa [hd] using this
  have hcn := notNewline_of_not_space hcs
  rw [ends_seq, ends_rep]
  have h := repEnds_bind_head isSpace caps 0 pre (rest.takeWhile isSpace) (c :: cs)
    (Regex.group 1 (.rep notNewline 1 none)).ends
    (fun x hx => List.mem_takeWhile_imp hx) (Nat.zero_le _) ?_ ?_
  · rw [← hd, List.takeWhile_append_dropWhile] at h
    rw [h, hd]
    exact ends_capture_head _ c cs caps hcn
  · intro e he hlt
    exfalso
    obtain ⟨u, h1, _, _, h4, _⟩ := mem_repEnds he
    cases u with
    | nil =>
      simp only [List.nil_append] at h1
      rw [← h1] at hlt
      exact absurd hlt (lt_irrefl _)
    | cons d u =>
      simp only [List.cons_append, List.cons.injEq] at h1
      have := h4 d (List.mem_cons_self _ _)
      rw [← h1.1, hcs] at this
      exact absurd this (by simp)
  · intro h0
    have := ends_capture_head ((rest.takeWhile isSpace).reverse ++ pre) c cs caps hcn
    rw [h0] at this
    simp at this

/-- The part of the label pattern after the line start fails where `labelAt` finds no
label. -/
theorem ends_reLabelTail_none (pre s : List Nat) (caps : List (Nat × JSString))
    (h : labelAt s = none) : reLabelTail.ends ⟨pre, s, caps⟩ = [] := by
  rw [reLabelTail_eq, ends_seq, ends_rep]
  rw [repEnds_bind_of_fail]
  · rw [ends_seq, ends_name]
    unfold labelAt at h
    rcases hs : s.dropWhile isSpace with _ | ⟨n, _ | ⟨a, _ | ⟨m, _ | ⟨e, r⟩⟩⟩⟩
    · simp
    · simp
    · simp
    · simp
    · rw [hs] at h
      simp only at h ⊢
      split
      · rename_i hci
        rw [if_pos hci] at h
        rw [List.flatMap_cons, List.flatMap_nil, List.append_nil, ends_seq, ends_rep,
          repEnds_bind_of_fail]
        · rcases hr : r.dropWhile isSpace with _ | ⟨c, rest⟩
          · rw [ends_seq, ends_chr_nil]; rfl
          · rw [hr] at h
            simp only at h
            have hc : c ≠ 58 := by
              intro h58
              rw [if_pos h58] at h
              simp at h
            rw [ends_seq, ends_chr_cons]
            simp [hc]
        · rintro ⟨p1, r1, c1⟩ ⟨c, cs, hrest, hsp⟩
          simp only at hrest
          subst hrest
          rw [ends_seq, ends_chr_cons]
          have : (c == 58) = false := by
            simp only [isSpace, Bool.or_eq_true, beq_iff_eq, decide_eq_true_eq] at hsp
            simp only [beq_eq_false_iff_ne]
            omega
          simp [this]
      · rfl
  · rintro ⟨p1, r1, c1⟩ ⟨c, cs, hrest, hsp⟩
    simp only at hrest
    subst hrest
    rw [ends_seq, ends_name]
    rcases cs with _ | ⟨a, _ | ⟨m, _ | ⟨e, r⟩⟩⟩
    · rfl
    · rfl
    · rfl
    · simp [not_eqIgnoreCase_of_space 110 c (by decide) hsp]

/-- The part of the label pattern after the line start, where `labelAt` finds a label
followed by a non-blank code unit: the capture is the run from that code unit to the end
of the line. -/
theorem ends_reLabelTail_some (pre s rest : List Nat) (c : Nat) (cs : List Nat)
    (h : labelAt s = some rest) (hd : rest.dropWhile isSpace = c :: cs) :
    ∃ e, (reLabelTail.ends ⟨pre, s, []⟩).head? = some e ∧
      e.caps = [(1, (c :: cs).takeWhile notNewline)] := by
  rw [reLabelTail_eq, ends_seq, ends_rep]
  rw [repEnds_bind_of_fail]
  · rw [ends_seq, ends_name]
    unfold labelAt at h
    rcases hs : s.dropWhile isSpace with _ | ⟨n, _ | ⟨a, _ | ⟨m, _ | ⟨e, r⟩⟩⟩⟩
    · rw [hs] at h; simp at h
    · rw [hs] at h; simp at h
    · rw [hs] at h; simp at h
    · rw [hs] at h; simp at h
    · rw [hs] at h
      simp only at h ⊢
      split
      · rename_i hci
        rw [if_pos hci] at h
        rw [List.flatMap_cons, List.flatMap_nil, List.append_nil, ends_seq, ends_rep,
          repEnds_bind_of_fail]
        · rcases hr : r.dropWhile isSpace with _ | ⟨c2, rest2⟩
          · rw [hr] at h; simp at h
          · rw [hr] at h
            simp only at h
            have hc : c2 = 58 := by
              by_contra hne
              rw [if_neg hne] at h
              simp at h
            rw [if_pos hc] at h
            simp only [Option.some.injEq] at h
            subst h
            subst hc
            rw [ends_seq, ends_chr_cons]
            simp only [beq_self_eq_true, if_true, List.flatMap_cons, List.flatMap_nil,
              List.append_nil]
            rw [ends_after_colon_head _ _ c cs _ hd]
            exact ⟨_, rfl, rfl⟩
        · rintro ⟨p1, r1, c1⟩ ⟨c, cs, hrest, hsp⟩
          simp only at hrest
          subst hrest
          rw [ends_seq, ends_chr_cons]
          have : (c == 58) = false := by
            simp only [isSpace, Bool.or_eq_true, beq_iff_eq, decide_eq_true_eq] at hsp
            simp only [beq_eq_false_iff_ne]
            omega
          simp [this]
      · rename_i hci
        rw [if_neg hci] at h
        simp at h
  · rintro ⟨p1, r1, c1⟩ ⟨c, cs, hrest, hsp⟩
    simp only at hrest
    subst hrest
    rw [ends_seq, ends_name]
    rcases cs with _ | ⟨a, _ | ⟨m, _ | ⟨e, r⟩⟩⟩
    · rfl
    · rfl
    · rfl
    · simp [not_eqIgnoreCase_of_space 110 c (by decide) hsp]

/-- The first label pattern, as `(?:^|\n)` followed by `reLabelTail`. -/
theorem ends_labelPattern (s : MState) :
    (Regex.seq (Regex.alt .bol (Regex.unit '\n')) reLabelTail).ends s =
      (Regex.bol.ends s).flatMap reLabelTail.ends ++
        ((Regex.chr (· == 10)).ends s).flatMap reLabelTail.ends := by
  rw [ends_seq, ends_alt, List.flatMap_append]
  rfl

/-- Search for the first label pattern from a position inside the text. -/
theorem search_label_tail (pre rest r : List Nat) (c : Nat) (cs : List Nat)
    (hpre : pre ≠ [])
    (h : ((lineTails rest).filterMap labelAt).head? = some r)
    (hd : r.dropWhile isSpace = c :: cs) :
    ∃ f, search (Regex.seq (Regex.alt .bol (Regex.unit '\n')) reLabelTail) pre rest = some f ∧
      f.cap 1 = some ((c :: cs).takeWhile notNewline) := by
  induction rest generalizing pre with
  | nil => simp [lineTails] at h
  | cons x xs ih =>
    obtain ⟨p0, ps, rfl⟩ := List.exists_cons_of_ne_nil hpre
    have hm : matchAt (Regex.seq (Regex.alt .bol (Regex.unit '\n')) reLabelTail) (p0 :: ps)
        (x :: xs) = (if x = 10 then (reLabelTail.ends ⟨x :: p0 :: ps, xs, []⟩).head? else none) := by
      unfold matchAt
      rw [ends_labelPattern, ends_bol_cons, ends_chr_cons]
      by_cases hx : x = 10
      · simp [hx]
      · simp [hx]
    by_cases hx : x = 10
    · rw [if_pos hx] at hm
      rw [lineTails, if_pos hx, List.filterMap_cons] at h
      cases hl : labelAt xs with
      | none =>
        rw [hl] at h
        simp only at h
        rw [ends_reLabelTail_none _ _ _ hl] at hm
        rw [search, hm]
        exact ih (x :: p0 :: ps) (by simp) h
      | some r2 =>
        rw [hl] at h
        simp only [List.head?_cons, Option.some.injEq] at h
        subst h
        obtain ⟨e, he, hcaps⟩ := ends_reLabelTail_some (x :: p0 :: ps) xs r2 c cs hl hd
        rw [he] at hm
        refine ⟨_, search_cons_of_matchAt hm, ?_⟩
        simp [Found.cap, hcaps]
    · rw [if_neg hx] at hm
      rw [lineTails, if_neg hx] at h
      rw [search, hm]
      exact ih (x :: p0 :: ps) (by simp) h

/-- Search for the first label pattern from the start of the text. -/
theorem search_label (text r : List Nat) (c : Nat) (cs : List Nat)
    (h : firstLabel text = some r) (hd : r.dropWhile isSpace = c :: cs) :
    ∃ f, jsMatch (Regex.seq (Regex.alt .bol (Regex.unit '\n')) reLabelTail) text = some f ∧
      f.cap 1 = some ((c :: cs).takeWhile notNewline) := by
  unfold firstLabel at h
  unfold jsMatch
  cases text with
  | nil => simp [labelAt, lineTails] at h
  | cons x xs =>
    have hm : matchAt (Regex.seq (Regex.alt .bol (Regex.unit '\n')) reLabelTail) [] (x :: xs) =
        ((reLabelTail.ends ⟨[], x :: xs, []⟩) ++
          (if x = 10 then reLabelTail.ends ⟨[x], xs, []⟩ else [])).head? := by
      unfold matchAt
      rw [ends_labelPattern, ends_bol_nil, ends_chr_cons]
      by_cases hx : x = 10
      · simp [hx]
      · simp [hx]
    rw [List.filterMap_cons] at h
    cases hl : labelAt (x :: xs) with
    | some r2 =>
      rw [hl] at h
      simp only [List.head?_cons, Option.some.injEq] at h
      subst h
      obtain ⟨e, he, hcaps⟩ := ends_reLabelTail_some [] (x :: xs) r2 c cs hl hd
      have hm2 : matchAt (Regex.seq (Regex.alt .bol (Regex.unit '\n')) reLabelTail) []
          (x :: xs) = some e := by
        rw [hm, List.head?_append, he]
        rfl
      refine ⟨_, search_cons_of_matchAt hm2, ?_⟩
      simp [Found.cap, hcaps]
    | none =>
      rw [hl] at h
      simp only at h
      rw [ends_reLabelTail_none _ _ _ hl, List.nil_append] at hm
      by_cases hx : x = 10
      · rw [if_pos hx] at hm
        rw [lineTails, if_pos hx, List.filterMap_cons] at h
        cases hl2 : labelAt xs with
        | none =>
          rw [hl2] at h
          simp only at h
          rw [ends_reLabelTail_none _ _ _ hl2] at hm
          rw [search, hm]
          exact search_label_tail [x] xs r c cs (by simp) h hd
        | some r2 =>
          rw [hl2] at h
          simp only [List.head?_cons, Option.some.injEq] at h
          subst h
          obtain ⟨e, he, hcaps⟩ := ends_reLabelTail_some [x] xs r2 c cs hl2 hd
          rw [he] at hm
          refine ⟨_, search_cons_of_matchAt hm, ?_⟩
          simp [Found.cap, hcaps]
      · rw [if_neg hx] at hm
        rw [lineTails, if_neg hx] at h
        rw [search, hm]
        exact search_label_tail [x] xs r c cs (by simp) h hd

theorem dropWhile_idem (p : Nat → Bool) (l : List Nat) :
    (l.dropWhile p).dropWhile p = l.dropWhile p := by
  induction l with
  | nil => rfl
  | cons c cs ih =>
    by_cases hc : p c = true
    · simp [List.dropWhile_cons, hc, ih]
    · simp [List.dropWhile_cons, hc]

theorem trim_dropWhile (s : JSString) : trim (s.dropWhile isSpace) = trim s := by
  unfold trim
  rw [dropWhile_idem]

theorem trim_ne_nil (s : JSString) (h : ∃ c ∈ s, isSpace c = false) : trim s ≠ [] := by
  intro h0
  have h1 := nonSpaceCount_trim s
  rw [h0] at h1
  obtain ⟨c, hc, hs⟩ := h
  have : c ∈ s.filter (fun c => !isSpace c) := List.mem_filter.mpr ⟨hc, by simp [hs]⟩
  unfold nonSpaceCount at h1
  simp only [List.filter_nil, List.length_nil] at h1
  have h2 := List.length_pos_of_mem this
  omega

/-- Skipping the white space after the colon stays on the line when the line has a
non-blank code unit. -/
theorem takeWhile_dropWhile_line (rest : List Nat)
    (h : ∃ c ∈ rest.takeWhile notNewline, isSpace c = false) :
    (rest.dropWhile isSpace).takeWhile notNewline =
      (rest.takeWhile notNewline).dropWhile isSpace := by
  induction rest with
  | nil => rfl
  | cons x xs ih =>
    by_cases hs : isSpace x = true
    · by_cases hn : notNewline x = true
      · rw [List.dropWhile_cons, if_pos hs, List.takeWhile_cons, if_pos hn, List.dropWhile_cons,
          if_pos hs]
        apply ih
        obtain ⟨c, hc, hcs⟩ := h
        rw [List.takeWhile_cons, if_pos hn] at hc
        rcases List.mem_cons.mp hc with hc | hc
        · rw [hc, hs] at hcs; exact absurd hcs (by simp)
        · exact ⟨c, hc, hcs⟩
      · obtain ⟨c, hc, _⟩ := h
        rw [List.takeWhile_cons, if_neg hn] at hc
        simp at hc
    · have hn := notNewline_of_not_space (by simpa using hs)
      rw [List.dropWhile_cons, if_neg hs, List.takeWhile_cons, if_pos hn, List.dropWhile_cons,
        if_neg hs]

theorem nameFromFirstLine_cons (c : Nat) (cs : JSString) (ls : List JSString) :
    nameFromFirstLine (c :: cs) ls = c :: cs := by
  unfold nameFromFirstLine
  cases ls <;> rfl

/-- A name found by strategy 1 is the final name. -/
theorem extractName_of_label (text name : JSString) (h : nameFromLabels namePatterns1 text = name)
    (hne : name ≠ []) : extractName text = name := by
  unfold extractName
  rw [h]
  cases name with
  | nil => exact absurd rfl hne
  | cons c cs =>
    rw [nameFromFirstLine_cons]
    rfl

/-- C4 as stated fails. In `"Name: Jane\rDoe"` the label line, as `split(/\r?\n/)` gives
it, has the remainder `" Jane\rDoe"`, yet the name is `"Jane"`: the capture stops at a
carriage return. In `"Name\n: Jane\nName: Bob"` the first line that holds the label and a
colon is the third, yet the name is `"Jane"`: the white space between the label and the
colon may run over a line break. -/
theorem name_label_line_fails :
    (firstLabelLine (js "Name: Jane\rDoe") = some (js " Jane\rDoe") ∧
      (∃ c ∈ js " Jane\rDoe", isSpace c = false) ∧
      (extractResumeData (js "Name: Jane\rDoe")).name = js "Jane" ∧
      js "Jane" ≠ trim (js " Jane\rDoe")) ∧
    (firstLabelLine (js "Name\n: Jane\nName: Bob") = some (js " Bob") ∧
      (∃ c ∈ js " Bob", isSpace c = false) ∧
      (extractResumeData (js "Name\n: Jane\nName: Bob")).name = js "Jane" ∧
      js "Jane" ≠ trim (js " Bob")) := by
  decide

/-- C4 amended. Name strategy 1 short-circuits: take the first place, at the start of the
text or right after a line feed, where optional white space, the label `name` in any
letter case, optional white space and a colon follow one another (white space may hold
line breaks); when the text from that colon up to the next line feed or carriage return
holds a non-whitespace character, the extracted name is that text, trimmed, whatever the
other lines contain; in particular `"Name: Jane Doe"` yields `"Jane Doe"`. -/
theorem name_label_first (text rest : JSString)
    (hfirst : firstLabel text = some rest)
    (hrem : ∃ c ∈ rest.takeWhile notNewline, isSpace c = false) :
    (extractResumeData text).name = trim (rest.takeWhile notNewline) ∧
    (extractResumeData (js "Name: Jane Doe")).name = js "Jane Doe" := by
  refine ⟨?_, by decide⟩
  have hline := takeWhile_dropWhile_line rest hrem
  have hne : trim (rest.takeWhile notNewline) ≠ [] := trim_ne_nil _ hrem
  cases hd : rest.dropWhile isSpace with
  | nil =>
    rw [hd] at hline
    exfalso
    apply hne
    rw [← trim_dropWhile, ← hline]
    rfl
  | cons c cs =>
    obtain ⟨f, hf, hcap⟩ := search_label text rest c cs hfirst hd
    have hcn : notNewline c = true := by
      have := List.head_dropWhile_not isSpace rest (by rw [hd]; simp)
      exact notNewline_of_not_space (by simpa [hd] using this)
    have hname : nameFromLabels namePatterns1 text = trim (rest.takeWhile notNewline) := by
      show nameFromLabels (Regex.seq (Regex.alt .bol (Regex.unit '\n')) reLabelTail :: _) text = _
      rw [nameFromLabels, hf]
      simp only [hcap, List.takeWhile_cons, hcn, if_true]
      rw [← trim_dropWhile (rest.takeWhile notNewline), ← hline, hd, List.takeWhile_cons,
        if_pos hcn]
    cases text with
    | nil => simp [firstLabel, labelAt, lineTails] at hfirst
    | cons t ts => exact extractName_of_label (t :: ts) _ hname hne

/-- Witness of C4 amended: the label on the second line, after an all-capitals first
line that strategy 2 would accept. -/
theorem name_label_first_witness :
    (extractResumeData (js "DANISHALI\n  NAME :  Jane Doe \r\nSoftware Engineer")).name =
      trim ((js "  Jane Doe \r\nSoftware Engineer").takeWhile notNewline) :=
  (name_label_first (js "DANISHALI\n  NAME :  Jane Doe \r\nSoftware Engineer")
    (js "  Jane Doe \r\nSoftware Engineer") (by decide) (by decide)).1

/-! ## More lemmas on the matcher -/

/-- Converse of `mem_repEnds`: every admissible run of the class gives an end state. -/
theorem repEnds_mem (p : Nat → Bool) (caps : List (Nat × JSString)) (lo : Nat)
    (hi : Option Nat) (pre u v : List Nat) (hu : ∀ c ∈ u, p c = true) (hlo : lo ≤ u.length)
    (hhi : ∀ n, hi = some n → u.length ≤ n) :
    (⟨u.reverse ++ pre, v, caps⟩ : MState) ∈ repEnds p caps lo hi pre (u ++ v) := by
  induction u generalizing lo hi pre with
  | nil =>
    simp only [List.length_nil, Nat.le_zero_eq] at hlo
    subst hlo
    cases v with
    | nil => simp [repEnds_nil]
    | cons c cs => simp [repEnds_cons]
  | cons c u ih =>
    rw [List.cons_append, repEnds_cons]
    apply List.mem_append_left
    have hc : p c = true := hu c (List.mem_cons_self _ _)
    have hne : hi ≠ some 0 := by
      intro h0
      have := hhi 0 h0
      simp at this
    rw [if_pos ⟨hne, hc⟩]
    have := ih (lo - 1) (hi.map (· - 1)) (c :: pre) (fun x hx => hu x (List.mem_cons_of_mem _ hx))
      (by simp at hlo; omega)
      (by
        intro n hn
        cases hi with
        | none => simp at hn
        | some m =>
          simp only [Option.map_some', Option.some.injEq] at hn
          have := hhi m rfl
          simp at this
          omega)
    simpa using this

/-- The end states of a repetition come longest first: each later one has consumed a
non-empty run of the class less. -/
theorem repEnds_pairwise (p : Nat → Bool) (caps : List (Nat × JSString)) (lo : Nat)
    (hi : Option Nat) (pre rest : List Nat) :
    List.Pairwise (fun x y : MState => ∃ v, v ≠ [] ∧ y.rest = v ++ x.rest ∧ ∀ c ∈ v, p c = true)
      (repEnds p caps lo hi pre rest) := by
  induction rest generalizing lo hi pre with
  | nil =>
    rw [repEnds_nil]
    split <;> simp
  | cons c cs ih =>
    rw [repEnds_cons, List.pairwise_append]
    refine ⟨?_, ?_, ?_⟩
    · split
      · exact ih _ _ _
      · exact List.Pairwise.nil
    · split <;> simp
    · intro a ha b hb
      split at ha
      · rename_i hc
        split at hb
        · simp only [List.mem_singleton] at hb
          subst hb
          obtain ⟨u, h1, _, _, h4, _⟩ := mem_repEnds ha
          refine ⟨c :: u, by simp, by simp [h1], ?_⟩
          intro x hx
          rcases List.mem_cons.mp hx with hx | hx
          · rw [hx]; exact hc.2
          · exact h4 x hx
        · simp at hb
      · simp at ha

/-- Every end state of a pattern is reached by consuming a part of the text. -/
theorem ends_consume (r : Regex) (s e : MState) (h : e ∈ r.ends s) :
    ∃ w, s.rest = w ++ e.rest := by
  induction r generalizing s e with
  | eps =>
    rw [ends_eps] at h
    simp only [List.mem_singleton] at h
    exact ⟨[], by rw [h]; rfl⟩
  | chr p =>
    obtain ⟨pre, rest, caps⟩ := s
    cases rest with
    | nil => rw [ends_chr_nil] at h; simp at h
    | cons c cs =>
      rw [ends_chr_cons] at h
      split at h
      · simp only [List.mem_singleton] at h
        exact ⟨[c], by rw [h]; rfl⟩
      · simp at h
  | bol =>
    rw [Regex.ends] at h
    split at h
    · simp only [List.mem_singleton] at h
      exact ⟨[], by rw [h]; rfl⟩
    · simp at h
  | bolM =>
    rw [Regex.ends] at h
    split at h
    · simp only [List.mem_singleton] at h
      exact ⟨[], by rw [h]; rfl⟩
    · split at h
      · simp only [List.mem_singleton] at h
        exact ⟨[], by rw [h]; rfl⟩
      · simp at h
  | eol =>
    rw [Regex.ends] at h
    split at h
    · simp only [List.mem_singleton] at h
      exact ⟨[], by rw [h]; rfl⟩
    · simp at h
  | wordB =>
    rw [ends_wordB] at h
    split at h
    · simp only [List.mem_singleton] at h
      exact ⟨[], by rw [h]; rfl⟩
    · simp at h
  | seq a b iha ihb =>
    rw [ends_seq, List.mem_flatMap] at h
    obtain ⟨m, hm, he⟩ := h
    obtain ⟨w1, h1⟩ := iha s m hm
    obtain ⟨w2, h2⟩ := ihb m e he
    exact ⟨w1 ++ w2, by rw [h1, h2, List.append_assoc]⟩
  | alt a b iha ihb =>
    rw [ends_alt, List.mem_append] at h
    rcases h with h | h
    · exact iha s e h
    · exact ihb s e h
  | group i r ih =>
    rw [ends_group, List.mem_map] at h
    obtain ⟨m, hm, he⟩ := h
    obtain ⟨w, hw⟩ := ih s m hm
    exact ⟨w, by rw [← he]; exact hw⟩
  | rep p lo hi =>
    rw [ends_rep] at h
    obtain ⟨u, h1, _⟩ := mem_repEnds h
    exact ⟨u, h1⟩
  | opt r ih =>
    rw [ends_opt, List.mem_append] at h
    rcases h with h | h
    · exact ih s e (List.mem_filter.mp h).1
    · simp only [List.mem_singleton] at h
      exact ⟨[], by rw [h]; rfl⟩

/-- What a successful search returns: the leftmost position with a match, and the first
match there. -/
theorem search_some {r : Regex} {pre rest : List Nat} {f : Found}
    (h : search r pre rest = some f) :
    ∃ a, rest = a ++ f.rest ∧ f.pre = a.reverse ++ pre ∧
      matchAt r f.pre f.rest = some f.fin ∧
      ∀ a1 a2, a = a1 ++ a2 → a2 ≠ [] → matchAt r (a1.reverse ++ pre) (a2 ++ f.rest) = none := by
  induction rest generalizing pre with
  | nil =>
    rw [search] at h
    cases hm : matchAt r pre [] with
    | none => rw [hm] at h; simp at h
    | some e =>
      rw [hm] at h
      simp only [Option.map_some', Option.some.injEq] at h
      subst h
      refine ⟨[], rfl, rfl, hm, ?_⟩
      intro a1 a2 h12 hne
      have := congrArg List.length h12
      cases a2 with
      | nil => exact absurd rfl hne
      | cons x xs =>
        simp only [List.length_nil, List.length_append, List.length_cons] at this
        omega
  | cons c cs ih =>
    rw [search] at h
    cases hm : matchAt r pre (c :: cs) with
    | some e =>
      rw [hm] at h
      simp only [Option.some.injEq] at h
      subst h
      refine ⟨[], rfl, rfl, hm, ?_⟩
      intro a1 a2 h12 hne
      have := congrArg List.length h12
      cases a2 with
      | nil => exact absurd rfl hne
      | cons x xs =>
        simp only [List.length_nil, List.length_append, List.length_cons] at this
        omega
    | none =>
      rw [hm] at h
      simp only at h
      obtain ⟨a, h1, h2, h3, h4⟩ := ih h
      refine ⟨c :: a, by rw [h1]; rfl, by rw [h2]; simp, h3, ?_⟩
      intro a1 a2 h12 hne
      cases a1 with
      | nil =>
        simp only [List.nil_append] at h12
        subst h12
        simpa [← h1] using hm
      | cons x xs =>
        simp only [List.cons_append, List.cons.injEq] at h12
        obtain ⟨rfl, h12⟩ := h12
        have := h4 xs a2 h12 hne
        simpa using this

/-- A search fails only when no position has a match. -/
theorem search_none {r : Regex} {pre rest : List Nat} (h : search r pre rest = none) :
    ∀ a b, rest = a ++ b → matchAt r (a.reverse ++ pre) b = none := by
  induction rest generalizing pre with
  | nil =>
    intro a b hab
    rw [search] at h
    have : a = [] ∧ b = [] := by
      have hl := congrArg List.length hab
      simp only [List.length_nil, List.length_append] at hl
      exact ⟨List.length_eq_zero.mp (by omega), List.length_eq_zero.mp (by omega)⟩
    obtain ⟨rfl, rfl⟩ := this
    cases hm : matchAt r pre [] with
    | none => simpa using hm
    | some e => rw [hm] at h; simp at h
  | cons c cs ih =>
    intro a b hab
    rw [search] at h
    cases hm : matchAt r pre (c :: cs) with
    | some e => rw [hm] at h; simp at h
    | none =>
      rw [hm] at h
      simp only at h
      cases a with
      | nil =>
        simp only [List.nil_append] at hab
        subst hab
        simpa using hm
      | cons x xs =>
        simp only [List.cons_append, List.cons.injEq] at hab
        obtain ⟨rfl, hab⟩ := hab
        have := ih h xs b hab
        simpa using this

/-- The first element of the global match list is the text of the leftmost match. -/
theorem matchAll_head (r : Regex) (text : JSString) :
    (matchAll r text).head? = (search r [] text).map Found.whole := by
  unfold matchAll
  rw [matchAllAux]
  cases search r [] text with
  | none => rfl
  | some f => rfl

theorem matchAll_eq_nil (r : Regex) (text : JSString) (h : search r [] text = none) :
    matchAll r text = [] := by
  unfold matchAll
  rw [matchAllAux, h]

theorem flatMap_ite_singleton (l : List MState) (c : MState → Bool) :
    l.flatMap (fun e => if c e = true then [e] else []) = l.filter c := by
  induction l with
  | nil => rfl
  | cons x xs ih =>
    rw [List.flatMap_cons, ih, List.filter_cons]
    by_cases hx : c x = true <;> simp [hx]

/-! ## The address pattern -/

theorem mem_ends_chr {p : Nat → Bool} {s e : MState} :
    e ∈ (Regex.chr p).ends s ↔
      ∃ c cs, s.rest = c :: cs ∧ p c = true ∧ e = ⟨c :: s.pre, cs, s.caps⟩ := by
  obtain ⟨pre, rest, caps⟩ := s
  cases rest with
  | nil => simp [ends_chr_nil]
  | cons c cs =>
    rw [ends_chr_cons]
    by_cases hc : p c = true
    · rw [if_pos hc, List.mem_singleton]
      constructor
      · intro h
        exact ⟨c, cs, rfl, hc, h⟩
      · rintro ⟨c1, cs1, h1, _, h2⟩
        simp only [List.cons.injEq] at h1
        obtain ⟨rfl, rfl⟩ := h1
        exact h2
    · simp [hc]

theorem mem_ends_rep {p : Nat → Bool} {lo : Nat} {hi : Option Nat} {s e : MState} :
    e ∈ (Regex.rep p lo hi).ends s ↔
      ∃ u, s.rest = u ++ e.rest ∧ e.pre = u.reverse ++ s.pre ∧ e.caps = s.caps ∧
        (∀ c ∈ u, p c = true) ∧ lo ≤ u.length ∧ (∀ n, hi = some n → u.length ≤ n) := by
  rw [ends_rep]
  constructor
  · exact mem_repEnds
  · rintro ⟨u, h1, h2, h3, h4, h5, h6⟩
    obtain ⟨epre, erest, ecaps⟩ := e
    simp only at h1 h2 h3
    rw [h1, h2, h3]
    exact repEnds_mem p s.caps lo hi s.pre u erest h4 h5 h6

theorem reAddress_eq :
    reAddress = Regex.seq (.rep isLocalChar 1 none) (Regex.seq (.chr (· == 64))
      (Regex.seq (.rep isDomainChar 1 none) (Regex.seq (.chr (· == 46)) (.rep isAlpha 2 none)))) :=
  rfl

/-- The end states of the address pattern are the addresses that start at the cursor. -/
theorem mem_reAddress {s e : MState} :
    e ∈ reAddress.ends s ↔
      ∃ w, IsAddress w ∧ s.rest = w ++ e.rest ∧ e.pre = w.reverse ++ s.pre ∧ e.caps = s.caps := by
  rw [reAddress_eq]
  constructor
  · intro h
    rw [ends_seq, List.mem_flatMap] at h
    obtain ⟨s1, hs1, h⟩ := h
    rw [ends_seq, List.mem_flatMap] at h
    obtain ⟨s2, hs2, h⟩ := h
    rw [ends_seq, List.mem_flatMap] at h
    obtain ⟨s3, hs3, h⟩ := h
    rw [ends_seq, List.mem_flatMap] at h
    obtain ⟨s4, hs4, h⟩ := h
    obtain ⟨l, hl1, hl2, hl3, hl4, hl5, _⟩ := mem_ends_rep.mp hs1
    obtain ⟨c2, cs2, hc1, hc2, hc3⟩ := mem_ends_chr.mp hs2
    obtain ⟨d, hd1, hd2, hd3, hd4, hd5, _⟩ := mem_ends_rep.mp hs3
    obtain ⟨c4, cs4, hp1, hp2, hp3⟩ := mem_ends_chr.mp hs4
    obtain ⟨t, ht1, ht2, ht3, ht4, ht5, _⟩ := mem_ends_rep.mp h
    simp only [beq_iff_eq] at hc2 hp2
    subst hc2 hp2
    subst hc3 hp3
    simp only at hd1 hd2 hd3 ht1 ht2 ht3
    refine ⟨l ++ 64 :: (d ++ 46 :: t), ⟨l, d, t, rfl, ?_, hl4, ?_, hd4, ht5, ht4⟩, ?_, ?_, ?_⟩
    · intro h0; rw [h0] at hl5; simp at hl5
    · intro h0; rw [h0] at hd5; simp at hd5
    · rw [hl1, hc1, hd1, hp1, ht1]; simp
    · rw [ht2, hd2, hl2]; simp
    · rw [ht3, hd3, hl3]
  · rintro ⟨w, ⟨l, d, t, rfl, hl0, hl, hd0, hd, ht2, ht⟩, h1, h2, h3⟩
    obtain ⟨spre, srest, scaps⟩ := s
    obtain ⟨epre, erest, ecaps⟩ := e
    simp only at h1 h2 h3
    subst h1 h2 h3
    rw [ends_seq, List.mem_flatMap]
    refine ⟨⟨l.reverse ++ spre, 64 :: (d ++ 46 :: (t ++ erest)), ecaps⟩, ?_, ?_⟩
    · rw [mem_ends_rep]
      exact ⟨l, by simp, rfl, rfl, hl, by
        cases l with
        | nil => exact absurd rfl hl0
        | cons x xs => simp, by simp⟩
    rw [ends_seq, List.mem_flatMap]
    refine ⟨⟨64 :: (l.reverse ++ spre), d ++ 46 :: (t ++ erest), ecaps⟩, ?_, ?_⟩
    · rw [mem_ends_chr]
      exact ⟨64, _, rfl, by simp, rfl⟩
    rw [ends_seq, List.mem_flatMap]
    refine ⟨⟨d.reverse ++ 64 :: (l.reverse ++ spre), 46 :: (t ++ erest), ecaps⟩, ?_, ?_⟩
    · rw [mem_ends_rep]
      exact ⟨d, rfl, rfl, rfl, hd, by
        cases d with
        | nil => exact absurd rfl hd0
        | cons x xs => simp, by simp⟩
    rw [ends_seq, List.mem_flatMap]
    refine ⟨⟨46 :: (d.reverse ++ 64 :: (l.reverse ++ spre)), t ++ erest, ecaps⟩, ?_, ?_⟩
    · rw [mem_ends_chr]
      exact ⟨46, _, rfl, by simp, rfl⟩
    rw [mem_ends_rep]
    exact ⟨t, rfl, by simp, rfl, ht, ht2, by simp⟩

theorem pairwise_chr_flatMap (p : Nat → Bool) (s : MState) (F : MState → List MState)
    (hF : ∀ m, List.Pairwise Longer (F m)) :
    List.Pairwise Longer (((Regex.chr p).ends s).flatMap F) := by
  obtain ⟨pre, rest, caps⟩ := s
  cases rest with
  | nil => rw [ends_chr_nil]; exact List.Pairwise.nil
  | cons c cs =>
    rw [ends_chr_cons]
    split
    · simpa using hF _
    · exact List.Pairwise.nil

theorem pairwise_tld (s : MState) : List.Pairwise Longer ((Regex.rep isAlpha 2 none).ends s) := by
  rw [ends_rep]
  refine (repEnds_pairwise isAlpha s.caps 2 none s.pre s.rest).imp ?_
  rintro x y ⟨v, hv, h, _⟩
  unfold Longer
  rw [h, List.length_append]
  have := List.length_pos.mpr hv
  omega

theorem pairwise_domain (s : MState) :
    List.Pairwise Longer ((Regex.seq (.rep isDomainChar 1 none)
      (Regex.seq (.chr (· == 46)) (.rep isAlpha 2 none))).ends s) := by
  rw [ends_seq, List.pairwise_flatMap]
  constructor
  · intro a _
    rw [ends_seq]
    exact pairwise_chr_flatMap _ _ _ pairwise_tld
  · rw [ends_rep]
    refine (repEnds_pairwise isDomainChar s.caps 1 none s.pre s.rest).imp ?_
    rintro a1 a2 ⟨v, hv, h, _⟩ x hx y hy
    rw [ends_seq, List.mem_flatMap] at hx hy
    obtain ⟨m1, hm1, hx⟩ := hx
    obtain ⟨m2, hm2, hy⟩ := hy
    obtain ⟨c1, cs1, hc1, hp1, he1⟩ := mem_ends_chr.mp hm1
    obtain ⟨c2, cs2, hc2, hp2, he2⟩ := mem_ends_chr.mp hm2
    obtain ⟨t1, ht1, _⟩ := mem_ends_rep.mp hx
    obtain ⟨t2, ht2, _, _, hal2, _⟩ := mem_ends_rep.mp hy
    simp only [beq_iff_eq] at hp1 hp2
    subst hp1 hp2 he1 he2
    simp only at ht1 ht2
    unfold Longer
    rw [hc1, hc2] at h
    rw [ht1, ht2] at h
    cases v with
    | nil => exact absurd rfl hv
    | cons v0 v' =>
      simp only [List.cons_append, List.cons.injEq] at h
      obtain ⟨_, h⟩ := h
      rcases List.append_eq_append_iff.mp h with ⟨a', h3, h4⟩ | ⟨c', h3, h4⟩
      · -- v' = t2 ++ a'
        rw [h4]
        simp only [List.length_append, List.length_cons]
        omega
      · -- t2 = v' ++ c'
        cases c' with
        | nil =>
          simp only [List.nil_append] at h4
          rw [← h4]
          simp only [List.length_append, List.length_cons]
          omega
        | cons k c'' =>
          simp only [List.cons_append, List.cons.injEq] at h4
          have hk : isAlpha k = true := hal2 k (by rw [h3]; simp)
          rw [← h4.1] at hk
          exact absurd hk (by decide)

theorem pairwise_reAddress (s : MState) : List.Pairwise Longer (reAddress.ends s) := by
  rw [reAddress_eq, ends_seq, List.pairwise_flatMap]
  constructor
  · intro a _
    rw [ends_seq]
    exact pairwise_chr_flatMap _ _ _ pairwise_domain
  · rw [ends_rep]
    refine (repEnds_pairwise isLocalChar s.caps 1 none s.pre s.rest).imp ?_
    rintro a1 a2 ⟨v, hv, h, hl⟩ x hx y hy
    exfalso
    rw [ends_seq, List.mem_flatMap] at hy
    obtain ⟨m2, hm2, _⟩ := hy
    obtain ⟨c2, cs2, hc2, hp2, _⟩ := mem_ends_chr.mp hm2
    simp only [beq_iff_eq] at hp2
    subst hp2
    cases v with
    | nil => exact absurd rfl hv
    | cons v0 v' =>
      rw [hc2] at h
      simp only [List.cons_append, List.cons.injEq] at h
      have := hl v0 (List.mem_cons_self _ _)
      rw [← h.1] at this
      exact absurd this (by decide)

/-! ## The bare e-mail pattern -/

theorem emailPatterns_head :
    emailPatterns.head? =
      some (Regex.seq .wordB (Regex.seq (.group 1 reAddress) .wordB)) := rfl

theorem mem_ends_wordB {s e : MState} :
    e ∈ Regex.wordB.ends s ↔ e = s ∧ Boundary s.pre s.rest := by
  rw [ends_wordB]
  unfold Boundary
  by_cases h : isWordAt s.pre = isWordAt s.rest
  · simp [h]
  · simp [h]

theorem pairwise_wordB (s : MState) : List.Pairwise Longer (Regex.wordB.ends s) := by
  rw [ends_wordB]
  split <;> simp

/-- The end states of the bare e-mail pattern started at a position: the addresses that
start there between word boundaries. -/
theorem mem_bareEmail {pre rest : List Nat} {e : MState} :
    e ∈ (Regex.seq .wordB (Regex.seq (.group 1 reAddress) .wordB)).ends ⟨pre, rest, []⟩ ↔
      ∃ w, IsAddress w ∧ rest = w ++ e.rest ∧ e.pre = w.reverse ++ pre ∧ e.caps = [(1, w)] ∧
        Boundary pre rest ∧ Boundary e.pre e.rest := by
  rw [ends_seq, List.mem_flatMap]
  constructor
  · rintro ⟨s1, hs1, h⟩
    obtain ⟨rfl, hb1⟩ := mem_ends_wordB.mp hs1
    rw [ends_seq, List.mem_flatMap] at h
    obtain ⟨s2, hs2, h⟩ := h
    obtain ⟨rfl, hb2⟩ := mem_ends_wordB.mp h
    rw [ends_group, List.mem_map] at hs2
    obtain ⟨m, hm, rfl⟩ := hs2
    obtain ⟨w, hw, h1, h2, h3⟩ := mem_reAddress.mp hm
    simp only at h1 h2 h3 hb1 hb2 ⊢
    refine ⟨w, hw, h1, h2, ?_, hb1, hb2⟩
    rw [h3, h1]
    simp
  · rintro ⟨w, hw, h1, h2, h3, hb1, hb2⟩
    refine ⟨⟨pre, rest, []⟩, mem_ends_wordB.mpr ⟨rfl, hb1⟩, ?_⟩
    rw [ends_seq, List.mem_flatMap]
    refine ⟨e, ?_, mem_ends_wordB.mpr ⟨rfl, hb2⟩⟩
    rw [ends_group, List.mem_map]
    refine ⟨⟨e.pre, e.rest, []⟩, mem_reAddress.mpr ⟨w, hw, h1, h2, rfl⟩, ?_⟩
    obtain ⟨epre, erest, ecaps⟩ := e
    simp only at h1 h3 ⊢
    rw [h3, h1]
    simp

theorem pairwise_group (i : Nat) (r : Regex) (s : MState)
    (h : List.Pairwise Longer (r.ends s)) : List.Pairwise Longer ((Regex.group i r).ends s) := by
  rw [ends_group, List.pairwise_map]
  exact h.imp fun hab => hab

theorem pairwise_bareEmail (s : MState) :
    List.Pairwise Longer ((Regex.seq .wordB (Regex.seq (.group 1 reAddress) .wordB)).ends s) := by
  rw [ends_seq, List.pairwise_flatMap]
  constructor
  · intro a _
    rw [ends_seq, List.pairwise_flatMap]
    constructor
    · intro b _
      exact pairwise_wordB b
    · refine (pairwise_group 1 reAddress a (pairwise_reAddress a)).imp ?_
      intro a1 a2 h12 x hx y hy
      rw [(mem_ends_wordB.mp hx).1, (mem_ends_wordB.mp hy).1]
      exact h12
  · rw [ends_wordB]
    split <;> simp

/-- The head of a list ordered by `Longer` has consumed at least as much as any
element. -/
theorem head_longest {l : List MState} {x : MState} (hp : List.Pairwise Longer l)
    (hx : l.head? = some x) : ∀ y ∈ l, x.rest.length ≤ y.rest.length := by
  cases l with
  | nil => simp at hx
  | cons a tl =>
    simp only [List.head?_cons, Option.some.injEq] at hx
    subst hx
    intro y hy
    rcases List.mem_cons.mp hy with hy | hy
    · rw [hy]
    · exact Nat.le_of_lt ((List.pairwise_cons.mp hp).1 y hy)

theorem take_append_length_sub (w r : List Nat) :
    (w ++ r).take ((w ++ r).length - r.length) = w := by
  rw [List.length_append, Nat.add_sub_cancel]
  exact List.take_left' rfl

/-- Matching the address pattern against an address alone returns the whole of it. -/
theorem jsMatch_inner_address (w : JSString) (hw : IsAddress w) :
    ∃ f, jsMatch reAddressInner w = some f ∧ f.cap 1 = some w := by
  have hmem : (⟨w.reverse ++ [], [], []⟩ : MState) ∈ reAddress.ends ⟨[], w, []⟩ :=
    mem_reAddress.mpr ⟨w, hw, by simp, rfl, rfl⟩
  cases hh : (reAddress.ends ⟨[], w, []⟩).head? with
  | none =>
    rw [List.head?_eq_none_iff] at hh
    rw [hh] at hmem
    simp at hmem
  | some x =>
    have hx := head_longest (pairwise_reAddress _) hh _ hmem
    simp only [List.length_nil, Nat.le_zero_eq] at hx
    have hxr : x.rest = [] := List.length_eq_zero.mp hx
    obtain ⟨w', _, h1, h2, h3⟩ := mem_reAddress.mp (List.mem_of_mem_head? hh)
    simp only [hxr, List.append_nil] at h1 h3
    have hm : matchAt reAddressInner [] w =
        some { x with caps := (1, w.take (w.length - x.rest.length)) :: x.caps } := by
      unfold matchAt reAddressInner
      rw [ends_group, List.head?_map, hh]
      rfl
    obtain ⟨l, d, t, hwe, hl0, _⟩ := hw
    cases hwc : w with
    | nil =>
      rw [hwc] at hwe
      cases l <;> simp at hwe
    | cons c cs =>
      rw [hwc] at hm
      refine ⟨_, search_cons_of_matchAt hm, ?_⟩
      simp [Found.cap, hxr]

theorem toLowerCase_cons (c : Nat) (cs : JSString) :
    toLowerCase (c :: cs) = (if isUpper c then c + 32 else c) :: toLowerCase cs := rfl

theorem emailFromMatches_address (w : JSString) (ms : List JSString) (hw : IsAddress w) :
    emailFromMatches (w :: ms) = toLowerCase w := by
  obtain ⟨f, hf, hcap⟩ := jsMatch_inner_address w hw
  rw [emailFromMatches, hf]
  simp only [hcap]
  obtain ⟨l, d, t, hwe, hl0, _⟩ := hw
  cases hwc : w with
  | nil =>
    rw [hwc] at hwe
    cases l <;> simp at hwe
  | cons c cs => rfl

theorem isAddress_ne_nil {w : JSString} (hw : IsAddress w) : w ≠ [] := by
  obtain ⟨l, d, t, hwe, hl0, _⟩ := hw
  intro h0
  rw [h0] at hwe
  cases l <;> simp at hwe

theorem isAddress_mem_at {w : JSString} (hw : IsAddress w) : 64 ∈ w := by
  obtain ⟨l, d, t, hwe, _⟩ := hw
  rw [hwe]
  simp

/-! ## E-mail extraction -/

/-- An occurrence of an address between word boundaries is a match of the bare pattern
at its position. -/
theorem bareEmail_of_addressAt {a w b : List Nat} (hw : IsAddress w)
    (hb1 : Boundary a.reverse (w ++ b)) (hb2 : Boundary (w.reverse ++ a.reverse) b) :
    (⟨w.reverse ++ a.reverse, b, [(1, w)]⟩ : MState) ∈
      (Regex.seq .wordB (Regex.seq (.group 1 reAddress) .wordB)).ends ⟨a.reverse, w ++ b, []⟩ :=
  mem_bareEmail.mpr ⟨w, hw, rfl, rfl, rfl, hb1, hb2⟩

theorem matchAt_eq_none_iff {r : Regex} {pre rest : List Nat} :
    matchAt r pre rest = none ↔ r.ends ⟨pre, rest, []⟩ = [] := by
  unfold matchAt
  exact List.head?_eq_none_iff

/-- What the e-mail section returns when the text holds an address between word
boundaries: the lower-cased longest address at the leftmost position. -/
theorem extractEmail_leftmost (text : JSString) (h : ∃ i w, AddressAt text i w) :
    ∃ i w, AddressAt text i w ∧
      (∀ j v, AddressAt text j v → i ≤ j ∧ (j = i → v.length ≤ w.length)) ∧
      extractEmail text = toLowerCase w := by
  cases hs : search (Regex.seq .wordB (Regex.seq (.group 1 reAddress) .wordB)) [] text with
  | none =>
    exfalso
    obtain ⟨i, w, a, b, htext, _, hw, hb1, hb2⟩ := h
    have hn := search_none hs a (w ++ b) htext
    rw [List.append_nil, matchAt_eq_none_iff] at hn
    have := bareEmail_of_addressAt hw hb1 hb2
    rw [hn] at this
    simp at this
  | some f =>
    obtain ⟨a0, h1, h2, h3, h4⟩ := search_some hs
    rw [List.append_nil] at h2
    have hmem : f.fin ∈ (Regex.seq .wordB (Regex.seq (.group 1 reAddress) .wordB)).ends
        ⟨f.pre, f.rest, []⟩ := List.mem_of_mem_head? h3
    obtain ⟨w0, hw0, hr, hp, hc, hb1, hb2⟩ := mem_bareEmail.mp hmem
    refine ⟨a0.length, w0, ?_, ?_, ?_⟩
    · refine ⟨a0, f.fin.rest, by rw [h1, hr], rfl, hw0, ?_, ?_⟩
      · rw [← h2, ← hr]; exact hb1
      · rw [← h2, ← hp]; exact hb2
    · rintro j v ⟨a, b, htext, hj, hv, hvb1, hvb2⟩
      have hvm := bareEmail_of_addressAt hv hvb1 hvb2
      have heq : a0 ++ f.rest = a ++ (v ++ b) := by rw [← h1, htext]
      constructor
      · by_contra hlt
        rcases List.append_eq_append_iff.mp heq with ⟨a', ha, hf⟩ | ⟨c', ha, hf⟩
        · have := congrArg List.length ha
          simp only [List.length_append] at this
          omega
        · cases c' with
          | nil =>
            rw [List.append_nil] at ha
            rw [ha] at hlt
            omega
          | cons x xs =>
            have hn := h4 a (x :: xs) ha (by simp)
            rw [List.append_nil, matchAt_eq_none_iff, ← hf] at hn
            rw [hn] at hvm
            simp at hvm
      · intro hji
        have hal : a.length = a0.length := by rw [hj, hji]
        have ha : a0 = a := (List.append_inj heq hal.symm).1
        have hf : f.rest = v ++ b := (List.append_inj heq hal.symm).2
        subst ha
        rw [← hf, ← h2] at hvm
        have hle := head_longest (pairwise_bareEmail _) h3 _ hvm
        simp only at hle
        have l1 := congrArg List.length hr
        have l2 := congrArg List.length hf
        simp only [List.length_append] at l1 l2
        omega
    · have hwhole : f.whole = w0 := by
        unfold Found.whole
        rw [hr]
        exact take_append_length_sub w0 f.fin.rest
      have hhead := matchAll_head (Regex.seq .wordB (Regex.seq (.group 1 reAddress) .wordB)) text
      rw [hs] at hhead
      simp only [Option.map_some', hwhole] at hhead
      cases hall : matchAll (Regex.seq .wordB (Regex.seq (.group 1 reAddress) .wordB)) text with
      | nil => rw [hall] at hhead; simp at hhead
      | cons m ms =>
        rw [hall] at hhead
        simp only [List.head?_cons, Option.some.injEq] at hhead
        subst hhead
        show emailFromPatterns
          (Regex.seq .wordB (Regex.seq (.group 1 reAddress) .wordB) :: _) text = _
        rw [emailFromPatterns, hall, emailFromMatches_address m ms hw0]
        cases hm : m with
        | nil => exact absurd hm (isAddress_ne_nil hw0)
        | cons c cs => rfl

theorem needsAt_reAddress : NeedsAt reAddress := by
  intro s hs
  rw [List.eq_nil_iff_forall_not_mem]
  intro e he
  obtain ⟨w, hw, h1, _⟩ := mem_reAddress.mp he
  apply hs
  rw [h1]
  exact List.mem_append_left _ (isAddress_mem_at hw)

theorem needsAt_group (i : Nat) (r : Regex) (h : NeedsAt r) : NeedsAt (.group i r) := by
  intro s hs
  rw [ends_group, h s hs]
  rfl

theorem needsAt_seq_left (a b : Regex) (h : NeedsAt a) : NeedsAt (.seq a b) := by
  intro s hs
  rw [ends_seq, h s hs]
  rfl

theorem needsAt_seq_right (a b : Regex) (h : NeedsAt b) : NeedsAt (.seq a b) := by
  intro s hs
  rw [ends_seq, List.flatMap_eq_nil_iff]
  intro m hm
  apply h
  obtain ⟨w, hw⟩ := ends_consume a s m hm
  intro h64
  apply hs
  rw [hw]
  exact List.mem_append_right _ h64

theorem search_none_of_needsAt (r : Regex) (h : NeedsAt r) (pre rest : List Nat)
    (hrest : 64 ∉ rest) : search r pre rest = none := by
  induction rest generalizing pre with
  | nil =>
    rw [search, matchAt_eq_none_iff.mpr (h _ hrest)]
    rfl
  | cons c cs ih =>
    rw [search, matchAt_eq_none_iff.mpr (h _ hrest)]
    exact ih _ (fun hc => hrest (List.mem_cons_of_mem _ hc))

theorem needsAt_emailPatterns : ∀ p ∈ emailPatterns, NeedsAt p := by
  have hg := needsAt_group 1 reAddress needsAt_reAddress
  intro p hp
  simp only [emailPatterns, List.mem_cons, List.mem_singleton, List.not_mem_nil, or_false] at hp
  rcases hp with rfl | rfl | rfl | rfl
  · exact needsAt_seq_right _ _ (needsAt_seq_left _ _ hg)
  · exact needsAt_seq_right _ _ (needsAt_seq_right _ _ (needsAt_seq_right _ _
      (needsAt_seq_right _ _ hg)))
  · exact needsAt_seq_right _ _ (needsAt_seq_right _ _ (needsAt_seq_right _ _
      (needsAt_seq_right _ _ hg)))
  · exact needsAt_seq_right _ _ (needsAt_seq_right _ _ (needsAt_seq_right _ _
      (needsAt_seq_right _ _ hg)))

theorem emailFromPatterns_no_at (ps : List Regex) (text : JSString)
    (hps : ∀ p ∈ ps, NeedsAt p) (h : 64 ∉ text) : emailFromPatterns ps text = [] := by
  induction ps with
  | nil => rfl
  | cons p ps ih =>
    rw [emailFromPatterns,
      matchAll_eq_nil p text (search_none_of_needsAt p (hps p (List.mem_cons_self _ _)) [] text h)]
    exact ih fun q hq => hps q (List.mem_cons_of_mem _ hq)

/-- C7. Email extraction: for every text that holds an address of the form
`local@domain.tld` between word boundaries, the extracted email is the lower-cased form
of the leftmost such address (the longest one at the leftmost position); a text holding
`John.Doe@Example.COM` yields `john.doe@example.com`; for a text without an at sign the
email is empty. -/
theorem email_leftmost_address (text : JSString) :
    ((∃ i w, AddressAt text i w) →
      ∃ i w, AddressAt text i w ∧
        (∀ j v, AddressAt text j v → i ≤ j ∧ (j = i → v.length ≤ w.length)) ∧
        (extractResumeData text).email = toLowerCase w) ∧
    (64 ∉ text → (extractResumeData text).email = []) ∧
    (extractResumeData (js "Write to John.Doe@Example.COM today")).email =
      js "john.doe@example.com" := by
  refine ⟨?_, ?_, by decide⟩
  · intro h
    obtain ⟨i, w, h1, h2, h3⟩ := extractEmail_leftmost text h
    refine ⟨i, w, h1, h2, ?_⟩
    cases text with
    | nil =>
      obtain ⟨a, b, htext, _, hw, _⟩ := h1
      have := congrArg List.length htext
      have hne := List.length_pos.mpr (isAddress_ne_nil hw)
      simp only [List.length_nil, List.length_append] at this
      omega
    | cons t ts => exact h3
  · intro h
    cases text with
    | nil => rfl
    | cons t ts => exact emailFromPatterns_no_at emailPatterns (t :: ts) needsAt_emailPatterns h

/-- Witness of C7: a text with one address, and a text without an at sign. -/
theorem email_leftmost_address_witness :
    (∃ i w, AddressAt (js "Write to John.Doe@Example.COM today") i w ∧
      (∀ j v, AddressAt (js "Write to John.Doe@Example.COM today") j v →
        i ≤ j ∧ (j = i → v.length ≤ w.length)) ∧
      (extractResumeData (js "Write to John.Doe@Example.COM today")).email = toLowerCase w) ∧
    (extractResumeData (js "no address here")).email = [] :=
  ⟨(email_leftmost_address (js "Write to John.Doe@Example.COM today")).1
      ⟨9, js "John.Doe@Example.COM", js "Write to ", js " today", by decide, by decide,
        ⟨js "John.Doe", js "Example", js "COM", by decide, by decide, by decide, by decide,
          by decide, by decide, by decide⟩,
        by unfold Boundary; decide, by unfold Boundary; decide⟩,
   (email_leftmost_address (js "no address here")).2.1 (by decide)⟩

/-! ## Enumeration cap and dedup marking -/

theorem capMessages_eq_take (all : List Message) : capMessages all = all.take 300 := by
  unfold capMessages
  split
  · rfl
  · rw [List.take_of_length_le (by omega)]

theorem capMessages_length_le (all : List Message) : (capMessages all).length ≤ 300 := by
  rw [capMessages_eq_take, List.length_take]
  omega

theorem capMessages_of_le (all : List Message) (h : all.length ≤ 300) : capMessages all = all := by
  rw [capMessages_eq_take, List.take_of_length_le h]

theorem arrivals_succ (n : Nat) :
    arrivals (n + 1) =
      arrivals n ++ [⟨n + 1, some (.valid ⟨2026, 10, 6, n / 60, n % 60, 0⟩), none⟩] := by
  unfold arrivals
  rw [List.range_succ, List.map_append]
  rfl

theorem arrivals_length (n : Nat) : (arrivals n).length = n := by
  unfold arrivals
  simp

/-- C11, the code on 301 messages listed oldest first, as an IMAP search lists them:
`slice(0, 300)` keeps messages 1 to 300 and drops message 301, the most recent one. -/
theorem cap_keeps_oldest :
    arrivals 301 = arrivals 300 ++ [⟨301, some (.valid ⟨2026, 10, 6, 5, 0, 0⟩), none⟩] ∧
    capMessages (arrivals 301) = arrivals 300 ∧
    (⟨1, some (.valid ⟨2026, 10, 6, 0, 0, 0⟩), none⟩ : Message) ∈ capMessages (arrivals 301) ∧
    (⟨301, some (.valid ⟨2026, 10, 6, 5, 0, 0⟩), none⟩ : Message) ∉ capMessages (arrivals 301) := by
  have h1 : arrivals 301 =
      arrivals 300 ++ [⟨301, some (.valid ⟨2026, 10, 6, 5, 0, 0⟩), none⟩] := arrivals_succ 300
  have h2 : capMessages (arrivals 301) = arrivals 300 := by
    rw [capMessages_eq_take, h1]
    exact List.take_left' (arrivals_length 300)
  refine ⟨h1, h2, ?_, ?_⟩
  · rw [h2]
    unfold arrivals
    rw [List.mem_map]
    exact ⟨0, by simp, rfl⟩
  · rw [h2]
    unfold arrivals
    rw [List.mem_map]
    rintro ⟨i, hi, heq⟩
    rw [List.mem_range] at hi
    have := congrArg Message.uid heq
    simp only at this
    omega

theorem markProcessed_mem (uid : Nat) (w : World) : uid ∈ (markProcessed uid w).processedEmails := by
  unfold markProcessed
  simp only
  split
  · assumption
  · exact List.mem_cons_self _ _

theorem markProcessed_mono (uid x : Nat) (w : World) (h : x ∈ w.processedEmails) :
    x ∈ (markProcessed uid w).processedEmails := by
  unfold markProcessed
  simp only
  split
  · exact h
  · exact List.mem_cons_of_mem _ h

theorem emit_processedEmails (c : Bool) (m : JSString) (e : MailRecord) (w : World) :
    (emit c m e w).processedEmails = w.processedEmails := by
  unfold emit; split <;> rfl

/-- Every run of `processEmailContent` ends with the identifier in `processedEmails`. -/
theorem processEmailContent_marks (dir : JSString) (d : Delivery) (uid : Nat) (w : World) :
    uid ∈ (processEmailContent dir d uid w).processedEmails := by
  unfold processEmailContent
  cases d.parsed with
  | none => exact markProcessed_mem uid w
  | some parsed =>
    simp only
    split
    · exact markProcessed_mem uid _
    · split
      · split
        · split
          · exact markProcessed_mem uid _
          · exact markProcessed_mem uid _
        · exact markProcessed_mem uid _
      · split
        · exact markProcessed_mem uid _
        · rw [emit_processedEmails]
          exact markProcessed_mem uid _

/-- A message that is not skipped ends in `processedEmails` unless the conversion of its
body to a `Buffer` throws. -/
theorem processMessage_marks (dir : JSString) (msg : Message) (f : Fetched) (w : World)
    (hconv : ∀ body, fetchBody f = some body → body.convertible = true) :
    msg.uid ∈ (processMessage dir msg f w).processedEmails := by
  unfold processMessage
  split
  · assumption
  · cases hb : fetchBody f with
    | none => exact markProcessed_mem _ w
    | some body =>
      simp only [hconv body hb, if_true]
      exact processEmailContent_marks dir f.delivery msg.uid w

/-- C12, the code on a message whose body is a value `Buffer.from` rejects: the `catch`
of the loop body only logs, the identifier is not added to `processedEmails`, and the
message is processed again on the next pass. A message with a string body is marked. -/
theorem conversion_failure_not_marked :
    fetchBody oddBodyFetched = some (.other false) ∧
    (7 : Nat) ∉ emptyWorld.processedEmails ∧
    (7 : Nat) ∉ (processMessage (js "up") ⟨7, none, none⟩ oddBodyFetched emptyWorld).processedEmails ∧
    processMessage (js "up") ⟨7, none, none⟩ oddBodyFetched emptyWorld = emptyWorld ∧
    (7 : Nat) ∈ (processMessage (js "up") ⟨7, none, none⟩ plainFetched emptyWorld).processedEmails := by
  decide

/-! ## Backfill guard, resolved text, write check, empty attachment -/

theorem markProcessed_emitted (uid : Nat) (w : World) :
    (markProcessed uid w).emitted = w.emitted := rfl

theorem markProcessed_files (uid : Nat) (w : World) :
    (markProcessed uid w).files = w.files := rfl

theorem emit_files (c : Bool) (m : JSString) (e : MailRecord) (w : World) :
    (emit c m e w).files = w.files := by
  unfold emit; split <;> rfl

theorem shouldBackfill_named (loop : LoopResult) (existing : MailRecord) (ad : AttachmentData)
    (hdata : existing.attachmentData = some ad) (hname : ad.name ≠ []) :
    shouldBackfill loop existing = false := by
  unfold shouldBackfill
  rw [hdata]
  simp [hname]

set_option maxRecDepth 100000 in
/-- C13 as stated fails: the stored document for message 7 has attachment data, with an
empty name; a later run that produces attachment data overwrites it and emits a
notification. -/
theorem backfill_repeats_when_nameless :
    findOne [namelessRecord] (emailIdOf 7) = some namelessRecord ∧
    namelessRecord.attachmentData.isSome = true ∧
    (attachmentLoop (js "up") 0 [goodPdf]).attachmentData = some goodPdfData ∧
    (processEmailContent (js "up") pdfDelivery 7 { emptyWorld with storage := [namelessRecord] }).storage
      = [{ namelessRecord with attachmentData := some goodPdfData }] ∧
    (processEmailContent (js "up") pdfDelivery 7 { emptyWorld with storage := [namelessRecord] }).storage
      ≠ [namelessRecord] ∧
    (processEmailContent (js "up") pdfDelivery 7
      { emptyWorld with storage := [namelessRecord] }).emitted.length = 1 := by
  decide

/-- C13 amended. One-time backfill: if the stored record for a correlation key already
has attachment data with a non-empty extracted name, a later run for that key, whatever
it produces, leaves the storage untouched and emits no notification. Attachment data
whose name is empty counts as absent and is written again. -/
theorem backfill_only_when_nameless (dir : JSString) (d : Delivery) (uid : Nat) (w : World)
    (existing : MailRecord) (ad : AttachmentData)
    (hfind : findOne w.storage (emailIdOf uid) = some existing)
    (hdata : existing.attachmentData = some ad) (hname : ad.name ≠ []) :
    (processEmailContent dir d uid w).storage = w.storage ∧
    (processEmailContent dir d uid w).emitted = w.emitted := by
  unfold processEmailContent
  cases d.parsed with
  | none => exact ⟨rfl, rfl⟩
  | some parsed =>
    simp only
    split
    · exact ⟨rfl, rfl⟩
    · simp only [hfind, shouldBackfill_named _ existing ad hdata hname, Bool.false_eq_true,
        if_false]
      exact ⟨rfl, rfl⟩

set_option maxRecDepth 100000 in
/-- Witness of C13 amended: message 7 is stored with named attachment data and delivered
again with a PDF. -/
theorem backfill_only_when_nameless_witness :
    (processEmailContent (js "up") pdfDelivery 7 { emptyWorld with storage := [namedRecord] }).storage
      = [namedRecord] ∧
    (processEmailContent (js "up") pdfDelivery 7
      { emptyWorld with storage := [namedRecord] }).emitted = [] :=
  backfill_only_when_nameless (js "up") pdfDelivery 7 { emptyWorld with storage := [namedRecord] }
    namedRecord goodPdfData (by decide) rfl (by decide)

theorem trim_nil : trim [] = [] := rfl

theorem trim_eq_nil_of_nil {s : JSString} (h : s = []) : trim s = [] := by
  rw [h]; rfl

/-- The text of `resolveText` is the text the specification describes. -/
theorem resolveText_text (pdfParse ocr : Option (Option JSString)) :
    (resolveText pdfParse ocr).text = specResolvedText pdfParse ocr := by
  have hinv : (resolveText pdfParse ocr).ocrInvoked = needsOcr (textLayer pdfParse) := rfl
  have hlen : ∀ s : JSString, (s = [] ∨ (trim s).length = 0) ↔ trim s = [] := by
    intro s
    constructor
    · rintro (h | h)
      · exact trim_eq_nil_of_nil h
      · exact List.length_eq_zero.mp h
    · intro h
      exact Or.inr (by rw [h]; rfl)
  have hlen2 : ∀ s : JSString, (s ≠ [] ∧ (trim s).length > 0) ↔ trim s ≠ [] := by
    intro s
    constructor
    · rintro ⟨_, h⟩ h0
      rw [h0] at h
      simp at h
    · intro h
      refine ⟨fun h0 => h (trim_eq_nil_of_nil h0), List.length_pos.mpr h⟩
  unfold specResolvedText
  rw [hinv]
  unfold resolveText
  simp only
  rcases ocr with _ | _ | ocrText
  · by_cases hn : needsOcr (textLayer pdfParse) = true
    · simp only [hn, if_true, hlen]
      by_cases ht : trim (textLayer pdfParse) = [] <;> simp [ht]
    · simp only [hn, if_false, hlen, Bool.false_eq_true]
      by_cases ht : trim (textLayer pdfParse) = [] <;> simp [ht]
  · by_cases hn : needsOcr (textLayer pdfParse) = true
    · simp only [hn, if_true, hlen]
      by_cases ht : trim (textLayer pdfParse) = [] <;> simp [ht]
    · simp only [hn, if_false, hlen, Bool.false_eq_true]
      by_cases ht : trim (textLayer pdfParse) = [] <;> simp [ht]
  · by_cases hn : needsOcr (textLayer pdfParse) = true
    · simp only [hn, if_true, hlen, hlen2, true_and]
      by_cases ho : trim ocrText = []
      · simp only [ho, ne_eq, not_true_eq_false, if_false]
        by_cases ht : trim (textLayer pdfParse) = [] <;> simp [ht]
      · simp only [ho, ne_eq, not_false_eq_true, if_true, if_false]
    · simp only [hn, if_false, hlen, Bool.false_eq_true, false_and]
      by_cases ht : trim (textLayer pdfParse) = [] <;> simp [ht]

/-- What `processPdf` produces once the file is written and read back. -/
theorem processPdf_after_write (dir : JSString) (a : Attachment) (b : Nat) (bs : List Nat)
    (n : Nat) (buf : List Nat)
    (hdir : a.ensureDirOk = true) (hcontent : a.content.toBuffer = some (b :: bs))
    (hwrite : a.writeOk = true) (hstat : a.statSize = some n) (hread : a.readFile = some buf) :
    processPdf dir a =
      ⟨some
        { name := (extractResumeData (resolveText a.pdfParse a.ocr).text).name
          email := (extractResumeData (resolveText a.pdfParse a.ocr).text).email
          contactNumber := (extractResumeData (resolveText a.pdfParse a.ocr).text).contactNumber
          dateOfBirth := (extractResumeData (resolveText a.pdfParse a.ocr).text).dateOfBirth
          pdfPath := pathJoin dir (pdfFilename a.now a.fileName)
          pdfFilename := pdfFilename a.now a.fileName
          rawText := substring0 (resolveText a.pdfParse a.ocr).text 5000 },
        [(pathJoin dir (pdfFilename a.now a.fileName), b :: bs)]⟩ := by
  unfold processPdf
  simp [hdir, hcontent, hwrite, hstat, hread]

/-- C15. Resolved text selection: the text handed to the field extractor is the OCR text
when OCR was invoked and returned text that is non-empty after trimming; otherwise the
text-layer text when that is non-empty after trimming; otherwise the empty string. In
that last case the processing of the attachment, once its file is written and read back,
still completes: the four extracted fields are empty and the attachment data is
packaged. -/
theorem resolved_text_selection (pdfParse ocr : Option (Option JSString)) :
    (resolveText pdfParse ocr).text = specResolvedText pdfParse ocr ∧
    (∀ (dir : JSString) (a : Attachment) (b : Nat) (bs : List Nat) (n : Nat) (buf : List Nat),
      a.pdfParse = pdfParse → a.ocr = ocr → specResolvedText pdfParse ocr = [] →
      a.ensureDirOk = true → a.content.toBuffer = some (b :: bs) → a.writeOk = true →
      a.statSize = some n → a.readFile = some buf →
      (processPdf dir a).data =
        some ⟨[], [], [], [], pathJoin dir (pdfFilename a.now a.fileName),
          pdfFilename a.now a.fileName, []⟩) := by
  refine ⟨resolveText_text pdfParse ocr, ?_⟩
  intro dir a b bs n buf hp ho hnil hdir hcontent hwrite hstat hread
  rw [processPdf_after_write dir a b bs n buf hdir hcontent hwrite hstat hread, hp, ho,
    resolveText_text, hnil]
  rfl

set_option maxRecDepth 100000 in
/-- Witness of C15: a scanned PDF, with a blank text layer, on which OCR finds nothing. -/
theorem resolved_text_selection_witness :
    (processPdf (js "up") { goodPdf with pdfParse := some (some (js " \n ")), ocr := some (some (js "  ")) }).data =
      some ⟨[], [], [], [], js "up/1700000000002_cv.pdf", js "1700000000002_cv.pdf", []⟩ :=
  (resolved_text_selection (some (some (js " \n "))) (some (some (js "  ")))).2 (js "up")
    { goodPdf with pdfParse := some (some (js " \n ")), ocr := some (some (js "  ")) }
    37 [80, 68, 70] 4 [37, 80, 68, 70] rfl rfl (by decide) rfl rfl rfl rfl rfl

set_option maxRecDepth 100000 in
/-- C19 as stated fails: four bytes are written for `goodPdf`, `fs.stat` reports a size
of 0, and the attachment data is produced all the same. -/
theorem size_mismatch_not_detected :
    ({ goodPdf with statSize := some 0 } : Attachment).content.toBuffer = some [37, 80, 68, 70] ∧
    (processPdf (js "up") { goodPdf with statSize := some 0 }).data = some goodPdfData ∧
    (attachmentLoop (js "up") 0 [{ goodPdf with statSize := some 0 }]).attachmentData =
      some goodPdfData := by
  decide

/-- The storage after a run that finds no document for the key: the new document is
appended. -/
theorem processEmailContent_insert (dir : JSString) (d : Delivery) (uid : Nat) (w : World)
    (parsed : Parsed) (hparsed : d.parsed = some parsed) (hfind : d.findOneOk = true)
    (hsave : d.saveOk = true) (hnone : findOne w.storage (emailIdOf uid) = none) :
    (processEmailContent dir d uid w).storage = w.storage ++ [newRecord dir d parsed uid] := by
  rw [processEmailContent_storage, hparsed]
  simp only [hfind, hsave, hnone, Bool.true_eq_false, or_self, if_false]
  rfl

/-- The attachment loop on a message whose only PDF attachment fails. -/
theorem attachmentLoop_single_failure (dir : JSString) (pre post : List Attachment)
    (a : Attachment) (i : Nat) (hpre : ∀ x ∈ pre, isPdf x = false)
    (hpost : ∀ x ∈ post, isPdf x = false) (ha : isPdf a = true)
    (hfail : (processPdf dir a).data = none) :
    attachmentLoop dir i (pre ++ a :: post) =
      ⟨true, none, (processPdf dir a).written, [i + pre.length]⟩ := by
  have hrest : ∀ (j : Nat) (l : List Attachment), (∀ x ∈ l, isPdf x = false) →
      attachmentLoop dir j l = ⟨false, none, [], []⟩ := by
    intro j l hl
    induction l generalizing j with
    | nil => rfl
    | cons x xs ih =>
      rw [attachmentLoop, if_neg (by simp [hl x (List.mem_cons_self _ _)])]
      exact ih _ fun y hy => hl y (List.mem_cons_of_mem _ hy)
  induction pre generalizing i with
  | nil =>
    rw [List.nil_append, attachmentLoop, if_pos ha, hfail]
    simp only [hrest _ post hpost, List.append_nil, List.length_nil, Nat.add_zero]
  | cons x xs ih =>
    rw [List.cons_append, attachmentLoop, if_neg (by simp [hpre x (List.mem_cons_self _ _)]),
      ih (i + 1) fun y hy => hpre y (List.mem_cons_of_mem _ hy)]
    simp only [List.length_cons, LoopResult.mk.injEq, true_and, List.cons.injEq, and_true]
    omega

/-- C19 amended. Write verification: after the attachment bytes are written the file is
stat-ed and its size is logged, not compared with the number of bytes written: the result
is the same whatever size is reported. When the stat call (or the read back) fails, the
attachment is skipped: no AttachmentData is produced for it, and the enclosing message,
when it is new and the storage calls succeed, is still saved. -/
theorem write_check_is_stat_only (dir : JSString) (a : Attachment) :
    (∀ n m : Nat, processPdf dir { a with statSize := some n } =
      processPdf dir { a with statSize := some m }) ∧
    ((a.statSize = none ∨ a.readFile = none) → (processPdf dir a).data = none) ∧
    (∀ (d : Delivery) (uid : Nat) (w : World) (parsed : Parsed) (pre post : List Attachment),
      (a.statSize = none ∨ a.readFile = none) → isPdf a = true →
      d.parsed = some parsed → parsed.attachments = pre ++ a :: post →
      (∀ x ∈ pre, isPdf x = false) → (∀ x ∈ post, isPdf x = false) →
      d.findOneOk = true → d.saveOk = true → findOne w.storage (emailIdOf uid) = none →
      (processEmailContent dir d uid w).storage = w.storage ++ [newRecord dir d parsed uid] ∧
      (newRecord dir d parsed uid).attachmentData = none) := by
  have hfail : (a.statSize = none ∨ a.readFile = none) → (processPdf dir a).data = none := by
    intro h
    unfold processPdf
    split
    · rfl
    · split
      · rfl
      · rfl
      · split
        · rfl
        · split
          · rename_i h1 h2
            rcases h with h | h
            · rw [h] at h1; exact absurd h1 (by simp)
            · rw [h] at h2; exact absurd h2 (by simp)
          · rfl
  refine ⟨?_, hfail, ?_⟩
  · intro n m
    obtain ⟨f1, f2, f3, f4, f5, f6, f7, f8, f9, f10, f11⟩ := a
    cases f9 <;> rfl
  · intro d uid w parsed pre post hs hpdf hparsed hatt hpre hpost hfind hsave hnone
    refine ⟨processEmailContent_insert dir d uid w parsed hparsed hfind hsave hnone, ?_⟩
    unfold newRecord
    simp only
    rw [hatt, attachmentLoop_single_failure dir pre post a 0 hpre hpost hpdf (hfail hs)]

set_option maxRecDepth 100000 in
/-- Witness of C19 amended: the stat call fails for the only PDF of a new message. -/
theorem write_check_is_stat_only_witness :
    (processPdf (js "up") { goodPdf with statSize := none }).data = none ∧
    (processEmailContent (js "up")
        ⟨some { plainParsed with attachments := [{ goodPdf with statSize := none }] },
          true, true, 0, true⟩ 7 emptyWorld).storage =
      [newRecord (js "up")
        ⟨some { plainParsed with attachments := [{ goodPdf with statSize := none }] },
          true, true, 0, true⟩
        { plainParsed with attachments := [{ goodPdf with statSize := none }] } 7] ∧
    (newRecord (js "up")
        ⟨some { plainParsed with attachments := [{ goodPdf with statSize := none }] },
          true, true, 0, true⟩
        { plainParsed with attachments := [{ goodPdf with statSize := none }] } 7).attachmentData
      = none :=
  ⟨(write_check_is_stat_only (js "up") { goodPdf with statSize := none }).2.1 (Or.inl rfl),
   ((write_check_is_stat_only (js "up") { goodPdf with statSize := none }).2.2
      ⟨some { plainParsed with attachments := [{ goodPdf with statSize := none }] },
        true, true, 0, true⟩ 7 emptyWorld
      { plainParsed with attachments := [{ goodPdf with statSize := none }] } [] []
      (Or.inl rfl) (by decide) rfl rfl (by simp) (by simp) rfl rfl (by decide)).1,
   ((write_check_is_stat_only (js "up") { goodPdf with statSize := none }).2.2
      ⟨some { plainParsed with attachments := [{ goodPdf with statSize := none }] },
        true, true, 0, true⟩ 7 emptyWorld
      { plainParsed with attachments := [{ goodPdf with statSize := none }] } [] []
      (Or.inl rfl) (by decide) rfl rfl (by simp) (by simp) rfl rfl (by decide)).2⟩

/-! ## Empty attachment -/

/-- The files on disk after `processEmailContent`: those the attachment loop wrote are
added. -/
theorem processEmailContent_files (dir : JSString) (d : Delivery) (uid : Nat) (w : World)
    (parsed : Parsed) (hparsed : d.parsed = some parsed) :
    (processEmailContent dir d uid w).files =
      w.files ++ (attachmentLoop dir 0 parsed.attachments).written := by
  unfold processEmailContent
  rw [hparsed]
  simp only
  split
  · rfl
  · split
    · split
      · split
        · rfl
        · rw [markProcessed_files, emit_files]
      · rfl
    · split
      · rfl
      · rw [emit_files, markProcessed_files]

/-- C20. Empty attachment: for a message whose only PDF attachment normalizes to zero
bytes, the attachment step fails before any file is written, no AttachmentData is
produced, and, when no record with its correlation key is stored yet (and the storage
calls succeed), the message is still inserted as a MailRecord without attachment data and
its uid is marked as processed. -/
theorem empty_attachment_still_saved (dir : JSString) (d : Delivery) (uid : Nat) (w : World)
    (parsed : Parsed) (a : Attachment) (pre post : List Attachment)
    (hpdf : isPdf a = true) (hempty : a.content.toBuffer = some [])
    (hpre : ∀ x ∈ pre, isPdf x = false) (hpost : ∀ x ∈ post, isPdf x = false)
    (hparsed : d.parsed = some parsed) (hatt : parsed.attachments = pre ++ a :: post)
    (hfind : d.findOneOk = true) (hsave : d.saveOk = true)
    (hnone : findOne w.storage (emailIdOf uid) = none) :
    (processPdf dir a).written = [] ∧ (processPdf dir a).data = none ∧
    (processEmailContent dir d uid w).files = w.files ∧
    (processEmailContent dir d uid w).storage = w.storage ++ [newRecord dir d parsed uid] ∧
    (newRecord dir d parsed uid).attachmentData = none ∧
    (newRecord dir d parsed uid).hasAttachment = true ∧
    (newRecord dir d parsed uid).emailId = emailIdOf uid ∧
    uid ∈ (processEmailContent dir d uid w).processedEmails := by
  have hp : processPdf dir a = ⟨none, []⟩ := by
    unfold processPdf
    split
    · rfl
    · simp only [hempty]
  have hloop := attachmentLoop_single_failure dir pre post a 0 hpre hpost hpdf
    (by rw [hp])
  rw [hp] at hloop
  refine ⟨by rw [hp], by rw [hp], ?_, ?_, ?_, ?_, rfl, processEmailContent_marks dir d uid w⟩
  · rw [processEmailContent_files dir d uid w parsed hparsed, hatt, hloop, List.append_nil]
  · exact processEmailContent_insert dir d uid w parsed hparsed hfind hsave hnone
  · unfold newRecord
    simp only
    rw [hatt, hloop]
  · unfold newRecord
    simp only
    rw [hatt, hloop]

set_option maxRecDepth 100000 in
/-- Witness of C20: a new message whose only attachment is the empty PDF. -/
theorem empty_attachment_still_saved_witness :
    (processPdf (js "up") emptyPdf).written = [] ∧ (processPdf (js "up") emptyPdf).data = none ∧
    (processEmailContent (js "up")
        ⟨some { plainParsed with attachments := [emptyPdf] }, true, true, 0, true⟩ 7
        emptyWorld).files = [] ∧
    (processEmailContent (js "up")
        ⟨some { plainParsed with attachments := [emptyPdf] }, true, true, 0, true⟩ 7
        emptyWorld).storage =
      [newRecord (js "up")
        ⟨some { plainParsed with attachments := [emptyPdf] }, true, true, 0, true⟩
        { plainParsed with attachments := [emptyPdf] } 7] :=
  have h := empty_attachment_still_saved (js "up")
    ⟨some { plainParsed with attachments := [emptyPdf] }, true, true, 0, true⟩ 7 emptyWorld
    { plainParsed with attachments := [emptyPdf] } emptyPdf [] []
    (by decide) rfl (by simp) (by simp) rfl rfl rfl rfl (by decide)
  ⟨h.1, h.2.1, h.2.2.1, h.2.2.2.1⟩

/-! ## Filename sanitization -/

set_option maxRecDepth 100000 in
/-- C17 evaluated on the code: the two spaces of "my  resume.pdf" become two
underscores, because the first replacement has already turned every whitespace character
into an underscore when the whitespace pattern runs. -/
theorem sanitize_keeps_whitespace_runs :
    sanitize (js "my  resume.pdf") = js "my__resume.pdf" ∧
    sanitize (js "my  resume.pdf") ≠ js "my_resume.pdf" ∧
    pdfFilename 1700000000000 (js "my  resume.pdf") = js "1700000000000_my__resume.pdf" := by
  decide

/-! ## Generated filename -/

/-- The leftmost code unit of a class, as `search` finds it. -/
theorem search_chr (p : Nat → Bool) (pre rest : List Nat) :
    search (.chr p) pre rest =
      match rest.dropWhile (fun c => !p c) with
      | [] => none
      | c :: cs =>
        some ⟨(rest.takeWhile fun c => !p c).reverse ++ pre, c :: cs,
          ⟨c :: ((rest.takeWhile fun c => !p c).reverse ++ pre), cs, []⟩⟩ := by
  induction rest generalizing pre with
  | nil => simp [search, matchAt, ends_chr_nil]
  | cons c cs ih =>
    unfold search
    by_cases hc : p c = true
    · simp [matchAt, ends_chr_cons, hc]
    · simp only [matchAt, ends_chr_cons, hc, Bool.false_eq_true, if_false, List.head?_nil]
      rw [ih]
      simp [List.dropWhile_cons, List.takeWhile_cons, hc]

theorem replaceAllAux_chr_map (p : Nat → Bool) (repl : JSString) (fuel : Nat)
    (pre rest : List Nat) (hfuel : rest.length < fuel) :
    replaceAllAux (.chr p) repl fuel pre rest =
      rest.flatMap fun c => if p c then repl else [c] := by
  induction fuel generalizing pre rest with
  | zero => omega
  | succ n ih =>
    unfold replaceAllAux
    rw [search_chr]
    have hsplit := List.takeWhile_append_dropWhile (fun c => !p c) rest
    have htake : ∀ c ∈ rest.takeWhile (fun c => !p c), p c = false := by
      intro c hc
      simpa using List.mem_takeWhile_imp hc
    have hpre : (rest.takeWhile fun c => !p c).flatMap (fun c => if p c then repl else [c]) =
        rest.takeWhile fun c => !p c := by
      generalize rest.takeWhile (fun c => !p c) = l at htake
      induction l with
      | nil => rfl
      | cons x xs ihx =>
        rw [List.flatMap_cons, ihx fun c hc => htake c (List.mem_cons_of_mem _ hc)]
        simp [htake x (List.mem_cons_self _ _)]
    cases hd : rest.dropWhile (fun c => !p c) with
    | nil =>
      simp only
      rw [hd, List.append_nil] at hsplit
      rw [← hsplit]
      exact hpre.symm
    | cons c cs =>
      simp only
      rw [hd] at hsplit
      have hpc : p c = true := by
        have := List.head_dropWhile_not (fun c => !p c) rest
        simp only [hd] at this
        simpa using this (by simp)
      have hlen : rest.length = (rest.takeWhile fun c => !p c).length + (cs.length + 1) := by
        conv_lhs => rw [← hsplit]
        simp
      rw [if_neg (by simp), ih _ cs (by omega)]
      have htk : rest.take (rest.length - (c :: cs).length) = rest.takeWhile fun c => !p c := by
        conv_lhs => rw [← hsplit]
        rw [List.take_append_eq_append_take]
        simp only [List.length_append, List.length_cons]
        rw [List.take_of_length_le (by omega)]
        simp
      rw [htk]
      conv_rhs => rw [← hsplit]
      rw [List.flatMap_append, hpre, List.flatMap_cons]
      simp [hpc]

/-- Replacing every code unit of a class by a text. -/
theorem replaceAll_chr_map (p : Nat → Bool) (repl : JSString) (s : JSString) :
    replaceAll (.chr p) repl s = s.flatMap fun c => if p c then repl else [c] :=
  replaceAllAux_chr_map p repl _ [] s (by omega)

/-- A text without any code unit of the class holds no match of the repetition, and is
left as it is by the replacement. -/
theorem replaceAll_plus_of_none (p : Nat → Bool) (repl : JSString) (s : JSString)
    (h : ∀ c ∈ s, p c = false) : replaceAll (Regex.plus p) repl s = s := by
  have hsearch : ∀ (rest pre : List Nat), (∀ c ∈ rest, p c = false) →
      search (Regex.plus p) pre rest = none := by
    intro rest
    have hm : ∀ (rest pre : List Nat), (∀ c ∈ rest, p c = false) →
        matchAt (Regex.plus p) pre rest = none := by
      intro rest pre hr
      rw [matchAt_eq_none_iff, List.eq_nil_iff_forall_not_mem]
      intro e he
      unfold Regex.plus at he
      obtain ⟨u, h1, _, _, h4, h5, _⟩ := mem_ends_rep.mp he
      cases u with
      | nil => simp at h5
      | cons x xs =>
        simp only at h1
        have := hr x (by rw [h1]; simp)
        rw [h4 x (List.mem_cons_self _ _)] at this
        exact absurd this (by simp)
    induction rest with
    | nil =>
      intro pre hr
      rw [search, hm [] pre hr]
      rfl
    | cons c cs ih =>
      intro pre hr
      rw [search, hm (c :: cs) pre hr]
      exact ih _ fun x hx => hr x (List.mem_cons_of_mem _ hx)
  unfold replaceAll replaceAllAux
  rw [hsearch s [] h]

/-- The two replacements of `sanitize` amount to the character-wise replacement: after
the first one no whitespace is left for the second. -/
theorem sanitize_eq (name : JSString) : sanitize name = specSanitize name := by
  have h1 : replaceAll (.chr isUnsafeChar) (js "_") name = specSanitize name := by
    rw [replaceAll_chr_map]
    unfold specSanitize
    induction name with
    | nil => rfl
    | cons c cs ih =>
      rw [List.flatMap_cons, ih, List.map_cons]
      by_cases hk : isKept c = true
      · have : isUnsafeChar c = false := by
          unfold isUnsafeChar; unfold isKept at hk; rw [hk]; rfl
        simp [hk, this]
      · have : isUnsafeChar c = true := by
          unfold isUnsafeChar; unfold isKept at hk
          simpa using hk
        simp only [this, if_true, hk]
        rfl
  unfold sanitize
  rw [h1]
  unfold reSpaces
  apply replaceAll_plus_of_none
  intro c hc
  unfold specSanitize at hc
  obtain ⟨x, _, hx⟩ := List.mem_map.mp hc
  by_cases hk : isKept x = true
  · rw [if_pos hk] at hx
    subst hx
    unfold isKept isAlpha isUpper isLower isDigit at hk
    unfold isSpace
    simp only [Bool.or_eq_true, decide_eq_true_eq, beq_iff_eq] at hk
    simp only [Bool.or_eq_false_iff, beq_eq_false_iff_ne, ne_eq, decide_eq_false_iff_not]
    omega
  · rw [if_neg hk] at hx
    subst hx
    decide

/-- C16. Filename character set: for every original filename (defaulting to
"resume.pdf" when empty) and timestamp, the generated filename is the decimal timestamp,
an underscore, and a sanitized name of the same length as the original in which every
character is in `[A-Za-z0-9.-]` or is an underscore, each original character being kept
if it is in `[A-Za-z0-9.-]` and replaced by an underscore otherwise. -/
theorem filename_character_set (timestamp : Nat) (filename : JSString) :
    pdfFilename timestamp filename =
      decimal timestamp ++ js "_" ++
        sanitize (if filename = [] then js "resume.pdf" else filename) ∧
    (∀ original : JSString,
      sanitize original = specSanitize original ∧
      (sanitize original).length = original.length ∧
      (∀ c ∈ sanitize original, isKept c = true ∨ c = 95) ∧
      (∀ i c, original.get? i = some c →
        (sanitize original).get? i = some (if isKept c then c else 95))) := by
  constructor
  · unfold pdfFilename
    cases filename with
    | nil => rfl
    | cons c cs => rfl
  · intro original
    rw [sanitize_eq]
    refine ⟨rfl, by simp [specSanitize], ?_, ?_⟩
    · intro c hc
      unfold specSanitize at hc
      obtain ⟨x, _, hx⟩ := List.mem_map.mp hc
      by_cases hk : isKept x = true
      · rw [if_pos hk] at hx; subst hx; exact Or.inl hk
      · rw [if_neg hk] at hx; exact Or.inr hx.symm
    · intro i c hi
      unfold specSanitize
      rw [List.get?_map, hi]
      rfl

theorem numVal_decimalAux (fuel n : Nat) (acc : List Nat) (h : n < fuel) :
    (decimalAux fuel n acc).foldl (fun a c => a * 10 + (c - 48)) 0 =
      acc.foldl (fun a c => a * 10 + (c - 48)) n := by
  induction fuel generalizing n acc with
  | zero => omega
  | succ k ih =>
    unfold decimalAux
    split
    · simp
    · rw [ih _ _ (by omega)]
      simp only [List.foldl_cons]
      congr 1
      omega

/-- The decimal rendering denotes the number rendered. -/
theorem numVal_decimal (n : Nat) : numVal (decimal n) = n := by
  unfold numVal decimal
  rw [numVal_decimalAux _ _ _ (by omega)]
  rfl

theorem decimalAux_digits (fuel n : Nat) (acc : List Nat) (hacc : ∀ c ∈ acc, isDigit c = true) :
    ∀ c ∈ decimalAux fuel n acc, isDigit c = true := by
  induction fuel generalizing n acc with
  | zero => exact hacc
  | succ k ih =>
    unfold decimalAux
    split
    · intro c hc
      rcases List.mem_cons.mp hc with rfl | hc
      · unfold isDigit; simp; omega
      · exact hacc c hc
    · apply ih
      intro c hc
      rcases List.mem_cons.mp hc with rfl | hc
      · unfold isDigit; simp; omega
      · exact hacc c hc

/-- The decimal rendering consists of digits. -/
theorem decimal_digits (n : Nat) : ∀ c ∈ decimal n, isDigit c = true :=
  decimalAux_digits _ _ [] (by simp)

theorem takeWhile_append_stop (p : Nat → Bool) (d : List Nat) (x : Nat) (s : List Nat)
    (hd : ∀ c ∈ d, p c = true) (hx : p x = false) : (d ++ x :: s).takeWhile p = d := by
  induction d with
  | nil => simp [List.takeWhile_cons, hx]
  | cons c cs ih =>
    rw [List.cons_append, List.takeWhile_cons, hd c (List.mem_cons_self _ _)]
    simp only [if_true]
    rw [ih fun y hy => hd y (List.mem_cons_of_mem _ hy)]

/-- C18. Filename uniqueness by timestamp: for all millisecond timestamps and all
original filenames, when the timestamps differ the generated filenames differ, and so do
the paths built from them in the same uploads directory. -/
theorem filename_unique_by_timestamp (t1 t2 : Nat) (n1 n2 : JSString) (h : t1 ≠ t2) :
    decimal t1 ++ js "_" ++ sanitize n1 ≠ decimal t2 ++ js "_" ++ sanitize n2 ∧
    pdfFilename t1 n1 ≠ pdfFilename t2 n2 ∧
    ∀ dir : JSString, pathJoin dir (pdfFilename t1 n1) ≠ pathJoin dir (pdfFilename t2 n2) := by
  have key : ∀ s1 s2 : JSString, decimal t1 ++ js "_" ++ s1 ≠ decimal t2 ++ js "_" ++ s2 := by
    intro s1 s2 heq
    have h1 := takeWhile_append_stop isDigit (decimal t1) 95 s1 (decimal_digits t1) (by decide)
    have h2 := takeWhile_append_stop isDigit (decimal t2) 95 s2 (decimal_digits t2) (by decide)
    have e : decimal t1 ++ 95 :: s1 = decimal t2 ++ 95 :: s2 := by
      simpa [js] using heq
    rw [e, h2] at h1
    apply h
    rw [← numVal_decimal t1, ← numVal_decimal t2, h1]
  refine ⟨key _ _, key _ _, ?_⟩
  intro dir heq
  unfold pathJoin at heq
  rw [List.append_assoc, List.append_assoc] at heq
  have := List.append_cancel_left (List.append_cancel_left heq)
  exact key _ _ this

set_option maxRecDepth 100000 in
/-- Witness of C18: the same attachment name one millisecond apart. -/
theorem filename_unique_by_timestamp_witness :
    pdfFilename 1700000000000 (js "cv.pdf") = js "1700000000000_cv.pdf" ∧
    pdfFilename 1700000000001 (js "cv.pdf") = js "1700000000001_cv.pdf" ∧
    pdfFilename 1700000000000 (js "cv.pdf") ≠ pdfFilename 1700000000001 (js "cv.pdf") :=
  ⟨by decide, by decide,
    (filename_unique_by_timestamp 1700000000000 1700000000001 (js "cv.pdf") (js "cv.pdf")
      (by decide)).2.1⟩

/-! ## Plain patterns -/

/-- The end states of a plain pattern, up to the captures: the pattern consumes exactly
the texts of its language. -/
theorem mem_ends_plain (r : Regex) (hr : r.plain = true) (s : MState) (p2 b : List Nat) :
    (∃ e ∈ r.ends s, e.pre = p2 ∧ e.rest = b) ↔
      ∃ w, r.lang w ∧ s.rest = w ++ b ∧ p2 = w.reverse ++ s.pre := by
  induction r generalizing s p2 b with
  | eps =>
    rw [ends_eps]
    simp only [List.mem_singleton, exists_eq_left, Regex.lang]
    constructor
    · rintro ⟨h1, h2⟩
      exact ⟨by simp [h2], by simp [h1]⟩
    · rintro ⟨h1, h2⟩
      simp at h1 h2
      exact ⟨h2.symm, h1⟩
  | chr p =>
    simp only [Regex.lang]
    constructor
    · rintro ⟨e, he, h1, h2⟩
      obtain ⟨c, cs, hc, hp, rfl⟩ := mem_ends_chr.mp he
      simp only at h1 h2
      exact ⟨[c], ⟨c, rfl, hp⟩, by simp [hc, h2], by simp [← h1]⟩
    · rintro ⟨w, ⟨c, rfl, hp⟩, h1, h2⟩
      refine ⟨⟨c :: s.pre, b, s.caps⟩, mem_ends_chr.mpr ⟨c, b, by simpa using h1, hp, rfl⟩, ?_, rfl⟩
      simp [h2]
  | bol => simp [Regex.plain] at hr
  | bolM => simp [Regex.plain] at hr
  | eol => simp [Regex.plain] at hr
  | wordB => simp [Regex.plain] at hr
  | opt r ih => simp [Regex.plain] at hr
  | seq a c iha ihc =>
    simp only [Regex.plain, Bool.and_eq_true] at hr
    rw [ends_seq]
    simp only [Regex.lang, List.mem_flatMap]
    constructor
    · rintro ⟨e, ⟨m, hm, he⟩, h1, h2⟩
      obtain ⟨u, hu, hu1, hu2⟩ := (iha hr.1 s m.pre m.rest).mp ⟨m, hm, rfl, rfl⟩
      obtain ⟨v, hv, hv1, hv2⟩ := (ihc hr.2 m p2 b).mp ⟨e, he, h1, h2⟩
      refine ⟨u ++ v, ⟨u, v, rfl, hu, hv⟩, ?_, ?_⟩
      · rw [hu1, hv1, List.append_assoc]
      · rw [hv2, hu2]; simp
    · rintro ⟨w, ⟨u, v, rfl, hu, hv⟩, h1, h2⟩
      obtain ⟨m, hm, hm1, hm2⟩ := (iha hr.1 s (u.reverse ++ s.pre) (v ++ b)).mpr
        ⟨u, hu, by rw [h1, List.append_assoc], rfl⟩
      obtain ⟨e, he, he1, he2⟩ := (ihc hr.2 m p2 b).mpr
        ⟨v, hv, hm2, by rw [h2, hm1]; simp⟩
      exact ⟨e, ⟨m, hm, he⟩, he1, he2⟩
  | alt a c iha ihc =>
    simp only [Regex.plain, Bool.and_eq_true] at hr
    rw [ends_alt]
    simp only [Regex.lang, List.mem_append]
    constructor
    · rintro ⟨e, he | he, h1, h2⟩
      · obtain ⟨w, hw, hw1, hw2⟩ := (iha hr.1 s p2 b).mp ⟨e, he, h1, h2⟩
        exact ⟨w, Or.inl hw, hw1, hw2⟩
      · obtain ⟨w, hw, hw1, hw2⟩ := (ihc hr.2 s p2 b).mp ⟨e, he, h1, h2⟩
        exact ⟨w, Or.inr hw, hw1, hw2⟩
    · rintro ⟨w, hw | hw, h1, h2⟩
      · obtain ⟨e, he, he1, he2⟩ := (iha hr.1 s p2 b).mpr ⟨w, hw, h1, h2⟩
        exact ⟨e, Or.inl he, he1, he2⟩
      · obtain ⟨e, he, he1, he2⟩ := (ihc hr.2 s p2 b).mpr ⟨w, hw, h1, h2⟩
        exact ⟨e, Or.inr he, he1, he2⟩
  | group i r ih =>
    simp only [Regex.plain] at hr
    rw [ends_group]
    simp only [Regex.lang, List.mem_map]
    constructor
    · rintro ⟨e, ⟨m, hm, rfl⟩, h1, h2⟩
      exact (ih hr s p2 b).mp ⟨m, hm, h1, h2⟩
    · intro h
      obtain ⟨m, hm, h1, h2⟩ := (ih hr s p2 b).mpr h
      exact ⟨_, ⟨m, hm, rfl⟩, h1, h2⟩
  | rep p lo hi =>
    simp only [Regex.lang]
    constructor
    · rintro ⟨e, he, h1, h2⟩
      obtain ⟨u, hu1, hu2, _, hu4, hu5, hu6⟩ := mem_ends_rep.mp he
      exact ⟨u, ⟨hu4, hu5, hu6⟩, by rw [hu1, h2], by rw [← h1, hu2]⟩
    · rintro ⟨w, ⟨hw1, hw2, hw3⟩, h1, h2⟩
      exact ⟨⟨p2, b, s.caps⟩, mem_ends_rep.mpr ⟨w, h1, h2, rfl, hw1, hw2, hw3⟩, rfl, rfl⟩

/-! ## The fallback date pattern -/

theorem lang_alt (a b : Regex) (w : List Nat) :
    (Regex.alt a b).lang w ↔ a.lang w ∨ b.lang w := by rw [Regex.lang]

theorem lang_seq (a b : Regex) (w : List Nat) :
    (Regex.seq a b).lang w ↔ ∃ u v, w = u ++ v ∧ a.lang u ∧ b.lang v := by rw [Regex.lang]

theorem lang_group (i : Nat) (r : Regex) (w : List Nat) :
    (Regex.group i r).lang w ↔ r.lang w := by rw [Regex.lang]

theorem lang_chr (p : Nat → Bool) (w : List Nat) :
    (Regex.chr p).lang w ↔ ∃ c, w = [c] ∧ p c = true := by rw [Regex.lang]

theorem lang_chr2 (p q : Nat → Bool) (w : List Nat) :
    (Regex.seq (.chr p) (.chr q)).lang w ↔ ∃ c1 c2, w = [c1, c2] ∧ p c1 = true ∧ q c2 = true := by
  simp only [Regex.lang]
  constructor
  · rintro ⟨u, v, rfl, ⟨c1, rfl, h1⟩, c2, rfl, h2⟩
    exact ⟨c1, c2, rfl, h1, h2⟩
  · rintro ⟨c1, c2, rfl, h1, h2⟩
    exact ⟨[c1], [c2], rfl, ⟨c1, rfl, h1⟩, c2, rfl, h2⟩

theorem lang_opt_chr (p q : Nat → Bool) (w : List Nat) :
    (Regex.seq (.rep p 0 (some 1)) (.chr q)).lang w ↔
      (∃ c, w = [c] ∧ q c = true) ∨ ∃ c1 c2, w = [c1, c2] ∧ p c1 = true ∧ q c2 = true := by
  simp only [Regex.lang]
  constructor
  · rintro ⟨u, v, rfl, ⟨hu, -, hu2⟩, c, rfl, hc⟩
    have hl := hu2 1 rfl
    match u, hu, hl with
    | [], _, _ => exact Or.inl ⟨c, rfl, hc⟩
    | [x], hu, _ => exact Or.inr ⟨x, c, rfl, hu x (by simp), hc⟩
    | _ :: _ :: _, _, hl => simp at hl
  · rintro (⟨c, rfl, hc⟩ | ⟨c1, c2, rfl, h1, h2⟩)
    · exact ⟨[], [c], rfl, ⟨by simp, by simp, by simp⟩, c, rfl, hc⟩
    · exact ⟨[c1], [c2], rfl, ⟨by simpa using h1, by simp, by simp⟩, c2, rfl, h2⟩

theorem numIn_one (c minLen maxLen lo hi : Nat) :
    NumIn [c] minLen maxLen lo hi ↔
      48 ≤ c ∧ c ≤ 57 ∧ minLen ≤ 1 ∧ 1 ≤ maxLen ∧ lo ≤ c - 48 ∧ c - 48 ≤ hi := by
  simp [NumIn, numVal, isDigit]
  tauto

theorem numIn_two (c1 c2 minLen maxLen lo hi : Nat) :
    NumIn [c1, c2] minLen maxLen lo hi ↔
      48 ≤ c1 ∧ c1 ≤ 57 ∧ 48 ≤ c2 ∧ c2 ≤ 57 ∧ minLen ≤ 2 ∧ 2 ≤ maxLen ∧
        lo ≤ (c1 - 48) * 10 + (c2 - 48) ∧ (c1 - 48) * 10 + (c2 - 48) ≤ hi := by
  simp [NumIn, numVal, isDigit]
  tauto

theorem numIn_four (c1 c2 c3 c4 lo hi : Nat) :
    NumIn [c1, c2, c3, c4] 4 4 lo hi ↔
      48 ≤ c1 ∧ c1 ≤ 57 ∧ 48 ≤ c2 ∧ c2 ≤ 57 ∧ 48 ≤ c3 ∧ c3 ≤ 57 ∧ 48 ≤ c4 ∧ c4 ≤ 57 ∧
        lo ≤ (((c1 - 48) * 10 + (c2 - 48)) * 10 + (c3 - 48)) * 10 + (c4 - 48) ∧
        (((c1 - 48) * 10 + (c2 - 48)) * 10 + (c3 - 48)) * 10 + (c4 - 48) ≤ hi := by
  simp [NumIn, numVal, isDigit]
  tauto

/-- One or two code units, from a bound on the length. -/
theorem length_one_or_two {w : List Nat} (h1 : 1 ≤ w.length) (h2 : w.length ≤ 2) :
    (∃ c, w = [c]) ∨ ∃ c1 c2, w = [c1, c2] := by
  match w, h1, h2 with
  | [c], _, _ => exact Or.inl ⟨c, rfl⟩
  | [c1, c2], _, _ => exact Or.inr ⟨c1, c2, rfl⟩
  | _ :: _ :: _ :: _, _, h2 => simp at h2

/-- The day alternatives match the one- or two-digit numbers 1 to 31. -/
theorem lang_reDay (w : List Nat) : reDay.lang w ↔ NumIn w 1 2 1 31 := by
  show (Regex.alt (.seq (.rep (· == 48) 0 (some 1)) (.chr fun c => decide (49 ≤ c ∧ c ≤ 57)))
    (.alt (.seq (.chr fun c => c == 49 || c == 50) (.chr isDigit))
      (.seq (.chr (· == 51)) (.chr fun c => c == 48 || c == 49)))).lang w ↔ _
  rw [lang_alt, lang_alt, lang_opt_chr, lang_chr2, lang_chr2]
  constructor
  · rintro ((⟨c, rfl, hc⟩ | ⟨c1, c2, rfl, h1, h2⟩) | ⟨c1, c2, rfl, h1, h2⟩ | ⟨c1, c2, rfl, h1, h2⟩)
    · rw [numIn_one]; simp at hc; omega
    · rw [numIn_two]; simp at h1 h2; omega
    · rw [numIn_two]; simp [isDigit] at h1 h2; omega
    · rw [numIn_two]; simp at h1 h2; omega
  · intro h
    rcases length_one_or_two h.2.1 h.2.2.1 with ⟨c, rfl⟩ | ⟨c1, c2, rfl⟩
    · rw [numIn_one] at h
      exact Or.inl (Or.inl ⟨c, rfl, by simp; omega⟩)
    · rw [numIn_two] at h
      by_cases h0 : c1 = 48
      · exact Or.inl (Or.inr ⟨c1, c2, rfl, by simp [h0], by simp; omega⟩)
      · by_cases h3 : c1 = 51
        · exact Or.inr (Or.inr ⟨c1, c2, rfl, by simp [h3], by simp; omega⟩)
        · exact Or.inr (Or.inl ⟨c1, c2, rfl, by simp; omega, by simp [isDigit]; omega⟩)

/-- The month alternatives match the one- or two-digit numbers 1 to 12. -/
theorem lang_reMonth (w : List Nat) : reMonth.lang w ↔ NumIn w 1 2 1 12 := by
  show (Regex.alt (.seq (.rep (· == 48) 0 (some 1)) (.chr fun c => decide (49 ≤ c ∧ c ≤ 57)))
    (.seq (.chr (· == 49)) (.chr fun c => decide (48 ≤ c ∧ c ≤ 50)))).lang w ↔ _
  rw [lang_alt, lang_opt_chr, lang_chr2]
  constructor
  · rintro ((⟨c, rfl, hc⟩ | ⟨c1, c2, rfl, h1, h2⟩) | ⟨c1, c2, rfl, h1, h2⟩)
    · rw [numIn_one]; simp at hc; omega
    · rw [numIn_two]; simp at h1 h2; omega
    · rw [numIn_two]; simp at h1 h2; omega
  · intro h
    rcases length_one_or_two h.2.1 h.2.2.1 with ⟨c, rfl⟩ | ⟨c1, c2, rfl⟩
    · rw [numIn_one] at h
      exact Or.inl (Or.inl ⟨c, rfl, by simp; omega⟩)
    · rw [numIn_two] at h
      by_cases h0 : c1 = 48
      · exact Or.inl (Or.inr ⟨c1, c2, rfl, by simp [h0], by simp; omega⟩)
      · exact Or.inr ⟨c1, c2, rfl, by simp; omega, by simp; omega⟩

/-- The year alternatives match the four-digit numbers 1940 to 2005. -/
theorem lang_reYear (w : List Nat) : reYear.lang w ↔ NumIn w 4 4 1940 2005 := by
  show (Regex.alt
    (.seq (.seq (.chr (· == 49)) (.chr (· == 57)))
      (.seq (.chr fun c => decide (52 ≤ c ∧ c ≤ 57)) (.chr isDigit)))
    (.seq (.seq (.chr (· == 50)) (.seq (.chr (· == 48)) (.chr (· == 48))))
      (.chr fun c => decide (48 ≤ c ∧ c ≤ 53)))).lang w ↔ _
  simp only [Regex.lang]
  constructor
  · rintro (⟨u, v, rfl, ⟨u1, u2, rfl, ⟨c1, rfl, h1⟩, c2, rfl, h2⟩,
        v1, v2, rfl, ⟨c3, rfl, h3⟩, c4, rfl, h4⟩ |
      ⟨u, v, rfl, ⟨u1, u2, rfl, ⟨c1, rfl, h1⟩, u3, u4, rfl, ⟨c2, rfl, h2⟩, c3, rfl, h3⟩,
        c4, rfl, h4⟩)
    · show NumIn [c1, c2, c3, c4] 4 4 1940 2005
      rw [numIn_four]; simp [isDigit] at h1 h2 h3 h4; omega
    · show NumIn [c1, c2, c3, c4] 4 4 1940 2005
      rw [numIn_four]; simp at h1 h2 h3 h4; omega
  · intro h
    have hl : w.length = 4 := Nat.le_antisymm h.2.2.1 h.2.1
    match w, hl, h with
    | [c1, c2, c3, c4], _, h =>
      rw [numIn_four] at h
      by_cases h0 : c1 = 49
      · exact Or.inl ⟨[c1, c2], [c3, c4], rfl,
          ⟨[c1], [c2], rfl, ⟨c1, rfl, by simp [h0]⟩, c2, rfl, by simp; omega⟩,
          [c3], [c4], rfl, ⟨c3, rfl, by simp; omega⟩, c4, rfl, by simp [isDigit]; omega⟩
      · exact Or.inr ⟨[c1, c2, c3], [c4], rfl,
          ⟨[c1], [c2, c3], rfl, ⟨c1, rfl, by simp; omega⟩,
            [c2], [c3], rfl, ⟨c2, rfl, by simp; omega⟩, c3, rfl, by simp; omega⟩,
          c4, rfl, by simp; omega⟩

/-- The core of the date pattern matches the birth dates. -/
theorem lang_reDateCore (w : List Nat) : reDateCore.lang w ↔ IsBirthDate w := by
  unfold reDateCore IsBirthDate
  simp only [lang_seq, lang_group, lang_chr, lang_reDay, lang_reMonth, lang_reYear]
  constructor
  · rintro ⟨d, r1, rfl, hd, u1, r2, rfl, ⟨s1, rfl, hs1⟩, m, r3, rfl, hm, u2, y, rfl,
      ⟨s2, rfl, hs2⟩, hy⟩
    exact ⟨d, s1, m, s2, y, rfl, hd, hs1, hm, hs2, hy⟩
  · rintro ⟨d, s1, m, s2, y, rfl, hd, hs1, hm, hs2, hy⟩
    exact ⟨d, _, rfl, hd, [s1], _, rfl, ⟨s1, rfl, hs1⟩, m, _, rfl, hm, [s2], y, rfl,
      ⟨s2, rfl, hs2⟩, hy⟩

theorem reDateCore_plain : reDateCore.plain = true := rfl

theorem datePattern_ends (s : MState) :
    datePattern.ends s =
      (Regex.wordB.ends s).flatMap fun s1 => (reDateCore.ends s1).flatMap Regex.wordB.ends := by
  show (Regex.seq .wordB (.seq (.group 1 reDay) (.seq (.chr isDateSep) (.seq (.group 2 reMonth)
    (.seq (.chr isDateSep) (.seq (.group 3 reYear) .wordB)))))).ends s = _
  have hfun : ∀ a b : Regex, (Regex.seq a b).ends = fun s => (a.ends s).flatMap b.ends :=
    fun a b => funext (ends_seq a b)
  unfold reDateCore
  simp only [ends_seq, hfun, List.flatMap_assoc]

/-- The end states of the date pattern started at a position: the birth dates that start
there between word boundaries. -/
theorem mem_datePattern {pre rest : List Nat} {e : MState}
    (h : e ∈ datePattern.ends ⟨pre, rest, []⟩) :
    ∃ w, IsBirthDate w ∧ rest = w ++ e.rest ∧ e.pre = w.reverse ++ pre ∧
      Boundary pre rest ∧ Boundary e.pre e.rest := by
  rw [datePattern_ends, List.mem_flatMap] at h
  obtain ⟨s1, hs1, h⟩ := h
  obtain ⟨rfl, hb1⟩ := mem_ends_wordB.mp hs1
  rw [List.mem_flatMap] at h
  obtain ⟨m, hm, h⟩ := h
  obtain ⟨rfl, hb2⟩ := mem_ends_wordB.mp h
  obtain ⟨w, hw, h1, h2⟩ := (mem_ends_plain reDateCore reDateCore_plain _ e.pre e.rest).mp
    ⟨e, hm, rfl, rfl⟩
  exact ⟨w, (lang_reDateCore w).mp hw, h1, h2, hb1, hb2⟩

theorem datePattern_of_dateAt {a w b : List Nat} (hw : IsBirthDate w)
    (hb1 : Boundary a.reverse (w ++ b)) (hb2 : Boundary (w.reverse ++ a.reverse) b) :
    datePattern.ends ⟨a.reverse, w ++ b, []⟩ ≠ [] := by
  obtain ⟨e, he, h1, h2⟩ := (mem_ends_plain reDateCore reDateCore_plain
    ⟨a.reverse, w ++ b, []⟩ (w.reverse ++ a.reverse) b).mpr
    ⟨w, (lang_reDateCore w).mpr hw, rfl, rfl⟩
  have : e ∈ datePattern.ends ⟨a.reverse, w ++ b, []⟩ := by
    rw [datePattern_ends, List.mem_flatMap]
    refine ⟨_, mem_ends_wordB.mpr ⟨rfl, hb1⟩, ?_⟩
    rw [List.mem_flatMap]
    exact ⟨e, he, mem_ends_wordB.mpr ⟨rfl, by rw [h1, h2]; exact hb2⟩⟩
  exact List.ne_nil_of_mem this

/-! ## Date of birth, fallback -/

theorem dobFromPatterns_nil (ps : List Regex) (text : JSString)
    (h : ∀ p ∈ ps, matchAll p text = []) : dobFromPatterns ps text = [] := by
  induction ps with
  | nil => rfl
  | cons p ps ih =>
    rw [dobFromPatterns, h p (List.mem_cons_self _ _)]
    exact ih fun q hq => h q (List.mem_cons_of_mem _ hq)

theorem dropWhile_of_none (p : Nat → Bool) (l : List Nat) (h : ∀ c ∈ l, p c = false) :
    l.dropWhile p = l := by
  cases l with
  | nil => rfl
  | cons c cs => rw [List.dropWhile_cons, h c (List.mem_cons_self _ _)]; rfl

/-- Trimming a text without whitespace leaves it as it is. -/
theorem trim_of_no_space (w : JSString) (h : ∀ c ∈ w, isSpace c = false) : trim w = w := by
  unfold trim
  rw [dropWhile_of_none isSpace w h,
    dropWhile_of_none isSpace w.reverse fun c hc => h c (List.mem_reverse.mp hc),
    List.reverse_reverse]

theorem isSpace_of_isDigit {c : Nat} (h : isDigit c = true) : isSpace c = false := by
  unfold isDigit at h
  unfold isSpace
  simp only [decide_eq_true_eq] at h
  simp only [Bool.or_eq_false_iff, beq_eq_false_iff_ne, ne_eq, decide_eq_false_iff_not]
  omega

theorem isSpace_of_isDateSep {c : Nat} (h : isDateSep c = true) : isSpace c = false := by
  unfold isDateSep at h
  unfold isSpace
  simp only [Bool.or_eq_true, beq_iff_eq] at h
  simp only [Bool.or_eq_false_iff, beq_eq_false_iff_ne, ne_eq, decide_eq_false_iff_not]
  omega

theorem isDigit_of_isDateSep {c : Nat} (h : isDateSep c = true) : isDigit c = false := by
  unfold isDateSep at h
  unfold isDigit
  simp only [Bool.or_eq_true, beq_iff_eq] at h
  simp only [decide_eq_false_iff_not]
  omega

theorem isBirthDate_no_space {w : JSString} (hw : IsBirthDate w) :
    ∀ c ∈ w, isSpace c = false := by
  obtain ⟨d, s1, m, s2, y, rfl, hd, hs1, hm, hs2, hy⟩ := hw
  intro c hc
  simp only [List.mem_append, List.mem_cons] at hc
  rcases hc with hc | rfl | hc | rfl | hc
  · exact isSpace_of_isDigit (hd.1 c hc)
  · exact isSpace_of_isDateSep hs1
  · exact isSpace_of_isDigit (hm.1 c hc)
  · exact isSpace_of_isDateSep hs2
  · exact isSpace_of_isDigit (hy.1 c hc)

/-- At most one birth date starts at a position. -/
theorem isBirthDate_unique {w v b1 b2 : List Nat} (hw : IsBirthDate w) (hv : IsBirthDate v)
    (h : w ++ b1 = v ++ b2) : w = v := by
  obtain ⟨d, s1, m, s2, y, rfl, hd, hs1, hm, hs2, hy⟩ := hw
  obtain ⟨d2, t1, m2, t2, y2, rfl, hd2, ht1, hm2, ht2, hy2⟩ := hv
  simp only [List.append_assoc, List.cons_append] at h
  have e1 := congrArg (List.takeWhile isDigit) h
  rw [takeWhile_append_stop isDigit d s1 _ hd.1 (isDigit_of_isDateSep hs1),
    takeWhile_append_stop isDigit d2 t1 _ hd2.1 (isDigit_of_isDateSep ht1)] at e1
  subst e1
  have h2 := List.append_cancel_left h
  simp only [List.cons.injEq] at h2
  obtain ⟨rfl, h2⟩ := h2
  have e2 := congrArg (List.takeWhile isDigit) h2
  rw [takeWhile_append_stop isDigit m s2 _ hm.1 (isDigit_of_isDateSep hs2),
    takeWhile_append_stop isDigit m2 t2 _ hm2.1 (isDigit_of_isDateSep ht2)] at e2
  subst e2
  have h3 := List.append_cancel_left h2
  simp only [List.cons.injEq] at h3
  obtain ⟨rfl, h3⟩ := h3
  have hl : y.length = y2.length := by
    have a1 := hy.2.1
    have a2 := hy.2.2.1
    have a3 := hy2.2.1
    have a4 := hy2.2.2.1
    omega
  rw [(List.append_inj h3 hl).1]

/-- What the date-of-birth section returns when no labelled pattern matches: nothing when
the text holds no birth date between word boundaries, and otherwise the birth date at the
leftmost position. -/
theorem extractDateOfBirth_fallback (text : JSString)
    (h : ∀ p ∈ dobPatterns, matchAll p text = []) :
    (extractDateOfBirth text = [] ∧ ∀ i w, ¬ DateAt text i w) ∨
    ∃ i w, DateAt text i w ∧ (∀ j v, DateAt text j v → i ≤ j ∧ (j = i → v = w)) ∧
      extractDateOfBirth text = w := by
  have hdob : extractDateOfBirth text =
      match matchAll datePattern text with
      | [] => []
      | m :: _ => trim m := by
    unfold extractDateOfBirth
    rw [dobFromPatterns_nil dobPatterns text h]
  cases hs : search datePattern [] text with
  | none =>
    left
    constructor
    · rw [hdob, matchAll_eq_nil datePattern text hs]
    · rintro i w ⟨a, b, htext, _, hw, hb1, hb2⟩
      have hn := search_none hs a (w ++ b) htext
      rw [List.append_nil, matchAt_eq_none_iff] at hn
      exact datePattern_of_dateAt hw hb1 hb2 hn
  | some f =>
    right
    obtain ⟨a0, h1, h2, h3, h4⟩ := search_some hs
    rw [List.append_nil] at h2
    have hmem : f.fin ∈ datePattern.ends ⟨f.pre, f.rest, []⟩ := List.mem_of_mem_head? h3
    obtain ⟨w0, hw0, hr, hp, hb1, hb2⟩ := mem_datePattern hmem
    refine ⟨a0.length, w0, ?_, ?_, ?_⟩
    · refine ⟨a0, f.fin.rest, by rw [h1, hr], rfl, hw0, ?_, ?_⟩
      · rw [← h2, ← hr]; exact hb1
      · rw [← h2, ← hp]; exact hb2
    · rintro j v ⟨a, b, htext, hj, hv, hvb1, hvb2⟩
      have hvm := datePattern_of_dateAt hv hvb1 hvb2
      have heq : a0 ++ f.rest = a ++ (v ++ b) := by rw [← h1, htext]
      constructor
      · by_contra hlt
        rcases List.append_eq_append_iff.mp heq with ⟨a2, ha, hf⟩ | ⟨c2, ha, hf⟩
        · have := congrArg List.length ha
          simp only [List.length_append] at this
          omega
        · cases c2 with
          | nil =>
            rw [List.append_nil] at ha
            rw [ha] at hlt
            omega
          | cons x xs =>
            have hn := h4 a (x :: xs) ha (by simp)
            rw [List.append_nil, matchAt_eq_none_iff, ← hf] at hn
            exact hvm hn
      · intro hji
        have hal : a.length = a0.length := by rw [hj, hji]
        have hf : f.rest = v ++ b := (List.append_inj heq hal.symm).2
        rw [hr] at hf
        exact (isBirthDate_unique hw0 hv hf).symm
    · have hwhole : f.whole = w0 := by
        unfold Found.whole
        rw [hr]
        exact take_append_length_sub w0 f.fin.rest
      have hhead := matchAll_head datePattern text
      rw [hs] at hhead
      simp only [Option.map_some', hwhole] at hhead
      rw [hdob]
      cases hall : matchAll datePattern text with
      | nil => rw [hall] at hhead; simp at hhead
      | cons m ms =>
        rw [hall] at hhead
        simp only [List.head?_cons, Option.some.injEq] at hhead
        subst hhead
        exact trim_of_no_space m (isBirthDate_no_space hw0)

theorem extractDateOfBirth_empty : extractDateOfBirth [] = [] := by decide

set_option maxRecDepth 100000 in
/-- C14. Date of birth, fallback: for every text in which no label-prefixed date pattern
matches, dateOfBirth is empty when the text holds no numeric date, delimited by word
boundaries, with day 1-31, month 1-12 and a four-digit year within [1940, 2005], and is
otherwise the first such date of the text (the only one at its position); a text whose
only dates have years outside that range, as 01/01/2010 or 01/01/1939, yields an empty
dateOfBirth. -/
theorem dob_fallback_first_date (text : JSString)
    (h : ∀ p ∈ dobPatterns, matchAll p text = []) :
    (((extractResumeData text).dateOfBirth = [] ∧ ∀ i w, ¬ DateAt text i w) ∨
      ∃ i w, DateAt text i w ∧ (∀ j v, DateAt text j v → i ≤ j ∧ (j = i → v = w)) ∧
        (extractResumeData text).dateOfBirth = w) ∧
    (extractResumeData (js "01/01/2010")).dateOfBirth = [] ∧
    (extractResumeData (js "01/01/1939")).dateOfBirth = [] := by
  refine ⟨?_, by decide, by decide⟩
  have hd : (extractResumeData text).dateOfBirth = extractDateOfBirth text := by
    cases text with
    | nil => exact extractDateOfBirth_empty.symm
    | cons c cs => rfl
  rw [hd]
  exact extractDateOfBirth_fallback text h

set_option maxRecDepth 100000 in
/-- Witness of C14: a text without a label, holding two birth dates. -/
theorem dob_fallback_first_date_witness :
    (∀ p ∈ dobPatterns, matchAll p (js "CV 15/08/1995, 01.02.1990") = []) ∧
    (extractResumeData (js "CV 15/08/1995, 01.02.1990")).dateOfBirth = js "15/08/1995" ∧
    (((extractResumeData (js "CV 15/08/1995, 01.02.1990")).dateOfBirth = [] ∧
        ∀ i w, ¬ DateAt (js "CV 15/08/1995, 01.02.1990") i w) ∨
      ∃ i w, DateAt (js "CV 15/08/1995, 01.02.1990") i w ∧
        (∀ j v, DateAt (js "CV 15/08/1995, 01.02.1990") j v → i ≤ j ∧ (j = i → v = w)) ∧
        (extractResumeData (js "CV 15/08/1995, 01.02.1990")).dateOfBirth = w) :=
  ⟨by decide, by decide,
    (dob_fallback_first_date (js "CV 15/08/1995, 01.02.1990") (by decide)).1⟩

/-! ## Shutdown -/

theorem stopMonitoring_intervals (m : Monitor) :
    (stopMonitoring m).intervals = m.intervals := by
  unfold stopMonitoring
  cases m.connection <;> rfl

/-- After a stop no run of the timer callback makes a polling pass or calls
`imap.connect`: it fails on the null connection and logs two errors. -/
theorem intervalCallback_after_stop (o c r : Bool) (m : Monitor) :
    (intervalCallback o c r (stopMonitoring m)).passes = m.passes ∧
    (intervalCallback o c r (stopMonitoring m)).connects = m.connects ∧
    (intervalCallback o c r (stopMonitoring m)).intervalErrors = m.intervalErrors + 2 ∧
    (intervalCallback o c r (stopMonitoring m)).intervals = m.intervals := by
  unfold stopMonitoring intervalCallback
  cases m.connection <;> exact ⟨rfl, rfl, rfl, rfl⟩

/-- C22, the code on a start followed by a stop: the connection is ended and the variable
cleared, but the timer created by `setInterval` is still active. Its callback keeps
running every ten seconds and logs two errors each time; after a second start two timers
are active and each period makes two polling passes. -/
theorem stop_leaves_timer_running :
    (startMonitoring true true idleMonitor).intervals = 1 ∧
    (stopMonitoring (startMonitoring true true idleMonitor)).connection = none ∧
    (stopMonitoring (startMonitoring true true idleMonitor)).ended = [0] ∧
    (stopMonitoring (startMonitoring true true idleMonitor)).isMonitoring = false ∧
    (stopMonitoring (startMonitoring true true idleMonitor)).intervals = 1 ∧
    (tenSeconds true true true (stopMonitoring (startMonitoring true true idleMonitor))).intervalErrors
      = 2 ∧
    (startMonitoring true true
      (stopMonitoring (startMonitoring true true idleMonitor))).intervals = 2 ∧
    (tenSeconds true true true (startMonitoring true true
      (stopMonitoring (startMonitoring true true idleMonitor)))).passes =
      (startMonitoring true true
        (stopMonitoring (startMonitoring true true idleMonitor))).passes + 2 := by
  decide

/-! ## Raw text -/

/-- C23. Raw text truncation: for every PDF attachment processed to the end, the rawText
stored in AttachmentData is the prefix of the resolved text of length min(5000, length
of the text); it never exceeds 5000 characters and equals the whole text when the text
has at most 5000 characters. -/
theorem raw_text_truncation (dir : JSString) (a : Attachment) (b : Nat) (bs : List Nat)
    (n : Nat) (buf : List Nat)
    (hdir : a.ensureDirOk = true) (hcontent : a.content.toBuffer = some (b :: bs))
    (hwrite : a.writeOk = true) (hstat : a.statSize = some n) (hread : a.readFile = some buf) :
    ∃ data, (processPdf dir a).data = some data ∧
      data.rawText = (resolveText a.pdfParse a.ocr).text.take 5000 ∧
      List.IsPrefix data.rawText (resolveText a.pdfParse a.ocr).text ∧
      data.rawText.length = min 5000 (resolveText a.pdfParse a.ocr).text.length ∧
      data.rawText.length ≤ 5000 ∧
      ((resolveText a.pdfParse a.ocr).text.length ≤ 5000 →
        data.rawText = (resolveText a.pdfParse a.ocr).text) := by
  rw [processPdf_after_write dir a b bs n buf hdir hcontent hwrite hstat hread]
  refine ⟨_, rfl, rfl, ?_, ?_, ?_, ?_⟩
  · exact List.take_prefix _ _
  · simp [substring0, List.length_take]
  · simp only [substring0, List.length_take]
    omega
  · intro h
    exact List.take_of_length_le h

theorem resolveText_letters (n : Nat) (hn : 50 ≤ n) :
    (resolveText (some (some (List.replicate n 97))) none).text = List.replicate n 97 := by
  have h1 : trim (List.replicate n 97) = List.replicate n 97 :=
    trim_of_no_space _ (by intro c hc; rw [List.eq_of_mem_replicate hc]; rfl)
  obtain ⟨k, rfl⟩ : ∃ k, n = k + 1 := ⟨n - 1, by omega⟩
  have h2 : orElseStr (some (List.replicate (k + 1) 97)) [] = List.replicate (k + 1) 97 := rfl
  have h3 : List.replicate (k + 1) 97 ≠ [] := by simp [List.replicate_succ]
  unfold resolveText textLayer needsOcr
  simp only [h2, h1, List.length_replicate, h3]
  have h4 : ¬ (k + 1 < 50) := by omega
  have h5 : ¬ (k + 1 = 0) := by omega
  simp [h4, h5, h1, h3]

/-- Witness of C23: a text layer of 6000 letters is cut to its first 5000. -/
theorem raw_text_truncation_witness :
    ∃ data, (processPdf (js "up")
        { goodPdf with pdfParse := some (some (List.replicate 6000 97)) }).data = some data ∧
      data.rawText = List.replicate 5000 97 :=
  have h := raw_text_truncation (js "up")
    { goodPdf with pdfParse := some (some (List.replicate 6000 97)) } 37 [80, 68, 70] 4
    [37, 80, 68, 70] rfl rfl rfl rfl rfl
  h.elim fun data hd => ⟨data, hd.1, by
    rw [hd.2.1]
    show List.take 5000 (resolveText (some (some (List.replicate 6000 97))) none).text = _
    rw [resolveText_letters 6000 (by omega), List.take_replicate]
    congr 1⟩

/-! ## Notifications -/

theorem attachmentLoop_hasAttachment (dir : JSString) (i : Nat) (l : List Attachment) :
    (attachmentLoop dir i l).hasAttachment = l.any isPdf := by
  induction l generalizing i with
  | nil => rfl
  | cons a rest ih =>
    rw [attachmentLoop, List.any_cons]
    by_cases hp : isPdf a = true
    · rw [if_pos hp, hp]
      cases (processPdf dir a).data <;> rfl
    · rw [if_neg hp, ih]
      simp [hp]

theorem emit_emitted (c : Bool) (m : JSString) (e : MailRecord) (w : World) :
    (emit c m e w).emitted = if c then w.emitted ++ [⟨m, e⟩] else w.emitted := by
  unfold emit; split <;> rfl

/-- The events after a run of `processEmailContent`. -/
theorem processEmailContent_emitted (dir : JSString) (d : Delivery) (uid : Nat) (w : World) :
    (processEmailContent dir d uid w).emitted =
      match d.parsed with
      | none => w.emitted
      | some parsed =>
        if d.findOneOk = false ∨ d.saveOk = false ∨ d.hasChannel = false then w.emitted
        else
          match findOne w.storage (emailIdOf uid) with
          | some existing =>
            if shouldBackfill (attachmentLoop dir 0 parsed.attachments) existing then
              w.emitted ++ [⟨js "Email updated with PDF attachment data!",
                { existing with
                  hasAttachment := true
                  attachmentData := (attachmentLoop dir 0 parsed.attachments).attachmentData }⟩]
            else w.emitted
          | none =>
            w.emitted ++ [⟨if (attachmentLoop dir 0 parsed.attachments).hasAttachment
                then js "New email with PDF attachment received!" else js "New email received!",
              newRecord dir d parsed uid⟩] := by
  unfold processEmailContent
  cases d.parsed with
  | none => rfl
  | some parsed =>
    simp only
    cases hf : d.findOneOk <;> cases hs : d.saveOk <;> cases hc : d.hasChannel <;>
      simp only [markProcessed_emitted, emit_emitted, if_true, if_false, or_self, or_true,
        true_or, or_false, Bool.true_eq_false, Bool.false_eq_true] <;>
      cases findOne w.storage (emailIdOf uid) <;>
      simp only [markProcessed_emitted, emit_emitted, if_true, if_false,
        Bool.false_eq_true] <;>
      first
        | rfl
        | (split <;> simp only [markProcessed_emitted, emit_emitted, if_true, if_false,
            Bool.false_eq_true])

/-- C21. Notification rule: processing a message emits exactly one newEmail notification
when a record is inserted or backfilled (and a channel is present) and none otherwise;
the summary is "New email with PDF attachment received!" for an insert of a message with
a PDF attachment, "New email received!" for an insert without one, and "Email updated
with PDF attachment data!" for a backfill, and the event carries the inserted or updated
record, which is then in the storage. -/
theorem notification_rule (dir : JSString) (d : Delivery) (uid : Nat) (w : World)
    (parsed : Parsed) (hparsed : d.parsed = some parsed) (hfind : d.findOneOk = true)
    (hsave : d.saveOk = true) (hchan : d.hasChannel = true) :
    (findOne w.storage (emailIdOf uid) = none →
      (processEmailContent dir d uid w).storage = w.storage ++ [newRecord dir d parsed uid] ∧
      (processEmailContent dir d uid w).emitted =
        w.emitted ++ [⟨if parsed.attachments.any isPdf
            then js "New email with PDF attachment received!" else js "New email received!",
          newRecord dir d parsed uid⟩]) ∧
    (∀ existing, findOne w.storage (emailIdOf uid) = some existing →
      shouldBackfill (attachmentLoop dir 0 parsed.attachments) existing = true →
      (processEmailContent dir d uid w).storage =
        saveExisting (emailIdOf uid)
          { existing with
            hasAttachment := true
            attachmentData := (attachmentLoop dir 0 parsed.attachments).attachmentData }
          w.storage ∧
      (processEmailContent dir d uid w).emitted =
        w.emitted ++ [⟨js "Email updated with PDF attachment data!",
          { existing with
            hasAttachment := true
            attachmentData := (attachmentLoop dir 0 parsed.attachments).attachmentData }⟩]) ∧
    (∀ existing, findOne w.storage (emailIdOf uid) = some existing →
      shouldBackfill (attachmentLoop dir 0 parsed.attachments) existing = false →
      (processEmailContent dir d uid w).storage = w.storage ∧
      (processEmailContent dir d uid w).emitted = w.emitted) := by
  have hE := processEmailContent_emitted dir d uid w
  have hS := processEmailContent_storage dir d uid w
  rw [hparsed] at hE hS
  simp only [hfind, hsave, hchan, Bool.true_eq_false, or_self, if_false] at hE hS
  refine ⟨?_, ?_, ?_⟩
  · intro hnone
    rw [hnone] at hE hS
    rw [attachmentLoop_hasAttachment] at hE
    exact ⟨hS, hE⟩
  · intro existing hex hb
    rw [hex] at hE hS
    simp only [hb, if_true] at hE hS
    exact ⟨hS, hE⟩
  · intro existing hex hb
    rw [hex] at hE hS
    simp only [hb, Bool.false_eq_true, if_false] at hE hS
    exact ⟨hS, hE⟩

theorem processEmailContent_emitted_failure (dir : JSString) (d : Delivery) (uid : Nat)
    (w : World)
    (h : d.parsed = none ∨ d.findOneOk = false ∨ d.saveOk = false ∨ d.hasChannel = false) :
    (processEmailContent dir d uid w).emitted = w.emitted := by
  rw [processEmailContent_emitted]
  cases hp : d.parsed with
  | none => rfl
  | some parsed =>
    simp only
    rw [hp] at h
    rcases h with h | h | h | h
    · simp at h
    · simp [h]
    · simp [h]
    · simp [h]

set_option maxRecDepth 100000 in
/-- Witness of C21: a new message with a PDF, then the same message delivered again. -/
theorem notification_rule_witness :
    (processEmailContent (js "up") pdfDelivery 7 emptyWorld).emitted =
      [⟨js "New email with PDF attachment received!",
        newRecord (js "up") pdfDelivery { plainParsed with attachments := [goodPdf] } 7⟩] ∧
    (processEmailContent (js "up") pdfDelivery 7
      (processEmailContent (js "up") pdfDelivery 7 emptyWorld)).emitted =
      (processEmailContent (js "up") pdfDelivery 7 emptyWorld).emitted :=
  ⟨((notification_rule (js "up") pdfDelivery 7 emptyWorld
      { plainParsed with attachments := [goodPdf] } rfl rfl rfl rfl).1 (by decide)).2,
   by decide⟩

/-! ## Patterns that need a non-whitespace code unit -/

theorem isSpace_iff_mem (c : Nat) : isSpace c = true ↔ c ∈ spaceUnits := by
  unfold isSpace spaceUnits
  simp only [Bool.or_eq_true, beq_iff_eq, decide_eq_true_eq, List.mem_cons, List.mem_singleton,
    List.mem_nil_iff, or_false]
  omega

theorem not_space_of_all {p : Nat → Bool} (h : (spaceUnits.all fun c => !p c) = true) {c : Nat}
    (hc : p c = true) : isSpace c = false := by
  cases hs : isSpace c with
  | false => rfl
  | true =>
    have := List.all_eq_true.mp h c ((isSpace_iff_mem c).mp hs)
    rw [hc] at this
    simp at this

/-- The test `inked` is sound. -/
theorem consumesInk_of_inked (r : Regex) (h : r.inked = true) : ConsumesInk r := by
  induction r with
  | eps => simp [Regex.inked] at h
  | bol => simp [Regex.inked] at h
  | bolM => simp [Regex.inked] at h
  | eol => simp [Regex.inked] at h
  | wordB => simp [Regex.inked] at h
  | opt r ih => simp [Regex.inked] at h
  | chr p =>
    rw [Regex.inked] at h
    intro s e he
    obtain ⟨c, cs, h1, h2, rfl⟩ := mem_ends_chr.mp he
    exact ⟨[c], by simpa using h1, c, by simp, not_space_of_all h h2⟩
  | rep p lo hi =>
    rw [Regex.inked, Bool.and_eq_true, decide_eq_true_eq] at h
    intro s e he
    obtain ⟨u, h1, _, _, h4, h5, _⟩ := mem_ends_rep.mp he
    cases u with
    | nil => simp at h5; omega
    | cons x xs =>
      exact ⟨x :: xs, h1, x, List.mem_cons_self _ _,
        not_space_of_all h.2 (h4 x (List.mem_cons_self _ _))⟩
  | seq a b iha ihb =>
    rw [Regex.inked, Bool.or_eq_true] at h
    intro s e he
    rw [ends_seq, List.mem_flatMap] at he
    obtain ⟨m, hm, he⟩ := he
    rcases h with h | h
    · obtain ⟨u, h1, c, hc, hcs⟩ := iha h s m hm
      obtain ⟨v, h2⟩ := ends_consume b m e he
      exact ⟨u ++ v, by rw [h1, h2, List.append_assoc], c, List.mem_append_left _ hc, hcs⟩
    · obtain ⟨u, h1⟩ := ends_consume a s m hm
      obtain ⟨v, h2, c, hc, hcs⟩ := ihb h m e he
      exact ⟨u ++ v, by rw [h1, h2, List.append_assoc], c, List.mem_append_right _ hc, hcs⟩
  | alt a b iha ihb =>
    rw [Regex.inked, Bool.and_eq_true] at h
    intro s e he
    rw [ends_alt, List.mem_append] at he
    rcases he with he | he
    · exact iha h.1 s e he
    · exact ihb h.2 s e he
  | group i r ih =>
    rw [Regex.inked] at h
    intro s e he
    rw [ends_group, List.mem_map] at he
    obtain ⟨m, hm, rfl⟩ := he
    exact ih h s m hm

/-- A pattern that needs a non-whitespace code unit has no match in a blank text. -/
theorem search_none_of_blank (r : Regex) (h : ConsumesInk r) (pre rest : List Nat)
    (hrest : ∀ c ∈ rest, isSpace c = true) : search r pre rest = none := by
  have hm : ∀ (pre rest : List Nat), (∀ c ∈ rest, isSpace c = true) →
      matchAt r pre rest = none := by
    intro pre rest hr
    rw [matchAt_eq_none_iff, List.eq_nil_iff_forall_not_mem]
    intro e he
    obtain ⟨u, h1, c, hc, hcs⟩ := h _ e he
    simp only at h1
    have := hr c (by rw [h1]; exact List.mem_append_left _ hc)
    rw [hcs] at this
    simp at this
  induction rest generalizing pre with
  | nil =>
    rw [search, hm pre [] hrest]
    rfl
  | cons c cs ih =>
    rw [search, hm pre (c :: cs) hrest]
    exact ih _ fun x hx => hrest x (List.mem_cons_of_mem _ hx)

theorem matchAll_nil_of_blank (r : Regex) (h : r.inked = true) (text : JSString)
    (htext : ∀ c ∈ text, isSpace c = true) : matchAll r text = [] :=
  matchAll_eq_nil r text (search_none_of_blank r (consumesInk_of_inked r h) [] text htext)

/-- Each text matched by a pattern that needs a non-whitespace code unit holds one. -/
theorem matchAllAux_ink (r : Regex) (h : ConsumesInk r) (fuel : Nat) (pre rest : List Nat) :
    ∀ m ∈ matchAllAux r fuel pre rest, ∃ c ∈ m, isSpace c = false := by
  induction fuel generalizing pre rest with
  | zero => intro m hm; simp [matchAllAux] at hm
  | succ n ih =>
    intro m hm
    rw [matchAllAux] at hm
    cases hs : search r pre rest with
    | none => rw [hs] at hm; simp at hm
    | some f =>
      rw [hs] at hm
      simp only [List.mem_cons] at hm
      rcases hm with rfl | hm
      · obtain ⟨a, _, _, h3, _⟩ := search_some hs
        have hmem : f.fin ∈ r.ends ⟨f.pre, f.rest, []⟩ := List.mem_of_mem_head? h3
        obtain ⟨u, h1, c, hc, hcs⟩ := h _ _ hmem
        simp only at h1
        refine ⟨c, ?_, hcs⟩
        unfold Found.whole
        rw [h1, take_append_length_sub]
        exact hc
      · split at hm
        · split at hm
          · simp at hm
          · exact ih _ _ m hm
        · exact ih _ _ m hm

theorem matchAll_ink (r : Regex) (h : r.inked = true) (text : JSString) :
    ∀ m ∈ matchAll r text, ∃ c ∈ m, isSpace c = false :=
  matchAllAux_ink r (consumesInk_of_inked r h) _ _ _

theorem dobPatterns_inked : ∀ p ∈ dobPatterns, p.inked = true := by decide

theorem datePattern_inked : datePattern.inked = true := by decide

theorem namePatterns1_inked : ∀ p ∈ namePatterns1, p.inked = true := by decide

theorem namePattern_inked : namePattern.inked = true := by decide

theorem emailPatterns_inked : ∀ p ∈ emailPatterns, p.inked = true := by decide

theorem phoneWithLabelPatterns_inked : ∀ p ∈ phoneWithLabelPatterns, p.inked = true := by
  decide

theorem phonePatterns_inked : ∀ p ∈ phonePatterns, p.inked = true := by decide

/-! ## Blank text -/

theorem splitAux_all (r : Regex) (P : Nat → Prop) (fuel : Nat) (seg pre rest : List Nat)
    (hseg : ∀ c ∈ seg, P c) (hrest : ∀ c ∈ rest, P c) :
    ∀ s ∈ splitAux r fuel seg pre rest, ∀ c ∈ s, P c := by
  induction fuel generalizing seg pre rest with
  | zero =>
    intro s hs c hc
    rw [splitAux] at hs
    simp only [List.mem_singleton] at hs
    subst hs
    rcases List.mem_append.mp hc with h | h
    · exact hseg c (List.mem_reverse.mp h)
    · exact hrest c h
  | succ n ih =>
    intro s hs c hc
    cases rest with
    | nil =>
      rw [splitAux] at hs
      simp only [List.mem_singleton] at hs
      subst hs
      exact hseg c (List.mem_reverse.mp hc)
    | cons x xs =>
      rw [splitAux] at hs
      have hseg2 : ∀ c ∈ x :: seg, P c := by
        intro c hc
        rcases List.mem_cons.mp hc with rfl | hc
        · exact hrest _ (List.mem_cons_self _ _)
        · exact hseg c hc
      have hxs : ∀ c ∈ xs, P c := fun c hc => hrest c (List.mem_cons_of_mem _ hc)
      cases hm : matchAt r pre (x :: xs) with
      | none =>
        rw [hm] at hs
        exact ih _ _ _ hseg2 hxs s hs c hc
      | some e =>
        rw [hm] at hs
        simp only at hs
        split at hs
        · exact ih _ _ _ hseg2 hxs s hs c hc
        · rcases List.mem_cons.mp hs with rfl | hs
          · exact hseg c (List.mem_reverse.mp hc)
          · obtain ⟨w, hw⟩ := ends_consume r _ e (List.mem_of_mem_head? hm)
            simp only at hw
            refine ih _ _ _ (by simp) ?_ s hs c hc
            intro y hy
            exact hrest y (by rw [hw]; exact List.mem_append_right _ hy)

/-- The pieces of a split hold no code unit that the text does not hold. -/
theorem split_all (r : Regex) (P : Nat → Prop) (text : JSString) (h : ∀ c ∈ text, P c) :
    ∀ s ∈ split r text, ∀ c ∈ s, P c := by
  unfold split
  cases text with
  | nil =>
    simp only
    split
    · simp
    · intro s hs c hc
      simp only [List.mem_singleton] at hs
      subst hs
      simp at hc
  | cons x xs => exact splitAux_all r P _ [] [] (x :: xs) (by simp) h

theorem trim_blank (s : JSString) (h : ∀ c ∈ s, isSpace c = true) : trim s = [] := by
  unfold trim
  have : s.dropWhile isSpace = [] := List.dropWhile_eq_nil_iff.mpr h
  rw [this]
  rfl

/-- A blank text has no non-empty trimmed line. -/
theorem lines_blank (text : JSString) (h : ∀ c ∈ text, isSpace c = true) : lines text = [] := by
  unfold lines
  rw [List.filter_eq_nil_iff]
  intro l hl
  obtain ⟨s, hs, rfl⟩ := List.mem_map.mp hl
  rw [trim_blank s (split_all reLineBreak (fun c => isSpace c = true) text h s hs)]
  simp

theorem emailFromPatterns_nil (ps : List Regex) (text : JSString)
    (h : ∀ p ∈ ps, matchAll p text = []) : emailFromPatterns ps text = [] := by
  induction ps with
  | nil => rfl
  | cons p ps ih =>
    rw [emailFromPatterns, h p (List.mem_cons_self _ _)]
    exact ih fun q hq => h q (List.mem_cons_of_mem _ hq)

theorem contactFromLabelPatterns_nil (ps : List Regex) (text : JSString)
    (h : ∀ p ∈ ps, matchAll p text = []) : contactFromLabelPatterns ps text = [] := by
  induction ps with
  | nil => rfl
  | cons p ps ih =>
    rw [contactFromLabelPatterns, h p (List.mem_cons_self _ _)]
    exact ih fun q hq => h q (List.mem_cons_of_mem _ hq)

theorem contactFromPatterns_nil (ps : List Regex) (text : JSString)
    (h : ∀ p ∈ ps, matchAll p text = []) : contactFromPatterns ps text = [] := by
  induction ps with
  | nil => rfl
  | cons p ps ih =>
    rw [contactFromPatterns, h p (List.mem_cons_self _ _)]
    exact ih fun q hq => h q (List.mem_cons_of_mem _ hq)

/-- C26. Blank text yields empty fields: for every text that is empty or consists only of
white space and line breaks, extractResumeData returns name, email, contactNumber and
dateOfBirth all equal to the empty string. -/
theorem blank_text_empty_fields (text : JSString) (h : ∀ c ∈ text, isSpace c = true) :
    extractResumeData text = ⟨[], [], [], []⟩ ∧
    (extractResumeData text).name = [] ∧ (extractResumeData text).email = [] ∧
    (extractResumeData text).contactNumber = [] ∧ (extractResumeData text).dateOfBirth = [] := by
  have key : extractResumeData text = ⟨[], [], [], []⟩ := by
    cases text with
    | nil => rfl
    | cons x xs =>
      have hname : extractName (x :: xs) = [] := by
        unfold extractName
        rw [lines_blank _ h, nameFromLabels_none namePatterns1 _ fun p hp =>
          search_none_of_blank p (consumesInk_of_inked p (namePatterns1_inked p hp)) [] _ h]
        show nameFromPattern [] (x :: xs) = []
        unfold nameFromPattern jsMatch
        rw [search_none_of_blank namePattern (consumesInk_of_inked _ namePattern_inked) [] _ h]
      have hemail : extractEmail (x :: xs) = [] :=
        emailFromPatterns_nil _ _ fun p hp =>
          matchAll_nil_of_blank p (emailPatterns_inked p hp) _ h
      have hcontact : extractContact (x :: xs) = [] := by
        unfold extractContact
        rw [contactFromLabelPatterns_nil _ _ fun p hp =>
          matchAll_nil_of_blank p (phoneWithLabelPatterns_inked p hp) _ h]
        exact contactFromPatterns_nil _ _ fun p hp =>
          matchAll_nil_of_blank p (phonePatterns_inked p hp) _ h
      have hdob : extractDateOfBirth (x :: xs) = [] := by
        unfold extractDateOfBirth
        rw [dobFromPatterns_nil _ _ fun p hp =>
          matchAll_nil_of_blank p (dobPatterns_inked p hp) _ h,
          matchAll_nil_of_blank datePattern datePattern_inked _ h]
      show (⟨extractName (x :: xs), extractEmail (x :: xs), extractContact (x :: xs),
        extractDateOfBirth (x :: xs)⟩ : ResumeData) = _
      rw [hname, hemail, hcontact, hdob]
  rw [key]
  exact ⟨rfl, rfl, rfl, rfl, rfl⟩

/-- Witness of C26: spaces, a tab and line breaks. -/
theorem blank_text_empty_fields_witness :
    extractResumeData (js " \t\r\n  \n") = ⟨[], [], [], []⟩ :=
  (blank_text_empty_fields (js " \t\r\n  \n") (by decide)).1

/-! ## Contact number shape -/

theorem contactFromMatches_le (ms : List JSString) : (contactFromMatches ms).length ≤ 15 := by
  induction ms with
  | nil => simp [contactFromMatches]
  | cons m ms ih =>
    unfold contactFromMatches
    split
    · rename_i h; exact h.2
    · exact ih

theorem contactFromPatterns_le (ps : List Regex) (text : JSString) :
    (contactFromPatterns ps text).length ≤ 15 := by
  induction ps with
  | nil => simp [contactFromPatterns]
  | cons p ps ih =>
    unfold contactFromPatterns
    have := contactFromMatches_le (matchAll p text)
    split
    · exact ih
    · rename_i c cs heq
      rw [heq] at this
      exact this

/-- C29. Contact number shape: for every text, the contactNumber returned by
extractResumeData is either empty or a string of at least 10 characters each of which is
a decimal digit or a plus sign; and when no label-prefixed candidate was accepted
(standalone fallback), the contactNumber has at most 15 characters. -/
theorem contact_number_shape (text : JSString) :
    ((extractResumeData text).contactNumber = [] ∨
      (10 ≤ (extractResumeData text).contactNumber.length ∧
        ∀ c ∈ (extractResumeData text).contactNumber, isDigit c = true ∨ c = 43)) ∧
    (contactFromLabelPatterns phoneWithLabelPatterns text = [] →
      (extractResumeData text).contactNumber = contactFromPatterns phonePatterns text ∧
      (extractResumeData text).contactNumber.length ≤ 15) := by
  cases text with
  | nil =>
    refine ⟨Or.inl rfl, fun _ => ⟨by decide, by decide⟩⟩
  | cons x xs =>
    refine ⟨extractContact_shape (x :: xs), ?_⟩
    intro h
    have : (extractResumeData (x :: xs)).contactNumber =
        contactFromPatterns phonePatterns (x :: xs) := by
      show extractContact (x :: xs) = _
      unfold extractContact
      rw [h]
    rw [this]
    exact ⟨rfl, contactFromPatterns_le _ _⟩

set_option maxRecDepth 100000 in
/-- Witness of C29: a number without a label, found by the standalone patterns. -/
theorem contact_number_shape_witness :
    (extractResumeData (js "call 98765 43210 now")).contactNumber = js "9876543210" ∧
    (extractResumeData (js "call 98765 43210 now")).contactNumber.length ≤ 15 :=
  ⟨by decide, ((contact_number_shape (js "call 98765 43210 now")).2 (by decide)).2⟩

/-! ## Labelled date of birth with several matches -/

theorem orElseStr_some_ne_nil (m d : JSString) (h : m ≠ []) : orElseStr (some m) d = m := by
  cases m with
  | nil => exact absurd rfl h
  | cons c cs => rfl

/-- The result of the loop over the labelled patterns when the first pattern matches:
the trimmed second match when there is one, else the trimmed first match. -/
theorem dobFromPatterns_first (p : Regex) (ps : List Regex) (text : JSString) (hp : p.inked = true)
    (m0 : JSString) (ms : List JSString) (h : matchAll p text = m0 :: ms) :
    dobFromPatterns (p :: ps) text = trim (ms.head?.getD m0) ∧
      trim (ms.head?.getD m0) ≠ [] := by
  have hink := matchAll_ink p hp text
  have hsel : ∃ c ∈ orElseStr ms.head? m0, isSpace c = false ∧
      orElseStr ms.head? m0 = ms.head?.getD m0 := by
    cases ms with
    | nil =>
      obtain ⟨c, hc, hcs⟩ := hink m0 (by rw [h]; simp)
      exact ⟨c, hc, hcs, rfl⟩
    | cons m1 rest =>
      obtain ⟨c, hc, hcs⟩ := hink m1 (by rw [h]; simp)
      have hne : m1 ≠ [] := List.ne_nil_of_mem hc
      refine ⟨c, ?_, hcs, ?_⟩
      · rw [List.head?_cons, orElseStr_some_ne_nil m1 m0 hne]; exact hc
      · rw [List.head?_cons, orElseStr_some_ne_nil m1 m0 hne]; rfl
  obtain ⟨c, hc, hcs, heq⟩ := hsel
  have hne : trim (orElseStr ms.head? m0) ≠ [] := trim_ne_nil _ ⟨c, hc, hcs⟩
  rw [dobFromPatterns, h]
  simp only
  rw [← heq]
  refine ⟨?_, hne⟩
  cases ht : trim (orElseStr ms.head? m0) with
  | nil => exact absurd ht hne
  | cons x xs => rfl

set_option maxRecDepth 100000 in
/-- C30. Labeled date of birth with several matches: the labeled patterns are global, so
`String.match` returns the list of the whole matches; when the first labeled pattern
matches the text exactly once dateOfBirth is the trimmed whole match (label included),
and when it matches two or more times dateOfBirth is the trimmed text of the second
match in text order, not the first. -/
theorem dob_labelled_several_matches (text : JSString) :
    (∀ m, matchAll (dobPatterns.headD .eps) text = [m] →
      (extractResumeData text).dateOfBirth = trim m ∧ trim m ≠ []) ∧
    (∀ m0 m1 ms, matchAll (dobPatterns.headD .eps) text = m0 :: m1 :: ms →
      (extractResumeData text).dateOfBirth = trim m1 ∧ trim m1 ≠ []) ∧
    (extractResumeData (js "DOB: 15/08/1995")).dateOfBirth = js "DOB: 15/08/1995" ∧
    matchAll (dobPatterns.headD .eps) (js "DOB: 15/08/1995 and born 01.02.1990") =
      [js "DOB: 15/08/1995", js "born 01.02.1990"] ∧
    (extractResumeData (js "DOB: 15/08/1995 and born 01.02.1990")).dateOfBirth =
      js "born 01.02.1990" := by
  have hlist : ∃ ps, dobPatterns = dobPatterns.headD .eps :: ps := ⟨_, rfl⟩
  obtain ⟨ps, hps⟩ := hlist
  have hink : (dobPatterns.headD .eps).inked = true :=
    dobPatterns_inked _ (by rw [hps]; exact List.mem_cons_self _ _)
  have hdob : ∀ m0 ms, matchAll (dobPatterns.headD .eps) text = m0 :: ms →
      (extractResumeData text).dateOfBirth = trim (ms.head?.getD m0) ∧
        trim (ms.head?.getD m0) ≠ [] := by
    intro m0 ms h
    cases text with
    | nil =>
      have hnil : matchAll (dobPatterns.headD .eps) [] = [] := by decide
      rw [hnil] at h
      simp at h
    | cons x xs =>
      obtain ⟨h1, h2⟩ := dobFromPatterns_first _ ps (x :: xs) hink m0 ms h
      refine ⟨?_, h2⟩
      show extractDateOfBirth (x :: xs) = _
      unfold extractDateOfBirth
      rw [hps, h1]
      cases ht : trim (ms.head?.getD m0) with
      | nil => exact absurd ht h2
      | cons y ys => rfl
  refine ⟨?_, ?_, by decide, by decide, by decide⟩
  · intro m h
    exact hdob m [] h
  · intro m0 m1 ms h
    exact hdob m0 (m1 :: ms) h

set_option maxRecDepth 100000 in
/-- Witness of C30: two labelled dates; the second match is returned. -/
theorem dob_labelled_several_matches_witness :
    (extractResumeData (js "DOB: 15/08/1995 and born 01.02.1990")).dateOfBirth =
      trim (js "born 01.02.1990") :=
  ((dob_labelled_several_matches (js "DOB: 15/08/1995 and born 01.02.1990")).2.1
    (js "DOB: 15/08/1995") (js "born 01.02.1990") [] (by decide)).1

/-! ## Line breaks in the name -/

set_option maxRecDepth 100000 in
/-- C28 as stated fails. In `"Mary\nSmith went home"` no label is present and the name is
`"Mary\nSmith"`, which holds a line feed: the white space between the capitalized words
of the last strategy may be a line break. In `"Name:\nJane"` the rest of the label's line
is empty and the name is `"Jane"`, taken from the following line. -/
theorem name_spans_lines :
    (extractResumeData (js "Mary\nSmith went home")).name = js "Mary\nSmith" ∧
    (10 : Nat) ∈ (extractResumeData (js "Mary\nSmith went home")).name ∧
    (extractResumeData (js "Name:\nJane")).name = js "Jane" ∧
    (js "Name:\nJane").takeWhile notNewline = js "Name:" := by
  decide

theorem mem_trim {s : JSString} {c : Nat} (h : c ∈ trim s) : c ∈ s := by
  unfold trim at h
  have h1 := List.mem_reverse.mp h
  have h2 := (List.dropWhile_sublist isSpace).subset h1
  have h3 := List.mem_reverse.mp h2
  exact (List.dropWhile_sublist isSpace).subset h3

/-- C28 amended. Name from a label stays on one line: for every text in which a `name`
label begins the text or follows a line feed and its colon is followed, after optional
white space, by a character that is not white space, the name returned by
extractResumeData is the text from that character up to the next line feed or carriage
return, trimmed; it is not empty and contains no line-break character. The white space
after the colon may run over line breaks, so the name is taken from a following line when
the rest of the label's line is blank. -/
theorem name_label_one_line (text r : JSString) (c : Nat) (cs : List Nat)
    (hfirst : firstLabel text = some r) (hd : r.dropWhile isSpace = c :: cs) :
    (extractResumeData text).name = trim ((c :: cs).takeWhile notNewline) ∧
    (extractResumeData text).name ≠ [] ∧
    (∀ x ∈ (extractResumeData text).name, x ≠ 10 ∧ x ≠ 13) := by
  obtain ⟨f, hf, hcap⟩ := search_label text r c cs hfirst hd
  have hcs : isSpace c = false := by
    have := List.head_dropWhile_not isSpace r (by rw [hd]; simp)
    simpa [hd] using this
  have hcn : notNewline c = true := notNewline_of_not_space hcs
  have htw : (c :: cs).takeWhile notNewline = c :: cs.takeWhile notNewline := by
    rw [List.takeWhile_cons, if_pos hcn]
  have hne : trim ((c :: cs).takeWhile notNewline) ≠ [] :=
    trim_ne_nil _ ⟨c, by rw [htw]; exact List.mem_cons_self _ _, hcs⟩
  have hlabels : nameFromLabels namePatterns1 text = trim ((c :: cs).takeWhile notNewline) := by
    show nameFromLabels (Regex.seq (Regex.alt .bol (Regex.unit '\n')) reLabelTail :: _) text = _
    rw [nameFromLabels, hf]
    simp only [hcap, htw]
  have hname : (extractResumeData text).name = trim ((c :: cs).takeWhile notNewline) := by
    cases text with
    | nil => simp [firstLabel, lineTails, labelAt] at hfirst
    | cons x xs => exact extractName_of_label _ _ hlabels hne
  rw [hname]
  refine ⟨rfl, hne, ?_⟩
  intro x hx
  have h1 := List.mem_takeWhile_imp (mem_trim hx)
  simp only [notNewline, Bool.not_eq_true', Bool.or_eq_false_iff, beq_eq_false_iff_ne, ne_eq]
    at h1
  exact h1

set_option maxRecDepth 100000 in
/-- Witness of C28 amended: the label's line is blank after the colon. -/
theorem name_label_one_line_witness :
    (extractResumeData (js "Name: \n  Jane Doe \nEngineer")).name =
      trim ((js "Jane Doe \nEngineer").takeWhile notNewline) ∧
    (extractResumeData (js "Name: \n  Jane Doe \nEngineer")).name = js "Jane Doe" :=
  ⟨(name_label_one_line (js "Name: \n  Jane Doe \nEngineer") (js " \n  Jane Doe \nEngineer")
      74 (js "ane Doe \nEngineer") (by decide) (by decide)).1, by decide⟩

/-! ## All-capitals first line -/

set_option maxRecDepth 100000 in
/-- C27 as stated fails: the first line `"A B C D E F"` has six tokens, no `name:` label
is present, and strategy 2 returns the line as the name. -/
theorem six_token_first_line_accepted :
    nameFromLabels namePatterns1 (js "A B C D E F\nSoftware Engineer") = [] ∧
    (lines (js "A B C D E F\nSoftware Engineer")).head? = some (js "A B C D E F") ∧
    split reSpaces (js "A B C D E F") = [js "A", js "B", js "C", js "D", js "E", js "F"] ∧
    (extractResumeData (js "A B C D E F\nSoftware Engineer")).name = js "A B C D E F" := by
  decide

/-- A pattern that matches at no position of a text is not found in it. -/
theorem search_eq_none_of_forall (r : Regex) (pre rest : List Nat)
    (h : ∀ a b, rest = a ++ b → matchAt r (a.reverse ++ pre) b = none) :
    search r pre rest = none := by
  induction rest generalizing pre with
  | nil =>
    have h0 := h [] [] rfl
    simp only [List.reverse_nil, List.nil_append] at h0
    rw [search, h0]
    rfl
  | cons c cs ih =>
    have h0 := h [] (c :: cs) rfl
    simp only [List.reverse_nil, List.nil_append] at h0
    rw [search, h0]
    apply ih
    intro a b hab
    have := h (c :: a) b (by rw [hab]; rfl)
    simpa using this

/-- The split pattern `/^([A-Z]{3,})([A-Z]{3,})$/` matches runs of capitals only. -/
theorem jsMatch_splitPattern_none (line : JSString) (h : ∃ c ∈ line, isUpper c = false) :
    jsMatch splitPattern line = none := by
  unfold jsMatch
  apply search_eq_none_of_forall
  intro a b hab
  rw [matchAt_eq_none_iff, List.eq_nil_iff_forall_not_mem]
  intro e he
  change e ∈ (Regex.seq .bol (Regex.seq (.group 1 (.rep isUpper 3 none))
    (Regex.seq (.group 2 (.rep isUpper 3 none)) .eol))).ends _ at he
  rw [ends_seq, List.mem_flatMap] at he
  obtain ⟨s1, hs1, he⟩ := he
  cases a with
  | cons x xs =>
    simp only [List.reverse_cons, List.append_nil] at hs1
    cases hr : xs.reverse ++ [x] with
    | nil => simp at hr
    | cons y ys => rw [hr, ends_bol_cons] at hs1; simp at hs1
  | nil =>
    simp only [List.reverse_nil, List.nil_append, ends_bol_nil, List.mem_singleton] at hs1
    subst hs1
    rw [ends_seq, List.mem_flatMap] at he
    obtain ⟨m1, hm1, he⟩ := he
    rw [ends_group, List.mem_map] at hm1
    obtain ⟨n1, hn1, rfl⟩ := hm1
    obtain ⟨u1, h1, _, _, hu1, _, _⟩ := mem_ends_rep.mp hn1
    rw [ends_seq, List.mem_flatMap] at he
    obtain ⟨m2, hm2, he⟩ := he
    rw [ends_group, List.mem_map] at hm2
    obtain ⟨n2, hn2, rfl⟩ := hm2
    obtain ⟨u2, h2, _, _, hu2, _, _⟩ := mem_ends_rep.mp hn2
    simp only at h1 h2 he
    cases hr : n2.rest with
    | cons y ys => rw [hr, ends_eol_cons] at he; simp at he
    | nil =>
      obtain ⟨c, hc, hcu⟩ := h
      rw [hab, List.nil_append, h1, h2, hr, List.append_nil, List.mem_append] at hc
      rcases hc with hc | hc
      · rw [hu1 c hc] at hcu; simp at hcu
      · rw [hu2 c hc] at hcu; simp at hcu

theorem isUpper_of_isSpace {c : Nat} (h : isSpace c = true) : isUpper c = false := by
  cases hu : isUpper c with
  | false => rfl
  | true => rw [isSpace_of_isUpper hu] at h; simp at h

theorem isLower_of_isSpace {c : Nat} (h : isSpace c = true) : isLower c = false := by
  simp only [isSpace, Bool.or_eq_true, beq_iff_eq, decide_eq_true_eq] at h
  simp only [isLower, decide_eq_false_iff_not]
  omega

/-- Strategy 2 on a first line of capitals and white space that holds white space: the
line is taken whole. -/
theorem nameFromFirstLine_spaced (line : JSString) (rest : List JSString)
    (hclass : ∀ c ∈ line, isUpper c = true ∨ isSpace c = true)
    (hletter : ∃ c ∈ line, isUpper c = true) (hspace : ∃ c ∈ line, isSpace c = true)
    (hlo : 6 ≤ line.length) (hhi : line.length ≤ 29) :
    nameFromFirstLine [] (line :: rest) = line := by
  have hup : line = toUpperCase line := by
    unfold toUpperCase
    conv => lhs; rw [← List.map_id line]
    apply List.map_congr_left
    intro c hc
    rcases hclass c hc with h | h
    · simp [isLower_of_isUpper h]
    · simp [isLower_of_isSpace h]
  have htest : test reUpperOnly (replaceAll (.chr isSpace) [] line) = true := by
    rw [replaceAll_chr]
    apply test_reUpperOnly
    · obtain ⟨c, hc, hu⟩ := hletter
      apply List.ne_nil_of_mem (a := c)
      exact List.mem_filter.mpr ⟨hc, by simp [isSpace_of_isUpper hu]⟩
    · intro c hc
      obtain ⟨hc1, hc2⟩ := List.mem_filter.mp hc
      rcases hclass c hc1 with h | h
      · exact h
      · simp [h] at hc2
  have hsplit : jsMatch splitPattern line = none := by
    obtain ⟨c, hc, hs⟩ := hspace
    exact jsMatch_splitPattern_none line ⟨c, hc, isUpper_of_isSpace hs⟩
  unfold nameFromFirstLine
  simp only
  rw [if_pos ⟨hup, htest⟩, if_pos ⟨by omega, by omega⟩, hsplit]

/-- A text accepted by `/^[A-Z\s]+$/` consists of capitals and white space. -/
theorem test_reUpperSpaceOnly (line : JSString) (h : test reUpperSpaceOnly line = true) :
    ∀ c ∈ line, isUpper c = true ∨ isSpace c = true := by
  unfold test at h
  cases hs : search reUpperSpaceOnly [] line with
  | none => rw [hs] at h; simp at h
  | some f =>
    obtain ⟨a, h1, h2, h3, _⟩ := search_some hs
    have he : f.fin ∈ (Regex.seq .bol (Regex.seq (.rep isUpperSpace 1 none) .eol)).ends
        ⟨f.pre, f.rest, []⟩ := List.mem_of_mem_head? h3
    rw [ends_seq, List.mem_flatMap] at he
    obtain ⟨s1, hs1, he⟩ := he
    cases hp : f.pre with
    | cons y ys => rw [hp, ends_bol_cons] at hs1; simp at hs1
    | nil =>
      rw [hp, ends_bol_nil, List.mem_singleton] at hs1
      subst hs1
      rw [ends_seq, List.mem_flatMap] at he
      obtain ⟨m, hm, he⟩ := he
      obtain ⟨u, hu1, _, _, hu4, _, _⟩ := mem_ends_rep.mp hm
      obtain ⟨mpre, mrest, mcaps⟩ := m
      simp only at hu1 he
      cases hr : mrest with
      | cons y ys => rw [hr, ends_eol_cons] at he; simp at he
      | nil =>
        have ha : a = [] := by
          rw [hp, List.append_nil] at h2
          exact List.reverse_eq_nil_iff.mp h2.symm
        rw [ha, List.nil_append, hu1, hr, List.append_nil] at h1
        intro c hc
        rw [h1] at hc
        have := hu4 c hc
        simpa [isUpperSpace] using this

/-- C27 amended. All-caps first line: strategy 2 accepts a first line that consists of
uppercase letters and white space, with at least one letter, and has 6 to 29 characters,
whatever the number of its tokens; when such a line holds white space it is returned
whole as the name. The requirement of 2 to 4 whitespace-separated tokens belongs to
strategy 2b: for every text with no `name:` label whose first line strategy 2 does not
accept, a name found by strategy 2b is one of the first five lines, consists of uppercase
letters and white space, and has 2 to 4 whitespace-separated tokens. -/
theorem caps_first_line_any_tokens (text : JSString)
    (hlabel : nameFromLabels namePatterns1 text = []) :
    (∀ line rest, lines text = line :: rest →
      (∀ c ∈ line, isUpper c = true ∨ isSpace c = true) →
      (∃ c ∈ line, isUpper c = true) → (∃ c ∈ line, isSpace c = true) →
      6 ≤ line.length → line.length ≤ 29 →
      (extractResumeData text).name = line) ∧
    (nameFromFirstLine [] (lines text) = [] →
      ∀ line, nameFromCapsLines [] (lines text) = line → line ≠ [] →
        (extractResumeData text).name = line ∧ line ∈ (lines text).take 5 ∧
        (∀ c ∈ line, isUpper c = true ∨ isSpace c = true) ∧
        2 ≤ (split reSpaces line).length ∧ (split reSpaces line).length ≤ 4) := by
  have hname : (lines text ≠ []) → (extractResumeData text).name = extractName text := by
    intro hl
    cases text with
    | nil => exact absurd lines_nil hl
    | cons x xs => rfl
  constructor
  · intro line rest hlines hclass hletter hspace hlo hhi
    rw [hname (by rw [hlines]; simp)]
    unfold extractName
    rw [hlabel, hlines, nameFromFirstLine_spaced line rest hclass hletter hspace hlo hhi]
    obtain ⟨c, hc, _⟩ := hletter
    exact later_strategies_keep line _ _ (List.ne_nil_of_mem hc)
  · intro hfirst line hcaps hne
    have hfind : ((lines text).take 5).find? isAllCapsWords = some line := by
      unfold nameFromCapsLines at hcaps
      simp only at hcaps
      cases hf : ((lines text).take 5).find? isAllCapsWords with
      | none => rw [hf] at hcaps; exact absurd hcaps.symm hne
      | some l => rw [hf] at hcaps; simp at hcaps; rw [hcaps]
    have hmem : line ∈ (lines text).take 5 := List.mem_of_find?_eq_some hfind
    have hprop : isAllCapsWords line = true := List.find?_some hfind
    unfold isAllCapsWords at hprop
    simp only [Bool.and_eq_true, decide_eq_true_eq] at hprop
    refine ⟨?_, hmem, test_reUpperSpaceOnly line hprop.2.2, hprop.2.1.1, hprop.2.1.2⟩
    rw [hname (by intro h0; rw [h0] at hmem; simp at hmem)]
    unfold extractName
    rw [hlabel, hfirst, hcaps]
    cases line with
    | nil => exact absurd rfl hne
    | cons c cs => rfl

set_option maxRecDepth 100000 in
/-- Witness of C27 amended: a first line of six one-letter tokens. -/
theorem caps_first_line_any_tokens_witness :
    (extractResumeData (js "A B C D E F\nSoftware Engineer")).name = js "A B C D E F" :=
  (caps_first_line_any_tokens (js "A B C D E F\nSoftware Engineer") (by decide)).1
    (js "A B C D E F") [js "Software Engineer"] (by decide) (by decide) (by decide) (by decide)
    (by decide) (by decide)

/-! ## Body normalization -/

theorem length_le_takeWhile (p : Nat → Bool) (u t : List Nat) (h : ∀ c ∈ u, p c = true) :
    u.length ≤ ((u ++ t).takeWhile p).length := by
  induction u with
  | nil => simp
  | cons x xs ih =>
    rw [List.cons_append, List.takeWhile_cons, if_pos (h x (List.mem_cons_self _ _))]
    simp only [List.length_cons]
    have := ih fun c hc => h c (List.mem_cons_of_mem _ hc)
    omega

/-- The match of `/\n{3,}/` at a position: the whole run of newline characters there,
when it has three or more. -/
theorem matchAt_reBlankLines (pre rest : List Nat) :
    matchAt reBlankLines pre rest =
      if 3 ≤ (rest.takeWhile (· == 10)).length then
        some ⟨(rest.takeWhile (· == 10)).reverse ++ pre, rest.dropWhile (· == 10), []⟩
      else none := by
  unfold matchAt reBlankLines
  rw [ends_rep]
  split
  · rename_i h
    exact repEnds_head _ [] 3 pre rest h
  · rename_i h
    rw [List.head?_eq_none_iff, List.eq_nil_iff_forall_not_mem]
    intro e he
    obtain ⟨u, h1, _, _, h4, h5, _⟩ := mem_repEnds he
    have := length_le_takeWhile (· == 10) u e.rest h4
    rw [← h1] at this
    simp only at this
    omega

/-- A replacement passes over a position where the pattern does not match. -/
theorem replaceAllAux_skip (r : Regex) (repl : JSString) (fuel : Nat) (pre : List Nat) (c : Nat)
    (cs : List Nat) (h : matchAt r pre (c :: cs) = none) :
    replaceAllAux r repl (fuel + 1) pre (c :: cs) =
      c :: replaceAllAux r repl (fuel + 1) (c :: pre) cs := by
  rw [replaceAllAux, replaceAllAux, search, h]
  simp only
  cases hs : search r (c :: pre) cs with
  | none => rfl
  | some f =>
    simp only
    obtain ⟨a, h1, _⟩ := search_some hs
    have hl : cs.length = a.length + f.rest.length := by
      rw [h1]; simp
    have : (c :: cs).length - f.rest.length = (cs.length - f.rest.length) + 1 := by
      simp only [List.length_cons]; omega
    rw [this, List.take_succ_cons]
    rfl

theorem squeezeNewlines_nl_lt (k : Nat) (cs : List Nat) (h : k < 2) :
    squeezeNewlines k (10 :: cs) = 10 :: squeezeNewlines (k + 1) cs := by
  rw [squeezeNewlines, if_pos rfl, if_pos h]

theorem squeezeNewlines_nl_ge (k : Nat) (cs : List Nat) (h : ¬ k < 2) :
    squeezeNewlines k (10 :: cs) = squeezeNewlines k cs := by
  rw [squeezeNewlines, if_pos rfl, if_neg h]

theorem squeezeNewlines_other (k c : Nat) (cs : List Nat) (h : c ≠ 10) :
    squeezeNewlines k (c :: cs) = c :: squeezeNewlines 0 cs := by
  rw [squeezeNewlines, if_neg h]

theorem squeezeNewlines_of_lead (k : Nat) (l : List Nat)
    (h : k + (l.takeWhile (· == 10)).length ≤ 2) :
    squeezeNewlines k l = squeezeNewlines 0 l := by
  induction l generalizing k with
  | nil => rfl
  | cons c cs ih =>
    by_cases hc : c = 10
    · subst hc
      simp only [List.takeWhile_cons, beq_self_eq_true, if_true, List.length_cons] at h
      rw [squeezeNewlines_nl_lt k cs (by omega), squeezeNewlines_nl_lt 0 cs (by omega),
        ih (k + 1) (by omega), ih (0 + 1) (by omega)]
    · rw [squeezeNewlines_other k c cs hc, squeezeNewlines_other 0 c cs hc]

theorem squeezeNewlines_two (l : List Nat) :
    squeezeNewlines 2 l = squeezeNewlines 0 (l.dropWhile (· == 10)) := by
  induction l with
  | nil => rfl
  | cons c cs ih =>
    by_cases hc : c = 10
    · subst hc
      rw [squeezeNewlines_nl_ge 2 cs (by omega), ih]
      simp [List.dropWhile_cons]
    · have hd : (c :: cs).dropWhile (· == 10) = c :: cs := by
        simp [List.dropWhile_cons, hc]
      rw [hd, squeezeNewlines_other 2 c cs hc, squeezeNewlines_other 0 c cs hc]

theorem squeezeNewlines_run (l : List Nat) (h : 3 ≤ (l.takeWhile (· == 10)).length) :
    squeezeNewlines 0 l = 10 :: 10 :: squeezeNewlines 0 (l.dropWhile (· == 10)) := by
  match l, h with
  | a :: b :: c :: t, h =>
    by_cases ha : a = 10
    · by_cases hb : b = 10
      · by_cases hc : c = 10
        · subst ha hb hc
          rw [squeezeNewlines_nl_lt 0 _ (by omega), squeezeNewlines_nl_lt (0 + 1) _ (by omega),
            squeezeNewlines_nl_ge (0 + 1 + 1) _ (by omega), squeezeNewlines_two]
          simp [List.dropWhile_cons]
        · simp [List.takeWhile_cons, ha, hb, hc] at h
      · simp [List.takeWhile_cons, ha, hb] at h
    · simp [List.takeWhile_cons, ha] at h
  | [], h => simp at h
  | [a], h =>
    have := (List.takeWhile_prefix (· == 10) (l := [a])).length_le
    simp only [List.length_singleton] at this
    omega
  | [a, b], h =>
    have := (List.takeWhile_prefix (· == 10) (l := [a, b])).length_le
    simp only [List.length_cons, List.length_nil] at this
    omega

theorem replaceAllAux_reBlankLines (n : Nat) :
    ∀ (rest pre : List Nat) (fuel : Nat), rest.length = n → n < fuel →
      replaceAllAux reBlankLines (js "\n\n") fuel pre rest = squeezeNewlines 0 rest := by
  induction n using Nat.strong_induction_on with
  | _ n ih =>
    intro rest pre fuel hn hfuel
    obtain ⟨fuel, rfl⟩ : ∃ k, fuel = k + 1 := ⟨fuel - 1, by omega⟩
    cases rest with
    | nil =>
      rw [replaceAllAux, search, matchAt_reBlankLines]
      rfl
    | cons c cs =>
      by_cases hrun : 3 ≤ ((c :: cs).takeWhile (· == 10)).length
      · have hm : matchAt reBlankLines pre (c :: cs) =
            some ⟨((c :: cs).takeWhile (· == 10)).reverse ++ pre,
              (c :: cs).dropWhile (· == 10), []⟩ := by
          rw [matchAt_reBlankLines, if_pos hrun]
        have hlen : ((c :: cs).dropWhile (· == 10)).length + 3 ≤ (c :: cs).length := by
          have := congrArg List.length (List.takeWhile_append_dropWhile (· == 10) (c :: cs))
          simp only [List.length_append] at this
          omega
        rw [replaceAllAux, search_cons_of_matchAt hm]
        simp only
        rw [if_neg (by omega), Nat.sub_self, List.take_zero, List.nil_append,
          ih _ (by omega) _ _ fuel rfl (by omega), squeezeNewlines_run _ hrun]
        rfl
      · have hm : matchAt reBlankLines pre (c :: cs) = none := by
          rw [matchAt_reBlankLines, if_neg hrun]
        rw [replaceAllAux_skip _ _ _ _ _ _ hm,
          ih cs.length (by rw [← hn]; simp) cs _ (fuel + 1) rfl (by simp at hn; omega)]
        by_cases hc : c = 10
        · subst hc
          simp only [List.takeWhile_cons, beq_self_eq_true, if_true, List.length_cons] at hrun
          rw [squeezeNewlines_nl_lt 0 cs (by omega),
            squeezeNewlines_of_lead (0 + 1) cs (by omega)]
        · rw [squeezeNewlines_other 0 c cs hc]

/-- The clean-up `replace(/\n{3,}/g, '\n\n')` is the collapse the specification
describes. -/
theorem replaceAll_reBlankLines (s : JSString) :
    replaceAll reBlankLines (js "\n\n") s = squeezeNewlines 0 s :=
  replaceAllAux_reBlankLines s.length s [] _ rfl (by omega)

theorem squeezeNewlines_sublist (k : Nat) (s : JSString) :
    List.Sublist (squeezeNewlines k s) s := by
  induction s generalizing k with
  | nil => exact List.Sublist.slnil
  | cons c cs ih =>
    rw [squeezeNewlines]
    split
    · rename_i hc
      subst hc
      split
      · exact (ih _).cons₂ _
      · exact (ih _).cons _
    · exact (ih _).cons₂ _

/-- The collapsed text starts with fewer than `3 - k` newline characters and holds no run
of three. -/
theorem squeezeNewlines_runs (k : Nat) (s : JSString) (hk : k ≤ 2) :
    (∀ j, 3 ≤ k + j → ¬ List.IsPrefix (List.replicate j 10) (squeezeNewlines k s)) ∧
    ¬ List.IsInfix [10, 10, 10] (squeezeNewlines k s) := by
  induction s generalizing k with
  | nil =>
    constructor
    · intro j hj hp
      obtain ⟨i, rfl⟩ : ∃ i, j = i + 1 := ⟨j - 1, by omega⟩
      simp [squeezeNewlines, List.replicate_succ] at hp
    · intro hi
      simp [squeezeNewlines] at hi
  | cons c cs ih =>
    rw [squeezeNewlines]
    by_cases hc : c = 10
    · subst hc
      rw [if_pos rfl]
      by_cases hk2 : k < 2
      · rw [if_pos hk2]
        obtain ⟨ihp, ihi⟩ := ih (k + 1) (by omega)
        constructor
        · intro j hj hp
          obtain ⟨i, rfl⟩ : ∃ i, j = i + 1 := ⟨j - 1, by omega⟩
          rw [List.replicate_succ, List.cons_prefix_cons] at hp
          exact ihp i (by omega) hp.2
        · intro hi
          rcases List.infix_cons_iff.mp hi with hp | hi
          · rw [List.cons_prefix_cons] at hp
            exact ihp 2 (by omega) hp.2
          · exact ihi hi
      · rw [if_neg hk2]
        have : k = 2 := by omega
        subst this
        exact ih 2 (by omega)
    · rw [if_neg hc]
      obtain ⟨ihp, ihi⟩ := ih 0 (by omega)
      constructor
      · intro j hj hp
        obtain ⟨i, rfl⟩ : ∃ i, j = i + 1 := ⟨j - 1, by omega⟩
        rw [List.replicate_succ, List.cons_prefix_cons] at hp
        exact hc hp.1.symm
      · intro hi
        rcases List.infix_cons_iff.mp hi with hp | hi
        · rw [List.cons_prefix_cons] at hp
          exact hc hp.1.symm
        · exact ihi hi

theorem trim_prefix_dropWhile (s : JSString) : List.IsPrefix (trim s) (s.dropWhile isSpace) := by
  unfold trim
  obtain ⟨a, ha⟩ := List.dropWhile_suffix isSpace (l := (s.dropWhile isSpace).reverse)
  refine ⟨a.reverse, ?_⟩
  have := congrArg List.reverse ha
  simp only [List.reverse_append, List.reverse_reverse] at this
  exact this

theorem trim_infix (s : JSString) : List.IsInfix (trim s) s :=
  (trim_prefix_dropWhile s).isInfix.trans (List.dropWhile_suffix isSpace).isInfix

/-- A trimmed text does not start with white space. -/
theorem trim_head (s : JSString) (c : Nat) (h : (trim s).head? = some c) : isSpace c = false := by
  obtain ⟨a, ha⟩ := trim_prefix_dropWhile s
  cases ht : trim s with
  | nil => rw [ht] at h; simp at h
  | cons x xs =>
    rw [ht] at h ha
    simp only [List.head?_cons, Option.some.injEq] at h
    subst h
    have hne : s.dropWhile isSpace ≠ [] := by rw [← ha]; simp
    have := List.head_dropWhile_not isSpace s hne
    simp only [← ha, List.cons_append, List.head_cons] at this
    simpa using this

/-- A trimmed text does not end with white space. -/
theorem trim_getLast (s : JSString) (c : Nat) (h : (trim s).getLast? = some c) :
    isSpace c = false := by
  unfold trim at h
  rw [List.getLast?_reverse] at h
  cases hd : (s.dropWhile isSpace).reverse.dropWhile isSpace with
  | nil => rw [hd] at h; simp at h
  | cons x xs =>
    rw [hd] at h
    simp only [List.head?_cons, Option.some.injEq] at h
    subst h
    have := List.head_dropWhile_not isSpace (s.dropWhile isSpace).reverse (by rw [hd]; simp)
    simp only [hd, List.head_cons] at this
    simpa using this

theorem bodyText_eq (parsed : Parsed) : bodyText parsed = specBody parsed := by
  unfold bodyText specBody selectedBody
  simp only [replaceAll_reBlankLines]

set_option maxRecDepth 100000 in
/-- C24. Body normalization: for every decoded message, the stored body text is the
selected body with each run of three or more newline characters replaced by exactly two,
trimmed, or the placeholder "(No content)" when nothing is left; it is non-empty, has no
leading or trailing white space, and contains no run of three or more consecutive newline
characters; when the selected body is empty or blank the body is the placeholder. -/
theorem body_normalization (parsed : Parsed) :
    bodyText parsed = specBody parsed ∧
    bodyText parsed ≠ [] ∧
    (∀ c, (bodyText parsed).head? = some c → isSpace c = false) ∧
    (∀ c, (bodyText parsed).getLast? = some c → isSpace c = false) ∧
    ¬ List.IsInfix [10, 10, 10] (bodyText parsed) ∧
    ((∀ c ∈ selectedBody parsed, isSpace c = true) → bodyText parsed = js "(No content)") := by
  refine ⟨bodyText_eq parsed, ?_⟩
  rw [bodyText_eq]
  unfold specBody
  cases ht : trim (squeezeNewlines 0 (selectedBody parsed)) with
  | nil =>
    simp only
    refine ⟨by decide, ?_, ?_, by decide, fun _ => trivial⟩
    · intro c hc
      have : c = 40 := by
        have h : (js "(No content)").head? = some 40 := by decide
        rw [h] at hc
        exact (Option.some.inj hc).symm
      subst this
      decide
    · intro c hc
      have : c = 41 := by
        have h : (js "(No content)").getLast? = some 41 := by decide
        rw [h] at hc
        exact (Option.some.inj hc).symm
      subst this
      decide
  | cons x xs =>
    simp only
    refine ⟨by simp, ?_, ?_, ?_, ?_⟩
    · intro c hc
      exact trim_head _ c (by rw [ht]; exact hc)
    · intro c hc
      exact trim_getLast _ c (by rw [ht]; exact hc)
    · intro hi
      have h1 : List.IsInfix [10, 10, 10] (squeezeNewlines 0 (selectedBody parsed)) := by
        have := trim_infix (squeezeNewlines 0 (selectedBody parsed))
        rw [ht] at this
        exact hi.trans this
      exact (squeezeNewlines_runs 0 _ (by omega)).2 h1
    · intro hblank
      have : trim (squeezeNewlines 0 (selectedBody parsed)) = [] :=
        trim_blank _ fun c hc => hblank c ((squeezeNewlines_sublist 0 _).subset hc)
      rw [this] at ht
      simp at ht

set_option maxRecDepth 100000 in
/-- Witness of C24: a body with a run of four newline characters and a blank body. -/
theorem body_normalization_witness :
    bodyText { plainParsed with text := some (js "  Hi\n\n\n\nthere \n") } = js "Hi\n\nthere" ∧
    bodyText { plainParsed with text := some (js " \n\n\n ") } = js "(No content)" :=
  ⟨by decide,
    (body_normalization { plainParsed with text := some (js " \n\n\n ") }).2.2.2.2.2
      (by decide)⟩

/-! ## The capitalized-words pattern -/

theorem namePattern_eq :
    namePattern = .seq .bolM (.group 1 (.seq (.chr isUpper) (.seq (.rep isLower 1 none)
      (.seq (.rep isSpace 1 none) (.seq (.chr isUpper) (.seq (.rep isLower 1 none)
        (.opt reThirdWord))))))) := rfl

theorem ends_bolM (s : MState) :
    Regex.bolM.ends s =
      match s.pre with
      | [] => [s]
      | c :: _ => if isLineTerminator c then [s] else [] := by rw [Regex.ends]

theorem mem_ends_bolM {s e : MState} : e ∈ Regex.bolM.ends s ↔ e = s ∧ LineStart s.pre := by
  rw [ends_bolM]
  unfold LineStart
  cases s.pre with
  | nil => simp
  | cons c cs =>
    simp only
    by_cases h : isLineTerminator c = true
    · simp [h]
    · simp [h]

theorem mem_ends_opt {r : Regex} {s e : MState} :
    e ∈ (Regex.opt r).ends s ↔ (e ∈ r.ends s ∧ e.rest.length ≠ s.rest.length) ∨ e = s := by
  rw [ends_opt]
  simp [List.mem_append, List.mem_filter]

/-- The core of the name pattern: the two words, then the optional third. -/
theorem ends_nameCore (s : MState) :
    (Regex.seq (.chr isUpper) (.seq (.rep isLower 1 none)
      (.seq (.rep isSpace 1 none) (.seq (.chr isUpper) (.seq (.rep isLower 1 none)
        (.opt reThirdWord)))))).ends s =
      (reTwoWords.ends s).flatMap (Regex.opt reThirdWord).ends := by
  have hfun : ∀ a b : Regex, (Regex.seq a b).ends = fun s => (a.ends s).flatMap b.ends :=
    fun a b => funext (ends_seq a b)
  unfold reTwoWords
  simp only [ends_seq, hfun, List.flatMap_assoc]

theorem lang_rep (p : Nat → Bool) (lo : Nat) (hi : Option Nat) (w : List Nat) :
    (Regex.rep p lo hi).lang w ↔
      (∀ c ∈ w, p c = true) ∧ lo ≤ w.length ∧ ∀ n, hi = some n → w.length ≤ n := by
  rw [Regex.lang]

theorem lang_capWord (w : List Nat) :
    (Regex.seq (.chr isUpper) (.rep isLower 1 none)).lang w ↔ IsCapWord w := by
  rw [lang_seq]
  simp only [lang_chr, lang_rep]
  unfold IsCapWord
  constructor
  · rintro ⟨u, v, rfl, ⟨c, rfl, hc⟩, hv, hl, _⟩
    exact ⟨c, v, rfl, hc, by intro h0; rw [h0] at hl; simp at hl, hv⟩
  · rintro ⟨c, l, rfl, hc, hne, hl⟩
    refine ⟨[c], l, rfl, ⟨c, rfl, hc⟩, hl, ?_, by simp⟩
    cases l with
    | nil => exact absurd rfl hne
    | cons x xs => simp

theorem lang_gap (w : List Nat) : (Regex.rep isSpace 1 none).lang w ↔ IsGap w := by
  rw [lang_rep]
  unfold IsGap
  constructor
  · rintro ⟨h1, h2, _⟩
    exact ⟨by intro h0; rw [h0] at h2; simp at h2, h1⟩
  · rintro ⟨h1, h2⟩
    refine ⟨h2, ?_, by simp⟩
    cases w with
    | nil => exact absurd rfl h1
    | cons x xs => simp

theorem lang_reThirdWord (w : List Nat) :
    reThirdWord.lang w ↔ ∃ s2 w3, w = s2 ++ w3 ∧ IsGap s2 ∧ IsCapWord w3 := by
  unfold reThirdWord
  rw [lang_seq]
  simp only [lang_gap, lang_capWord]

theorem lang_reTwoWords (w : List Nat) :
    reTwoWords.lang w ↔
      ∃ w1 s1 w2, w = w1 ++ (s1 ++ w2) ∧ IsCapWord w1 ∧ IsGap s1 ∧ IsCapWord w2 := by
  have hassoc : ∀ (a b c : Regex) (w : List Nat),
      (Regex.seq a (.seq b c)).lang w ↔ (Regex.seq (.seq a b) c).lang w := by
    intro a b c w
    simp only [lang_seq]
    constructor
    · rintro ⟨u, v, rfl, hu, x, y, rfl, hx, hy⟩
      exact ⟨u ++ x, y, by simp, ⟨u, x, rfl, hu, hx⟩, hy⟩
    · rintro ⟨u, v, rfl, ⟨x, y, rfl, hx, hy⟩, hv⟩
      exact ⟨x, y ++ v, by simp, hx, y, v, rfl, hy, hv⟩
  unfold reTwoWords
  rw [hassoc, lang_seq]
  simp only [lang_capWord]
  constructor
  · rintro ⟨w1, v, rfl, h1, hv⟩
    rw [lang_seq] at hv
    obtain ⟨s1, w2, rfl, hs, h2⟩ := hv
    exact ⟨w1, s1, w2, rfl, h1, (lang_gap s1).mp hs, (lang_capWord w2).mp h2⟩
  · rintro ⟨w1, s1, w2, rfl, h1, hs, h2⟩
    refine ⟨w1, s1 ++ w2, rfl, h1, ?_⟩
    rw [lang_seq]
    exact ⟨s1, w2, rfl, (lang_gap s1).mpr hs, (lang_capWord w2).mpr h2⟩

theorem isCapWord_ne_nil {w : JSString} (h : IsCapWord w) : w ≠ [] := by
  obtain ⟨c, l, rfl, _⟩ := h
  simp

/-- The end states of the core of the name pattern: the capitalized names that start at
the position. -/
theorem mem_nameCore_sound {s e : MState}
    (h : e ∈ (reTwoWords.ends s).flatMap (Regex.opt reThirdWord).ends) :
    ∃ w, IsCapName w ∧ s.rest = w ++ e.rest := by
  rw [List.mem_flatMap] at h
  obtain ⟨m, hm, he⟩ := h
  obtain ⟨u, hu, h1, _⟩ := (mem_ends_plain reTwoWords rfl s m.pre m.rest).mp ⟨m, hm, rfl, rfl⟩
  obtain ⟨w1, s1, w2, rfl, hw1, hs1, hw2⟩ := (lang_reTwoWords u).mp hu
  rcases mem_ends_opt.mp he with ⟨he, _⟩ | rfl
  · obtain ⟨v, hv, h2, _⟩ := (mem_ends_plain reThirdWord rfl m e.pre e.rest).mp ⟨e, he, rfl, rfl⟩
    obtain ⟨s2, w3, rfl, hs2, hw3⟩ := (lang_reThirdWord v).mp hv
    exact ⟨_, ⟨w1, s1, w2, hw1, hs1, hw2, Or.inr ⟨s2, w3, hs2, hw3, rfl⟩⟩,
      by rw [h1, h2]; simp only [List.append_assoc]⟩
  · exact ⟨_, ⟨w1, s1, w2, hw1, hs1, hw2, Or.inl rfl⟩, h1⟩

theorem mem_nameCore_complete {s : MState} {w b : List Nat} (hw : IsCapName w)
    (hs : s.rest = w ++ b) :
    ∃ e ∈ (reTwoWords.ends s).flatMap (Regex.opt reThirdWord).ends, e.rest = b := by
  obtain ⟨w1, s1, w2, hw1, hs1, hw2, hcase⟩ := hw
  rcases hcase with rfl | ⟨s2, w3, hs2, hw3, rfl⟩
  · obtain ⟨m, hm, _, hm2⟩ := (mem_ends_plain reTwoWords rfl s ((w1 ++ (s1 ++ w2)).reverse ++ s.pre)
      b).mpr ⟨_, (lang_reTwoWords _).mpr ⟨w1, s1, w2, rfl, hw1, hs1, hw2⟩, hs, rfl⟩
    exact ⟨m, List.mem_flatMap.mpr ⟨m, hm, mem_ends_opt.mpr (Or.inr rfl)⟩, hm2⟩
  · obtain ⟨m, hm, _, hm2⟩ := (mem_ends_plain reTwoWords rfl s ((w1 ++ (s1 ++ w2)).reverse ++ s.pre)
      ((s2 ++ w3) ++ b)).mpr ⟨_, (lang_reTwoWords _).mpr ⟨w1, s1, w2, rfl, hw1, hs1, hw2⟩,
        by rw [hs, List.append_assoc], rfl⟩
    obtain ⟨e, he, _, he2⟩ := (mem_ends_plain reThirdWord rfl m ((s2 ++ w3).reverse ++ m.pre)
      b).mpr ⟨_, (lang_reThirdWord _).mpr ⟨s2, w3, rfl, hs2, hw3⟩, hm2, rfl⟩
    refine ⟨e, List.mem_flatMap.mpr ⟨m, hm, mem_ends_opt.mpr (Or.inl ⟨he, ?_⟩)⟩, he2⟩
    rw [he2, hm2]
    have := isCapWord_ne_nil hw3
    have hl : 0 < w3.length := List.length_pos.mpr this
    simp only [List.length_append]
    omega

/-! ### Order of the end states -/

theorem ends_rep_nil_of_head (p : Nat → Bool) (lo : Nat) (hi : Option Nat) (m : MState)
    (hlo : 1 ≤ lo) (h : ∀ c cs, m.rest = c :: cs → p c = false) :
    (Regex.rep p lo hi).ends m = [] := by
  rw [List.eq_nil_iff_forall_not_mem]
  intro e he
  obtain ⟨u, h1, _, _, h4, h5, _⟩ := mem_ends_rep.mp he
  cases u with
  | nil => simp at h5; omega
  | cons x xs =>
    have := h x (xs ++ e.rest) h1
    rw [h4 x (List.mem_cons_self _ _)] at this
    simp at this

theorem ends_chr_nil_of_head (p : Nat → Bool) (m : MState)
    (h : ∀ c cs, m.rest = c :: cs → p c = false) : (Regex.chr p).ends m = [] := by
  rw [List.eq_nil_iff_forall_not_mem]
  intro e he
  obtain ⟨c, cs, h1, h2, _⟩ := mem_ends_chr.mp he
  rw [h c cs h1] at h2
  simp at h2

theorem pairwise_rep (p : Nat → Bool) (lo : Nat) (hi : Option Nat) (s : MState) :
    List.Pairwise Longer ((Regex.rep p lo hi).ends s) := by
  rw [ends_rep]
  refine (repEnds_pairwise p s.caps lo hi s.pre s.rest).imp ?_
  rintro x y ⟨v, hv, h, _⟩
  unfold Longer
  rw [h, List.length_append]
  have := List.length_pos.mpr hv
  omega

/-- A repetition followed by a continuation that cannot start on a code unit of the
class: the end states come longest first. -/
theorem pairwise_rep_flatMap_fail (p : Nat → Bool) (lo : Nat) (hi : Option Nat) (s : MState)
    (F : MState → List MState) (hF : ∀ m, List.Pairwise Longer (F m))
    (hfail : ∀ m : MState, (∃ c cs, m.rest = c :: cs ∧ p c = true) → F m = []) :
    List.Pairwise Longer (((Regex.rep p lo hi).ends s).flatMap F) := by
  rw [List.pairwise_flatMap]
  refine ⟨fun a _ => hF a, ?_⟩
  rw [ends_rep]
  refine (repEnds_pairwise p s.caps lo hi s.pre s.rest).imp ?_
  rintro a1 a2 ⟨v, hv, h, hl⟩ x _ y hy
  exfalso
  cases v with
  | nil => exact absurd rfl hv
  | cons v0 vs =>
    rw [hfail a2 ⟨v0, vs ++ a1.rest, h, hl v0 (List.mem_cons_self _ _)⟩] at hy
    simp at hy

/-- A repetition followed by an optional group that cannot start on a code unit of the
class: the end states come longest first. -/
theorem pairwise_rep_flatMap_opt (p : Nat → Bool) (lo : Nat) (hi : Option Nat) (s : MState)
    (r : Regex) (hr : ∀ m, List.Pairwise Longer (r.ends m))
    (hfail : ∀ m : MState, (∃ c cs, m.rest = c :: cs ∧ p c = true) → r.ends m = []) :
    List.Pairwise Longer (((Regex.rep p lo hi).ends s).flatMap (Regex.opt r).ends) := by
  rw [List.pairwise_flatMap]
  constructor
  · intro a _
    rw [ends_opt, List.pairwise_append]
    refine ⟨(hr a).filter _, List.pairwise_singleton _ _, ?_⟩
    intro x hx y hy
    rw [List.mem_singleton] at hy
    subst hy
    obtain ⟨hx1, hx2⟩ := List.mem_filter.mp hx
    obtain ⟨w, hw⟩ := ends_consume r _ x hx1
    unfold Longer
    have := congrArg List.length hw
    simp only [List.length_append] at this
    simp only [bne_iff_ne, ne_eq] at hx2
    omega
  · rw [ends_rep]
    refine (repEnds_pairwise p s.caps lo hi s.pre s.rest).imp ?_
    rintro a1 a2 ⟨v, hv, h, hl⟩ x hx y hy
    cases v with
    | nil => exact absurd rfl hv
    | cons v0 vs =>
      have hy2 : y = a2 := by
        rcases mem_ends_opt.mp hy with ⟨hy1, _⟩ | hy1
        · rw [hfail a2 ⟨v0, vs ++ a1.rest, h, hl v0 (List.mem_cons_self _ _)⟩] at hy1
          simp at hy1
        · exact hy1
      obtain ⟨w, hw⟩ := ends_consume (Regex.opt r) _ x hx
      unfold Longer
      rw [hy2, h]
      have := congrArg List.length hw
      simp only [List.length_append, List.length_cons] at this ⊢
      omega

theorem isSpace_of_isLower {c : Nat} (h : isLower c = true) : isSpace c = false := by
  simp only [isLower, decide_eq_true_eq] at h
  simp only [isSpace, Bool.or_eq_false_iff, beq_eq_false_iff_ne, decide_eq_false_iff_not]
  omega

theorem pairwise_capWord (m : MState) :
    List.Pairwise Longer ((Regex.seq (.chr isUpper) (.rep isLower 1 none)).ends m) := by
  rw [ends_seq]
  exact pairwise_chr_flatMap _ _ _ (pairwise_rep isLower 1 none)

theorem capWord_fail_of_space (m : MState) (h : ∃ c cs, m.rest = c :: cs ∧ isSpace c = true) :
    (Regex.seq (.chr isUpper) (.rep isLower 1 none)).ends m = [] := by
  obtain ⟨c, cs, h1, h2⟩ := h
  rw [ends_seq, ends_chr_nil_of_head isUpper m]
  · rfl
  · intro c2 cs2 h3
    rw [h1] at h3
    simp only [List.cons.injEq] at h3
    rw [← h3.1]
    exact isUpper_of_isSpace h2

theorem pairwise_reThirdWord (m : MState) : List.Pairwise Longer (reThirdWord.ends m) := by
  unfold reThirdWord
  rw [ends_seq]
  exact pairwise_rep_flatMap_fail isSpace 1 none m _ pairwise_capWord capWord_fail_of_space

theorem reThirdWord_fail_of_lower (m : MState)
    (h : ∃ c cs, m.rest = c :: cs ∧ isLower c = true) : reThirdWord.ends m = [] := by
  obtain ⟨c, cs, h1, h2⟩ := h
  unfold reThirdWord
  rw [ends_seq, ends_rep_nil_of_head isSpace 1 none m (by omega)]
  · rfl
  · intro c2 cs2 h3
    rw [h1] at h3
    simp only [List.cons.injEq] at h3
    rw [← h3.1]
    exact isSpace_of_isLower h2

/-- The end states of the core of the name pattern come longest first. -/
theorem pairwise_nameCore (s : MState) :
    List.Pairwise Longer ((Regex.seq (.chr isUpper) (.seq (.rep isLower 1 none)
      (.seq (.rep isSpace 1 none) (.seq (.chr isUpper) (.seq (.rep isLower 1 none)
        (.opt reThirdWord)))))).ends s) := by
  rw [ends_seq]
  refine pairwise_chr_flatMap _ _ _ ?_
  intro m1
  rw [ends_seq]
  refine pairwise_rep_flatMap_fail isLower 1 none m1 _ ?_ ?_
  · intro m2
    rw [ends_seq]
    refine pairwise_rep_flatMap_fail isSpace 1 none m2 _ ?_ ?_
    · intro m3
      rw [ends_seq]
      refine pairwise_chr_flatMap _ _ _ ?_
      intro m4
      rw [ends_seq]
      exact pairwise_rep_flatMap_opt isLower 1 none m4 reThirdWord pairwise_reThirdWord
        reThirdWord_fail_of_lower
    · rintro m3 ⟨c, cs, h1, h2⟩
      rw [ends_seq, ends_chr_nil_of_head isUpper m3]
      · rfl
      · intro c2 cs2 h3
        rw [h1] at h3
        simp only [List.cons.injEq] at h3
        rw [← h3.1]
        exact isUpper_of_isSpace h2
  · rintro m2 ⟨c, cs, h1, h2⟩
    rw [ends_seq, ends_rep_nil_of_head isSpace 1 none m2 (by omega)]
    · rfl
    · intro c2 cs2 h3
      rw [h1] at h3
      simp only [List.cons.injEq] at h3
      rw [← h3.1]
      exact isSpace_of_isLower h2

theorem pairwise_namePattern (s : MState) : List.Pairwise Longer (namePattern.ends s) := by
  rw [namePattern_eq, ends_seq, List.pairwise_flatMap]
  constructor
  · intro a _
    exact pairwise_group 1 _ a (pairwise_nameCore a)
  · rw [ends_bolM]
    split
    · simp
    · split <;> simp

/-- The end states of the name pattern started at a position: the capitalized names that
start there, when the position is the start of a line; the capture is the name. -/
theorem mem_namePattern {pre rest : List Nat} {e : MState}
    (h : e ∈ namePattern.ends ⟨pre, rest, []⟩) :
    ∃ w, IsCapName w ∧ rest = w ++ e.rest ∧ LineStart pre ∧
      (e.caps.find? fun c => c.1 == 1) = some (1, w) := by
  rw [namePattern_eq, ends_seq, List.mem_flatMap] at h
  obtain ⟨s1, hs1, h⟩ := h
  obtain ⟨rfl, hline⟩ := mem_ends_bolM.mp hs1
  rw [ends_group, List.mem_map] at h
  obtain ⟨m, hm, rfl⟩ := h
  rw [ends_nameCore] at hm
  obtain ⟨w, hw, h1⟩ := mem_nameCore_sound hm
  simp only at h1 hline
  refine ⟨w, hw, h1, hline, ?_⟩
  simp only [List.find?_cons, beq_self_eq_true]
  rw [h1, take_append_length_sub]

theorem namePattern_of_nameAt {a w b : List Nat} (hw : IsCapName w) (hl : LineStart a.reverse) :
    ∃ e ∈ namePattern.ends ⟨a.reverse, w ++ b, []⟩, e.rest = b := by
  obtain ⟨m, hm, hmb⟩ := mem_nameCore_complete (s := ⟨a.reverse, w ++ b, []⟩) hw rfl
  refine ⟨{ m with caps := (1, (w ++ b).take ((w ++ b).length - m.rest.length)) :: m.caps },
    ?_, hmb⟩
  rw [namePattern_eq, ends_seq, List.mem_flatMap]
  refine ⟨_, mem_ends_bolM.mpr ⟨rfl, hl⟩, ?_⟩
  rw [ends_group, List.mem_map, ends_nameCore]
  exact ⟨m, hm, rfl⟩

/-! ## The capitalized-words strategy -/

/-- Trimming a text that neither starts nor ends with white space leaves it as it is. -/
theorem trim_eq_self (w : JSString) (h1 : ∀ c t, w = c :: t → isSpace c = false)
    (h2 : ∀ c t, w.reverse = c :: t → isSpace c = false) : trim w = w := by
  have hd : ∀ l : List Nat, (∀ c t, l = c :: t → isSpace c = false) → l.dropWhile isSpace = l := by
    intro l hl
    cases l with
    | nil => rfl
    | cons c t => rw [List.dropWhile_cons, hl c t rfl]; rfl
  unfold trim
  rw [hd w h1, hd w.reverse h2, List.reverse_reverse]

theorem isCapName_trim {w : JSString} (hw : IsCapName w) : trim w = w := by
  obtain ⟨w1, s1, w2, ⟨c1, l1, rfl, hc1, _, _⟩, _, ⟨c2, l2, rfl, _, hl2, hll2⟩, hcase⟩ := hw
  have hlast : ∀ (c : Nat) (l x : List Nat), l ≠ [] → (∀ y ∈ l, isLower y = true) →
      ∀ d t, (x ++ c :: l).reverse = d :: t → isSpace d = false := by
    intro c l x hl hll d t h
    obtain ⟨y, ys, hy⟩ := List.exists_cons_of_ne_nil (List.reverse_ne_nil_iff.mpr hl)
    rw [List.reverse_append, List.reverse_cons, hy] at h
    simp only [List.cons_append, List.cons.injEq] at h
    rw [← h.1]
    exact isSpace_of_isLower (hll y (List.mem_reverse.mp (by rw [hy]; exact List.mem_cons_self _ _)))
  apply trim_eq_self
  · intro c t h
    rcases hcase with rfl | ⟨s2, w3, _, _, rfl⟩
    · simp only [List.cons_append, List.cons.injEq] at h
      rw [← h.1]; exact isSpace_of_isUpper hc1
    · simp only [List.cons_append, List.cons.injEq] at h
      rw [← h.1]; exact isSpace_of_isUpper hc1
  · intro d t h
    rcases hcase with rfl | ⟨s2, w3, _, ⟨c3, l3, rfl, _, hl3, hll3⟩, rfl⟩
    · rw [← List.append_assoc] at h
      exact hlast c2 l2 _ hl2 hll2 d t h
    · rw [← List.append_assoc] at h
      exact hlast c3 l3 _ hl3 hll3 d t h

theorem isCapName_ne_nil {w : JSString} (hw : IsCapName w) : w ≠ [] := by
  obtain ⟨w1, s1, w2, ⟨c1, l1, rfl, _⟩, _, _, hcase⟩ := hw
  rcases hcase with rfl | ⟨s2, w3, _, _, rfl⟩ <;> simp

/-- What the last name strategy returns: nothing when no line of the text starts with a
capitalized name, and otherwise the longest capitalized name at the first line start
that has one. -/
theorem nameFromPattern_line_start (text : JSString) :
    (nameFromPattern [] text = [] ∧ ∀ i w, ¬ NameAt text i w) ∨
    ∃ i w, NameAt text i w ∧
      (∀ j v, NameAt text j v → i ≤ j ∧ (j = i → v.length ≤ w.length)) ∧
      nameFromPattern [] text = w := by
  unfold nameFromPattern jsMatch
  cases hs : search namePattern [] text with
  | none =>
    left
    refine ⟨rfl, ?_⟩
    rintro i w ⟨a, b, htext, _, hl, hw⟩
    have hn := search_none hs a (w ++ b) htext
    rw [List.append_nil, matchAt_eq_none_iff] at hn
    obtain ⟨e, he, _⟩ := namePattern_of_nameAt (b := b) hw hl
    rw [hn] at he
    simp at he
  | some f =>
    right
    obtain ⟨a0, h1, h2, h3, h4⟩ := search_some hs
    rw [List.append_nil] at h2
    have hmem : f.fin ∈ namePattern.ends ⟨f.pre, f.rest, []⟩ := List.mem_of_mem_head? h3
    obtain ⟨w0, hw0, hr, hline, hcap⟩ := mem_namePattern hmem
    refine ⟨a0.length, w0, ?_, ?_, ?_⟩
    · exact ⟨a0, f.fin.rest, by rw [h1, hr], rfl, by rw [← h2]; exact hline, hw0⟩
    · rintro j v ⟨a, b, htext, hj, hl, hv⟩
      obtain ⟨ev, hev, hevb⟩ := namePattern_of_nameAt (b := b) hv hl
      have heq : a0 ++ f.rest = a ++ (v ++ b) := by rw [← h1, htext]
      constructor
      · by_contra hlt
        rcases List.append_eq_append_iff.mp heq with ⟨a2, ha, hf⟩ | ⟨c2, ha, hf⟩
        · have := congrArg List.length ha
          simp only [List.length_append] at this
          omega
        · cases c2 with
          | nil =>
            rw [List.append_nil] at ha
            rw [ha] at hlt
            omega
          | cons x xs =>
            have hn := h4 a (x :: xs) ha (by simp)
            rw [List.append_nil, matchAt_eq_none_iff, ← hf] at hn
            rw [hn] at hev
            simp at hev
      · intro hji
        have hal : a.length = a0.length := by rw [hj, hji]
        have ha : a0 = a := (List.append_inj heq hal.symm).1
        have hf : f.rest = v ++ b := (List.append_inj heq hal.symm).2
        subst ha
        rw [← hf, ← h2] at hev
        have hle := head_longest (pairwise_namePattern _) h3 _ hev
        rw [hevb] at hle
        have l1 := congrArg List.length hr
        have l2 := congrArg List.length hf
        simp only [List.length_append] at l1 l2
        omega
    · simp only
      have hc : f.cap 1 = some w0 := by
        unfold Found.cap
        rw [hcap]
        rfl
      rw [hc]
      cases hw : w0 with
      | nil => exact absurd hw (isCapName_ne_nil hw0)
      | cons c cs =>
        simp only
        rw [← hw]
        exact isCapName_trim hw0

set_option maxRecDepth 100000 in
/-- C25 as stated fails: in `"- John Smith is here"` the earlier strategies find no name
and two capitalized words separated by a space occur at offset 2, yet the name is empty,
because the pattern is anchored to the start of a line. -/
theorem name_pattern_not_anywhere :
    nameFromCapitalizedLines (nameFromCapsLines (nameFromFirstLine
      (nameFromLabels namePatterns1 (js "- John Smith is here"))
      (lines (js "- John Smith is here"))) (lines (js "- John Smith is here")))
      (lines (js "- John Smith is here")) = [] ∧
    js "- John Smith is here" = js "- " ++ (js "John Smith" ++ js " is here") ∧
    (extractResumeData (js "- John Smith is here")).name = [] ∧
    (extractResumeData (js "- John Smith is here")).name ≠ js "John Smith" := by
  decide

/-- C25 amended. The last name strategy matches at the start of a line only: for every
text on which the earlier strategies find no name, the extracted name is empty when no
line of the text starts with two capitalized words (an uppercase letter followed by
lowercase letters) separated by white space, and is otherwise the occurrence at the first
such line start, extended by a third capitalized word when one follows (the longest
occurrence at that position). The white space between the words may hold line breaks. -/
theorem name_pattern_line_start (text : JSString)
    (hprev : nameFromCapitalizedLines (nameFromCapsLines (nameFromFirstLine
      (nameFromLabels namePatterns1 text) (lines text)) (lines text)) (lines text) = []) :
    ((extractResumeData text).name = [] ∧ ∀ i w, ¬ NameAt text i w) ∨
    ∃ i w, NameAt text i w ∧
      (∀ j v, NameAt text j v → i ≤ j ∧ (j = i → v.length ≤ w.length)) ∧
      (extractResumeData text).name = w := by
  have hname : (extractResumeData text).name = nameFromPattern [] text := by
    cases text with
    | nil => rfl
    | cons x xs =>
      show extractName (x :: xs) = _
      unfold extractName
      rw [hprev]
  rw [hname]
  exact nameFromPattern_line_start text

set_option maxRecDepth 100000 in
/-- Witness of C25 amended: the two words start the second line. -/
theorem name_pattern_line_start_witness :
    (extractResumeData (js "intro\nJohn Smith is here")).name = js "John Smith" ∧
    (((extractResumeData (js "intro\nJohn Smith is here")).name = [] ∧
        ∀ i w, ¬ NameAt (js "intro\nJohn Smith is here") i w) ∨
      ∃ i w, NameAt (js "intro\nJohn Smith is here") i w ∧
        (∀ j v, NameAt (js "intro\nJohn Smith is here") j v →
          i ≤ j ∧ (j = i → v.length ≤ w.length)) ∧
        (extractResumeData (js "intro\nJohn Smith is here")).name = w) :=
  ⟨by decide, name_pattern_line_start (js "intro\nJohn Smith is here") (by decide)⟩

end Somehow
